import Mathlib

/-!
# Module declaration graph resolver of selefra (`config/config.go`)

A shallow embedding of the resolver functions of `config/config.go`
(`checkCycle`, `makeCyclePathMap`, `getAllModules`, `checkModuleFile`,
`makeUsesModule`, `deepFmtModules`, `GetModulesStr`, `readAllConfig`,
`readConfigFile`, `assembleNode`, `fmtNodePath`, `deepPathModules`,
`GetAllConfig`, `GetSchemaKey`), of the package cache of `pkg/utils/home.go`
(`GetHomeModulesPath`, `ModulesUpdate`), of `match` and `getSqlTables` of
`cmd/apply/apply.go` and of `update` of `cmd/provider/update.go`, together
with theorems about them.

Conventions of the embedding.

* A Go `map[string]T` is an association list `List (String × T)`; a lookup of
  an absent key gives the zero value of `T`.  Go leaves the order in which
  `range` visits a map unspecified, so a function with such a loop takes the
  order as a list of keys (`order`), and statements that must hold for every
  run quantify over it.
* Recursive Go functions that need not terminate take a `fuel : Nat` and return
  `none` when the fuel does not suffice; `some r` is a finished run.
* A `yaml.Node` is a tree of kind, value and content; nodes that Go changes in
  place through pointers are passed and returned as values.
-/

namespace Selefra

/-! ## Definitions -/

/-- Decoded `Module` of a yaml document: `Name` and `Uses` (`Children` carries
the tag `yaml:"-"` and is never read from a document). -/
structure ModuleNode where
  name : String
  uses : List String
  deriving DecidableEq, Repr

/-- The map `nodesMap map[string]*yaml.Node`, each node seen through
`yaml.Unmarshal` into `ModuleConfig`: document path to its declarations. -/
abbrev NodesMap := List (String × List ModuleNode)

/-- The adjacency map `map[string][]string` of the cycle detector. -/
abbrev CyclePathMap := List (String × List String)

/-- Go map index `m[k]` for a map of slices: the `nil` slice when `k` is absent. -/
def getPaths (m : CyclePathMap) (k : String) : List String :=
  match m.lookup k with
  | some l => l
  | none => []

/-- Go test `nodesMap[k] != nil`. -/
def hasKey {α : Type} (m : List (String × α)) (k : String) : Bool :=
  (m.lookup k).isSome

/-- Function `makeCyclePathMap`: for every document the references of its
declarations, in declaration order and then `uses` order, that are keys of
`nodesMap`. -/
def makeCyclePathMap (nodesMap : NodesMap) : CyclePathMap :=
  nodesMap.map fun entry =>
    (entry.1, (entry.2.flatMap fun module => module.uses).filter fun use => hasKey nodesMap use)

/-- Function `checkCycle`.  The pointer argument `cyclePathList` is threaded as
a value: the result is the returned boolean and the final content of
`*cyclePathList`.  Every iteration of the `for` loop takes one unit of fuel. -/
def checkCycle : Nat → CyclePathMap → String → List String → List String →
    Option (Bool × List String)
  | _, _, _, [], cyclePathList => some (false, cyclePathList)
  | 0, _, _, _ :: _, _ => none
  | fuel + 1, cyclePathMap, path, p :: rest, cyclePathList =>
    if p = path then some (true, cyclePathList ++ [p])
    else
      match checkCycle fuel cyclePathMap path (getPaths cyclePathMap p) (cyclePathList ++ [p]) with
      | none => none
      | some (true, l) => some (true, l)
      | some (false, l) => checkCycle fuel cyclePathMap path rest l.dropLast

/-- The error text built by `GetModulesStr` for a chain. -/
def circularMessage (cyclePathList : List String) : String :=
  "Modules have circular references:" ++ String.intercalate " -> " cyclePathList

/-- The loop `for cyclePath, paths := range cyclePathMap` of `GetModulesStr`
(lines 455-461) over the keys still to visit, `paths` being `cyclePathMap[cyclePath]`:
`some (some msg)` is the early return with the error `msg`, `some none` is a
loop that ran to its end. -/
def cycleLoop (fuel : Nat) (cyclePathMap : CyclePathMap) : List String → Option (Option String)
  | [] => some none
  | cyclePath :: rest =>
    match checkCycle fuel cyclePathMap cyclePath (getPaths cyclePathMap cyclePath) [cyclePath] with
    | none => none
    | some (true, l) => some (some (circularMessage l))
    | some (false, _) => cycleLoop fuel cyclePathMap rest

/-! ### Go standard library: `strings`, `path`, `path/filepath` (Unix) -/

/-- Go `strings.HasPrefix`. -/
def hasPrefix (s pre : String) : Bool :=
  pre.data.isPrefixOf s.data

/-- Go `strings.HasSuffix`. -/
def hasSuffix (s suf : String) : Bool :=
  suf.data.reverse.isPrefixOf s.data.reverse

/-- Splitting of a character list at every `'/'`; `cur` is the segment being
read, reversed. -/
def splitSlashAux : List Char → List Char → List (List Char)
  | cur, [] => [cur.reverse]
  | cur, c :: cs =>
    if c = '/' then cur.reverse :: splitSlashAux [] cs else splitSlashAux (c :: cur) cs

/-- Go `strings.Split(s, "/")`: always at least one segment. -/
def splitSlash (s : String) : List String :=
  (splitSlashAux [] s.data).map String.mk

/-- Go `strings.Join(elems, "/")`. -/
def joinSlash (elems : List String) : String :=
  String.intercalate "/" elems

/-- Replacement of the first occurrence of `old` in a character list. -/
def replaceFirstAux (old new : List Char) : List Char → List Char
  | [] => if old = [] then new else []
  | c :: cs =>
    if old.isPrefixOf (c :: cs) then new ++ (c :: cs).drop old.length
    else c :: replaceFirstAux old new cs

/-- Go `strings.Replace(s, old, new, 1)`. -/
def replaceFirst (s old new : String) : String :=
  String.mk (replaceFirstAux old.data new.data s.data)

/-- Go `strings.Index(s, sub) > -1`. -/
def containsSub (s sub : String) : Bool :=
  s.data.tails.any fun t => sub.data.isPrefixOf t

/-- Go `path.IsAbs`. -/
def isAbs (p : String) : Bool :=
  match p.data with
  | c :: _ => c == '/'
  | [] => false

/-- One step of the element scan of Go `filepath.Clean`; `acc` holds the
elements kept so far, last element first. -/
def cleanStep (rooted : Bool) (acc : List String) (elem : String) : List String :=
  if elem = "" ∨ elem = "." then acc
  else if elem = ".." then
    match acc with
    | [] => if rooted then [] else [".."]
    | top :: below => if top = ".." then ".." :: top :: below else below
  else elem :: acc

/-- Go `filepath.Clean` (lexical): empty and `.` elements are dropped, `..`
removes the element before it, a rooted path keeps its leading slash, and the
empty result is `.`. -/
def clean (p : String) : String :=
  if p = "" then "."
  else
    let rooted := isAbs p
    let elems := ((splitSlash p).foldl (cleanStep rooted) []).reverse
    if rooted then "/" ++ joinSlash elems
    else if elems = [] then "." else joinSlash elems

/-- Go `filepath.Join(a, b)`: the arguments from the first non-empty one on are
joined by a slash and cleaned; two empty arguments give the empty string. -/
def filepathJoin (a b : String) : String :=
  if a = "" then (if b = "" then "" else clean b)
  else clean (a ++ "/" ++ b)

/-- The part of a character list up to and including its last `'/'`. -/
def dirPrefix : List Char → List Char
  | [] => []
  | c :: cs =>
    let r := dirPrefix cs
    if r = [] then (if c = '/' then [c] else []) else c :: r

/-- Go `filepath.Dir`. -/
def filepathDir (p : String) : String :=
  clean (String.mk (dirPrefix p.data))

/-! ### The world outside the resolver -/

/-- What `os.Stat` and `os.ReadDir` tell about one file: `Name()`, `IsDir()`,
and whether `Info()` of the directory entry succeeds. -/
structure FileInfo where
  name : String
  isDir : Bool
  infoOk : Bool := true

/-- The file system as the resolver reads it; `none` is an `error` result.
`statDenied` tells for which paths the error of `os.Stat` is another one than
"does not exist" (`os.IsNotExist` is false for it). -/
structure FileSystem where
  stat : String → Option FileInfo
  readDir : String → Option (List FileInfo)
  readFile : String → Option String
  statDenied : String → Bool := fun _ => false

/-- Mutable state outside the resolver: the file system (the package cache is
part of it) and the package-level variable `utils.LatestVersion`. -/
structure World where
  fs : FileSystem
  latestVersion : String

/-- Collaborators the resolver calls: `global.WorkSpace()`, `yaml.Unmarshal`
into a `ModuleConfig`, and `utils.GetHomeModulesPath(modules, org)`, which may
change the world (it downloads packages). -/
structure Collab where
  workSpace : String
  unmarshal : String → Except String (List ModuleNode)
  getHomeModulesPath : World → String → String → Except String String × World

/-- How a run can fail: an `error` value that is returned, the run-time
panic of an index that is out of range, or the run-time panic of a nil
dereference. -/
inductive Failure where
  | error (msg : String)
  | indexOutOfRange
  | nilDereference
  deriving DecidableEq, Repr

deriving instance DecidableEq for Except

/-- Go map assignment `m[k] = v`. -/
def setKey {α : Type} : List (String × α) → String → α → List (String × α)
  | [], k, v => [(k, v)]
  | (k1, v1) :: rest, k, v => if k1 = k then (k, v) :: rest else (k1, v1) :: setKey rest k v

/-- Indexing `arr[i]` of a Go slice, with the panic made explicit. -/
def index {α : Type} (arr : List α) (i : Nat) : Except Failure α :=
  match arr[i]? with
  | some a => .ok a
  | none => .error .indexOutOfRange

/-! ### Graph discovery: `getAllModules` and `checkModuleFile` -/

/-- State of graph discovery: the map `configMap` that is filled, and the world. -/
structure Discovery where
  configMap : List (String × String)
  world : World

/-- Lines 498-522 of `getAllModules`: classification of the reference `path`
and computation of `waitUsePath` and of the `workspace` handed down. -/
def resolveReference (c : Collab) (world : World) (workspace path : String) :
    Except Failure ((String × String) × World) :=
  if hasPrefix path "selefra/" then
    match index (splitSlash path) 1 with
    | .error e => .error e
    | .ok modulesName =>
      let res := c.getHomeModulesPath world modulesName ""
      let modulePath := match res.1 with
        | .ok p => p
        | .error _ => ""
      .ok ((replaceFirst path "selefra" modulePath, modulePath ++ "/" ++ modulesName), res.2)
  else if hasPrefix path "app.selefra.io" then
    match index (splitSlash path) 1 with
    | .error e => .error e
    | .ok modulesOrg =>
      match index (splitSlash path) 2 with
      | .error e => .error e
      | .ok modulesName =>
        let res := c.getHomeModulesPath world modulesName modulesOrg
        let modulePath := match res.1 with
          | .ok p => p
          | .error _ => ""
        .ok ((replaceFirst path (joinSlash ((splitSlash path).take 2)) modulePath,
          modulePath ++ "/" ++ modulesName), res.2)
  else
    .ok ((filepathJoin workspace path, if workspace = "" then c.workSpace else workspace), world)

/-- A loop that runs `body` on every element in turn, threading the state;
`none` (no fuel) and a panic both stop the loop. -/
def forEach {α σ : Type} (body : σ → α → Option (Except Failure σ)) :
    σ → List α → Option (Except Failure σ)
  | st, [] => some (.ok st)
  | st, a :: rest =>
    match body st a with
    | none => none
    | some (.error e) => some (.error e)
    | some (.ok st1) => forEach body st1 rest

/-- Function `checkModuleFile`, with the recursive call of `getAllModules`
passed in as `recurse`.  The result carries the returned `error` (as a flag)
and the state; the log output is not modelled. -/
def checkModuleFile (c : Collab)
    (recurse : Discovery → String → String → Option (Except Failure Discovery))
    (st : Discovery) (workspace waitUsePath : String) (file : FileInfo) :
    Option (Except Failure (Bool × Discovery)) :=
  let target : Option String :=
    if hasSuffix waitUsePath ".yaml" then some waitUsePath
    else if hasSuffix file.name ".yaml" then some (filepathJoin waitUsePath file.name)
    else none
  match target with
  | none => some (.ok (true, st))
  | some waitUsePath1 =>
    match st.world.fs.readFile waitUsePath1 with
    | none => some (.ok (true, st))
    | some b =>
      if containsSub b "modules:" then
        let st1 : Discovery := { st with configMap := setKey st.configMap waitUsePath1 b }
        match c.unmarshal b with
        | .error _ => some (.ok (true, st1))
        | .ok modules =>
          match forEach (fun s use => recurse s workspace use)
              st1 (modules.flatMap fun module => module.uses) with
          | none => none
          | some (.error e) => some (.error e)
          | some (.ok st2) => some (.ok (false, st2))
      else some (.ok (false, st))

/-- Function `getAllModules`.  Every call takes one unit of fuel; `none` is a
run that does not return within the fuel. -/
def getAllModules (c : Collab) :
    Nat → Discovery → String → String → Option (Except Failure Discovery)
  | 0, _, _, _ => none
  | fuel + 1, st, workspace, path =>
    match resolveReference c st.world workspace path with
    | .error e => some (.error e)
    | .ok ((waitUsePath, workspace1), world1) =>
      let st1 : Discovery := { st with world := world1 }
      match st1.world.fs.stat waitUsePath with
      | none => some (.ok st1)
      | some file =>
        if file.isDir then
          match st1.world.fs.readDir waitUsePath with
          | none => some (.ok st1)
          | some files =>
            forEach (fun s f =>
                if f.infoOk then
                  match checkModuleFile c (getAllModules c fuel) s workspace1 waitUsePath f with
                  | none => none
                  | some (.error e) => some (.error e)
                  | some (.ok (_, s1)) => some (.ok s1)
                else some (.ok s))
              st1 files
        else
          match checkModuleFile c (getAllModules c fuel) st1 workspace1 waitUsePath file with
          | none => none
          | some (.error e) => some (.error e)
          | some (.ok (_, s1)) => some (.ok s1)

/-! ### Flattening: `makeUsesModule` and `deepFmtModules` -/

/-- Go struct `Module` while `makeUsesModule` works on `ModulesMap`.  A child is
a pointer `*ModuleConfig` to a value of `ModulesMap`; every key owns exactly one
such value, so the pointer is represented by its key. -/
structure Module where
  name : String
  uses : List String
  children : List String
  deriving DecidableEq, Repr

/-- Go struct `ModuleConfig`: the declarations of one document. -/
abbrev ModuleConfig := List Module

/-- The local map `ModulesMap map[string]*ModuleConfig`. -/
abbrev ModulesMap := List (String × ModuleConfig)

/-- Dereference of `ModulesMap[k]`. -/
def getConfig (m : ModulesMap) (k : String) : ModuleConfig :=
  match m.lookup k with
  | some cfg => cfg
  | none => []

/-- In-place update of the value `*ModulesMap[k]`. -/
def modifyConfig (f : ModuleConfig → ModuleConfig) : ModulesMap → String → ModulesMap
  | [], _ => []
  | (k1, cfg) :: rest, k =>
    if k1 = k then (k1, f cfg) :: rest else (k1, cfg) :: modifyConfig f rest k

/-- In-place update of the element `arr[i]`. -/
def modifyAt {α : Type} (f : α → α) : List α → Nat → List α
  | [], _ => []
  | a :: rest, 0 => f a :: rest
  | a :: rest, i + 1 => a :: modifyAt f rest i

/-- First loop of `makeUsesModule`: every node is decoded into a fresh
`ModuleConfig`; `Children` starts empty. -/
def decodeNodes (nodesMap : NodesMap) : ModulesMap :=
  nodesMap.map fun entry =>
    (entry.1, entry.2.map fun node => { name := node.name, uses := node.uses, children := [] })

/-- State of the usage-marking pass. -/
structure Marking where
  modulesMap : ModulesMap
  usedModuleMap : List String
  world : World

/-- Lines 633-650: the new value of `Uses[ii]` for the reference `use`.  The two
prefix tests are made on the same original `use`. -/
def rewriteUse (c : Collab) (world : World) (use : String) :
    Except Failure (String × World) :=
  let first : Except Failure (String × World) :=
    if hasPrefix use "selefra" then
      match index (splitSlash use) 1 with
      | .error e => .error e
      | .ok modulesName =>
        match c.getHomeModulesPath world modulesName "" with
        | (.error e, _) => .error (.error e)
        | (.ok modules, world1) => .ok (replaceFirst use "selefra" modules, world1)
    else .ok (use, world)
  match first with
  | .error e => .error e
  | .ok (use1, world1) =>
    if hasPrefix use "app.selefra.io" then
      match index (splitSlash use) 1 with
      | .error e => .error e
      | .ok modulesOrg =>
        match index (splitSlash use) 2 with
        | .error e => .error e
        | .ok modulesName =>
          let res := c.getHomeModulesPath world1 modulesName modulesOrg
          let modulePath := match res.1 with
            | .ok p => p
            | .error _ => ""
          .ok (replaceFirst use (joinSlash ((splitSlash use).take 2)) modulePath, res.2)
    else .ok (use1, world1)

/-- The loop of lines 632-651 over the `uses` of one declaration. -/
def rewriteUses (c : Collab) : World → List String → Except Failure (List String × World)
  | world, [] => .ok ([], world)
  | world, use :: rest =>
    match rewriteUse c world use with
    | .error e => .error e
    | .ok (use1, world1) =>
      match rewriteUses c world1 rest with
      | .error e => .error e
      | .ok (rest1, world2) => .ok (use1 :: rest1, world2)

/-- Lines 656-661: every reference of every declaration of the child document
is joined to the directory of `use`. -/
def rebaseUses (use : String) (cfg : ModuleConfig) : ModuleConfig :=
  cfg.map fun module =>
    { module with uses := module.uses.map fun u => filepathJoin (filepathDir use) u }

/-- One iteration of the loop of lines 652-665, for the reference at index `j`
of declaration `i` of document `key`; the reference is read from the current
state, as `range` does. -/
def markUse (key : String) (i j : Nat) (st : Marking) : Marking :=
  match (getConfig st.modulesMap key)[i]? with
  | none => st
  | some module =>
    match module.uses[j]? with
    | none => st
    | some use =>
      if hasKey st.modulesMap use then
        let m1 := if isAbs use then modifyConfig (rebaseUses use) st.modulesMap use
          else st.modulesMap
        let m2 := modifyConfig
          (fun cfg => modifyAt (fun md => { md with children := md.children ++ [use] }) cfg i)
          m1 key
        { st with modulesMap := m2, usedModuleMap := use :: st.usedModuleMap }
      else st

/-- Body of `for i := range moduleConfig.Modules` (lines 631-666). -/
def markModule (c : Collab) (key : String) (st : Marking) (i : Nat) :
    Except Failure Marking :=
  match (getConfig st.modulesMap key)[i]? with
  | none => .ok st
  | some module =>
    match rewriteUses c st.world module.uses with
    | .error e => .error e
    | .ok (uses1, world1) =>
      let m1 := modifyConfig (fun cfg => modifyAt (fun md => { md with uses := uses1 }) cfg i)
        st.modulesMap key
      let st1 : Marking := { st with modulesMap := m1, world := world1 }
      .ok ((List.range uses1.length).foldl (fun s j => markUse key i j s) st1)

/-- A loop whose body may fail. -/
def foldExcept {α σ : Type} (body : σ → α → Except Failure σ) : σ → List α → Except Failure σ
  | st, [] => .ok st
  | st, a :: rest =>
    match body st a with
    | .error e => .error e
    | .ok st1 => foldExcept body st1 rest

/-- Body of `for _, moduleConfig := range ModulesMap` (lines 630-667) for the
document `key`. -/
def markConfig (c : Collab) (st : Marking) (key : String) : Except Failure Marking :=
  foldExcept (markModule c key) st (List.range (getConfig st.modulesMap key).length)

/-- The usage-marking pass; `order` is the order in which `range` visits the keys. -/
def markAll (c : Collab) (st : Marking) (order : List String) : Except Failure Marking :=
  foldExcept (markConfig c) st order

/-- A `Module` value reached through `json.Unmarshal`: the children are owned
copies, not pointers into `ModulesMap`. -/
inductive ModuleTree where
  | mk (name : String) (uses : List String) (children : List (List ModuleTree)) : ModuleTree

/-- Field `Name`. -/
def ModuleTree.name : ModuleTree → String
  | .mk n _ _ => n

/-- Field `Uses`. -/
def ModuleTree.uses : ModuleTree → List String
  | .mk _ u _ => u

/-- Field `Children`. -/
def ModuleTree.children : ModuleTree → List (List ModuleTree)
  | .mk _ _ cs => cs

/-- A fallible map over a list. -/
def mapOption {α β : Type} (f : α → Option β) : List α → Option (List β)
  | [] => some []
  | a :: rest =>
    match f a with
    | none => none
    | some b =>
      match mapOption f rest with
      | none => none
      | some bs => some (b :: bs)

/-- The round trip `json.Marshal(ModulesMap[s])`, `json.Unmarshal(b, tempModules)`
of lines 672-680: the pointers in `Children` are followed and every document
reached is copied.  A pointer cycle has no finite copy: no fuel suffices, and
the result is `none`; the error "encountered a cycle via *config.ModuleConfig"
with which `json.Marshal` gives such a value up has no counterpart here. -/
def copyConfig (m : ModulesMap) : Nat → ModuleConfig → Option (List ModuleTree)
  | 0, _ => none
  | fuel + 1, cfg =>
    mapOption (fun module =>
      match mapOption (fun k => copyConfig m fuel (getConfig m k)) module.children with
      | none => none
      | some cs => some (ModuleTree.mk module.name module.uses cs)) cfg

/-- First loop of `deepFmtModules` (lines 693-698): the references marked used
are deleted from `module.Uses`. -/
def pruneUses (usedModuleMap : List String) : List String → List String
  | [] => []
  | use :: rest =>
    if use ∈ usedModuleMap then pruneUses usedModuleMap rest
    else use :: pruneUses usedModuleMap rest

mutual
/-- Function `deepFmtModules` for a module whose field `Name` currently holds
`name` (the caller has overwritten it in line 702 before the call).  The result
lists what `yaml.Marshal` writes of each returned `Module`: name and uses. -/
def fmtModule (usedModuleMap : List String) (name : String) : ModuleTree → List ModuleNode
  | .mk _ uses children =>
    fmtChildren usedModuleMap name children ++
      [{ name := name, uses := pruneUses usedModuleMap uses }]
/-- The loop `for i := range module.Children` of lines 700-707. -/
def fmtChildren (usedModuleMap : List String) (name : String) :
    List (List ModuleTree) → List ModuleNode
  | [] => []
  | cfg :: rest => fmtConfig usedModuleMap name cfg ++ fmtChildren usedModuleMap name rest
/-- The loops of lines 701-706 over one child document: each declaration is
renamed to `name.childName` and flattened in turn. -/
def fmtConfig (usedModuleMap : List String) (name : String) :
    List ModuleTree → List ModuleNode
  | [] => []
  | child :: rest =>
    fmtModule usedModuleMap (name ++ "." ++ child.name) child ++
      fmtConfig usedModuleMap name rest
end

/-- Function `deepFmtModules`, called on a module of the copy `tempModules`. -/
def deepFmtModules (module : ModuleTree) (usedModuleMap : List String) : List ModuleNode :=
  fmtModule usedModuleMap module.name module

/-- The merge loop of lines 668-684; `order` is the order in which `range`
visits the keys of `ModulesMap`. -/
def mergeAll (fuel : Nat) (m : ModulesMap) (usedModuleMap : List String) :
    List String → Option (List ModuleNode)
  | [] => some []
  | s :: rest =>
    if s ∈ usedModuleMap then mergeAll fuel m usedModuleMap rest
    else
      match copyConfig m fuel (getConfig m s) with
      | none => none
      | some tempModules =>
        match mergeAll fuel m usedModuleMap rest with
        | none => none
        | some out => some ((tempModules.flatMap fun t => deepFmtModules t usedModuleMap) ++ out)

/-- Function `makeUsesModule`.  `order1` and `order2` are the orders in which
the two `range` loops over `ModulesMap` visit its keys.  The result is the list
of modules that is marshalled to yaml; `none` is a run that does not finish.
The documents arrive decoded in `nodesMap`: the errors of `yaml.Marshal` and
`yaml.Unmarshal` in the first loop (lines 620-627) and of the json round trip
(lines 673-680) have no counterpart here. -/
def makeUsesModule (c : Collab) (world : World) (fuel : Nat) (nodesMap : NodesMap)
    (order1 order2 : List String) : Option (Except Failure (List ModuleNode)) :=
  match markAll c { modulesMap := decodeNodes nodesMap, usedModuleMap := [], world := world }
      order1 with
  | .error e => some (.error e)
  | .ok st =>
    match mergeAll fuel st.modulesMap st.usedModuleMap order2 with
    | none => none
    | some out => some (.ok out)

/-- Function `GetModulesStr` from line 451 on, `moduleMap` being the documents
as decoded from the nodes that `assembleNode` and `deepPathModules` leave:
cycle detection over every document, then flattening.  `order0`, `order1` and
`order2` are the orders in which the three `range` loops visit the map keys. -/
def GetModulesStr (c : Collab) (world : World) (fuel : Nat) (moduleMap : NodesMap)
    (order0 order1 order2 : List String) : Option (Except Failure (List ModuleNode)) :=
  match cycleLoop fuel (makeCyclePathMap moduleMap) order0 with
  | none => none
  | some (some msg) => some (.error (.error msg))
  | some none => makeUsesModule c world fuel moduleMap order1 order2

/-! ### Notions and example document sets used in the theorems -/

/-- Edge of the adjacency relation held in a cycle map: `b` occurs in `m[a]`. -/
def Edge (m : CyclePathMap) (a b : String) : Prop :=
  b ∈ getPaths m a

/-- The documents A, B, C with A uses B, B uses C, C uses A. -/
def ringDocs : NodesMap :=
  [("A", [⟨"a", ["B"]⟩]), ("B", [⟨"b", ["C"]⟩]), ("C", [⟨"c", ["A", "rules/r.yaml"]⟩])]

/-- Three documents in the workspace `ws`: `s` uses `b`, `b` uses `c`, `c` uses
`b`; the cycle between `b` and `c` does not pass through `s`. -/
def strayDocs : NodesMap :=
  [("ws/s.yaml", [⟨"s", ["ws/b.yaml"]⟩]), ("ws/b.yaml", [⟨"b", ["ws/c.yaml"]⟩]),
    ("ws/c.yaml", [⟨"c", ["ws/b.yaml"]⟩])]

/-- Two documents without a cycle: `a` uses `b` and a rule file. -/
def acyclicDocs : NodesMap :=
  [("a.yaml", [⟨"a", ["b.yaml", "rules/r.yaml"]⟩]), ("b.yaml", [⟨"b", []⟩])]

/-- Text of `/ws/a.yaml`: one module that uses `b.yaml`. -/
def textA : String := "modules:\n  - name: a\n    uses:\n      - b.yaml\n"

/-- Text of `/ws/b.yaml`: one module that uses `a.yaml`. -/
def textB : String := "modules:\n  - name: b\n    uses:\n      - a.yaml\n"

/-- Text of `/ws/self.yaml`: one module that uses `self.yaml`. -/
def textSelf : String := "modules:\n  - name: self\n    uses:\n      - self.yaml\n"

/-- A workspace `/ws` with the three files `a.yaml`, `b.yaml` and `self.yaml`. -/
def loopWorld : World where
  fs := {
    stat := fun p =>
      if p = "/ws/a.yaml" then some { name := "a.yaml", isDir := false }
      else if p = "/ws/b.yaml" then some { name := "b.yaml", isDir := false }
      else if p = "/ws/self.yaml" then some { name := "self.yaml", isDir := false }
      else none
    readDir := fun _ => none
    readFile := fun p =>
      if p = "/ws/a.yaml" then some textA
      else if p = "/ws/b.yaml" then some textB
      else if p = "/ws/self.yaml" then some textSelf
      else none }
  latestVersion := ""

/-- Collaborators for `loopWorld`: the yaml decoder on the three texts, and no
package registry. -/
def loopCollab : Collab where
  workSpace := "/ws"
  unmarshal := fun b =>
    if b = textA then .ok [⟨"a", ["b.yaml"]⟩]
    else if b = textB then .ok [⟨"b", ["a.yaml"]⟩]
    else if b = textSelf then .ok [⟨"self", ["self.yaml"]⟩]
    else .error "yaml: unmarshal errors"
  getHomeModulesPath := fun w _ _ => (.error "registry unreachable", w)

/-- A world with an empty file system. -/
def offlineWorld : World where
  fs := { stat := fun _ => none, readDir := fun _ => none, readFile := fun _ => none }
  latestVersion := ""

/-- Collaborators without a package registry. -/
def offlineCollab : Collab where
  workSpace := "/ws"
  unmarshal := fun _ => .error "yaml: unmarshal errors"
  getHomeModulesPath := fun w _ _ => (.error "registry unreachable", w)

/-- Collaborators whose package cache is `/home/u/.selefra/download/modules` and
always up to date. -/
def cachedCollab : Collab where
  workSpace := "/ws"
  unmarshal := fun _ => .error "yaml: unmarshal errors"
  getHomeModulesPath := fun w _ _ => (.ok "/home/u/.selefra/download/modules", w)

/-- Workspace `/ws`: `root.yaml` (declaration `r`) uses the path of `mid.yaml`,
`mid.yaml` (declaration `m`) uses the path of `leaf.yaml`, and `leaf.yaml`
(declaration `l`) uses a rule file. -/
def nestedAbsDocs : NodesMap :=
  [("/ws/root.yaml", [⟨"r", ["/ws/mid.yaml"]⟩]),
    ("/ws/mid.yaml", [⟨"m", ["/ws/leaf.yaml"]⟩]),
    ("/ws/leaf.yaml", [⟨"l", ["rules/x.yaml"]⟩])]

/-- The effect of the marking loop on one declaration when no reference is
rewritten: the references that are keys are appended to `Children`. -/
def attachUses (m : ModulesMap) (md : Module) : Module :=
  { md with children := md.children ++ md.uses.filter (hasKey m) }

/-- A reference list is plain for `m`: no reference has a package prefix, and a
reference that is a key of `m` is not an absolute path. -/
def PlainUses (m : ModulesMap) (uses : List String) : Prop :=
  ∀ u ∈ uses, hasPrefix u "selefra" = false ∧ hasPrefix u "app.selefra.io" = false ∧
    (hasKey m u = true → isAbs u = false)

/-- Every declaration of every document of `m` has plain references. -/
def PlainMap (m : ModulesMap) : Prop :=
  ∀ k, ∀ md ∈ getConfig m k, PlainUses m md.uses

/-- The references of the declarations of document `k` that are keys of `m0`. -/
def keyUses (m0 m : ModulesMap) (k : String) : List String :=
  (getConfig m k).flatMap fun md => md.uses.filter (hasKey m0)

/-- Go map index `nodesMap[k]` seen through the decoder: the declarations of
document `k`. -/
def getNodes (nodesMap : NodesMap) (k : String) : List ModuleNode :=
  match nodesMap.lookup k with
  | some l => l
  | none => []

/-- The references of a document set are plain: none has a package prefix, and
none that is the path of a known document is absolute. -/
def PlainNodes (nodesMap : NodesMap) : Prop :=
  ∀ e ∈ nodesMap, ∀ n ∈ e.2, ∀ u ∈ n.uses,
    hasPrefix u "selefra" = false ∧ hasPrefix u "app.selefra.io" = false ∧
      (hasKey nodesMap u = true → isAbs u = false)

/-- The state of `ModulesMap` after the marking pass on plain references: every
declaration has as children its references to known documents. -/
def attachedMap (nodesMap : NodesMap) : ModulesMap :=
  nodesMap.map fun e =>
    (e.1, e.2.map fun n =>
      { name := n.name, uses := n.uses, children := n.uses.filter (hasKey nodesMap) })

/-- The references to known documents made by the declarations of document `k`. -/
def referencesOf (nodesMap : NodesMap) (k : String) : List String :=
  (getNodes nodesMap k).flatMap fun n => n.uses.filter (hasKey nodesMap)

/-- The copy of one declaration made by the json round trip. -/
def copyModule (m : ModulesMap) (fuel : Nat) (module : Module) : Option ModuleTree :=
  match mapOption (fun k => copyConfig m fuel (getConfig m k)) module.children with
  | none => none
  | some cs => some (ModuleTree.mk module.name module.uses cs)

/-- The name `s` is `nm` itself or `nm` followed by a dot and a suffix: the
shape of every qualified name that flattening builds below `nm`. -/
def Extends (nm s : String) : Prop :=
  ∃ x : List Char, s.data = nm.data ++ x ∧ (x = [] ∨ ∃ y, x = '.' :: y)

/-- The names of the declarations of the child documents attached to `md`. -/
def childNames (m : ModulesMap) (md : Module) : List String :=
  md.children.flatMap fun k => (getConfig m k).map fun child => child.name

/-- Two documents: `root.yaml` declares `r`, which uses `child.yaml` and a rule
file; `child.yaml` declares `c` and `d`. -/
def plainDocs : NodesMap :=
  [("root.yaml", [⟨"r", ["child.yaml", "rules/r.yaml"]⟩]),
    ("child.yaml", [⟨"c", ["rules/c.yaml"]⟩, ⟨"d", []⟩])]

/-- The failures the marking loop of `makeUsesModule` (lines 630-667) can hand
back: the panic of an index out of range, or an error returned by
`GetHomeModulesPath` for a public package. -/
def FromHomeModulesPath (c : Collab) (e : Failure) : Prop :=
  e = .indexOutOfRange ∨
    ∃ w name msg, (c.getHomeModulesPath w name "").1 = .error msg ∧ e = .error msg

/-- Workspace `/ws`: the root documents `r1.yaml` (declaration `a`) and
`r2.yaml` (declaration `b`) both use the path of `sub/c.yaml` (declaration `c`,
which uses a rule file). -/
def sharedChildDocs : NodesMap :=
  [("/ws/r1.yaml", [⟨"a", ["/ws/sub/c.yaml"]⟩]), ("/ws/r2.yaml", [⟨"b", ["/ws/sub/c.yaml"]⟩]),
    ("/ws/sub/c.yaml", [⟨"c", ["rules/x.yaml"]⟩])]

/-- The world after `getAllModules` has classified the references `refs`
(workspace argument and reference string) one after the other; a reference
whose classification panics leaves the world as it was. -/
def worldAfter (c : Collab) : World → List (String × String) → World
  | world, [] => world
  | world, (workspace, path) :: rest =>
    match resolveReference c world workspace path with
    | .ok (_, world1) => worldAfter c world1 rest
    | .error _ => worldAfter c world rest

/-- Go `strings.Replace(s, old, new, -1)` for a one-character `old`: every
occurrence is replaced. -/
def replaceAllChar (s : String) (old : Char) (new : String) : String :=
  String.mk (s.data.flatMap fun ch => if ch = old then new.data else [ch])

/-- Go struct `ProviderRequired`; `Source` is a pointer that may be nil. -/
structure ProviderRequired where
  name : String
  source : Option String
  version : String
  path : String

/-- Go struct `ProviderConfig`. -/
structure ProviderConfig where
  name : String
  cache : String
  provider : String
  maxGoroutines : Nat
  resources : List String
  logLevel : String

/-- Function `GetSchemaKey`; `required` is a pointer that may be nil. -/
def GetSchemaKey (required : Option ProviderRequired) (cp : ProviderConfig) :
    Except Failure String :=
  let pre := ""
  match required with
  | none => .ok (pre ++ "public")
  | some required =>
    match required.source with
    | none => .error .nilDereference
    | some src =>
      match index (splitSlash src) 1 with
      | .error e => .error e
      | .ok seg =>
        let source := replaceAllChar (seg ++ "@" ++ required.version) '/' "_"
        let source := replaceAllChar source '@' "_"
        let source := replaceAllChar source '.' ""
        let s := source ++ "_" ++ cp.name
        .ok (pre ++ s)

/-- The text that a schema key keeps of `s`: every dot is dropped, every slash
and every at-sign becomes an underscore. -/
def schemaText (s : String) : String :=
  String.mk (s.data.flatMap fun ch =>
    if ch = '.' then [] else if ch = '/' ∨ ch = '@' then ['_'] else [ch])

/-- What one iteration of the merge loop of lines 668-684 appends to
`resultModules` for the document `s`: nothing for a document marked used,
else the flattening of every declaration of the copy of the document. -/
def mergeOne (fuel : Nat) (m : ModulesMap) (usedModuleMap : List String) (s : String) :
    Option (List ModuleNode) :=
  if s ∈ usedModuleMap then some []
  else
    match copyConfig m fuel (getConfig m s) with
    | none => none
    | some tempModules => some (tempModules.flatMap fun t => deepFmtModules t usedModuleMap)

/-- Two root documents: `r1.yaml` declares `a` and `r2.yaml` declares `b`, each
with one rule file. -/
def twoRootDocs : NodesMap :=
  [("r1.yaml", [⟨"a", ["rules/a.yaml"]⟩]), ("r2.yaml", [⟨"b", ["rules/b.yaml"]⟩])]

/-! ### The package cache: `GetHomeModulesPath` and `ModulesUpdate` (`pkg/utils/home.go`) -/

/-- What `ModulesUpdate` reads and writes outside its arguments: the package
variable `LatestVersion`, the map decoded from `config.json` (an error when
the file cannot be read or decoded), the paths for which `os.Stat` succeeds,
and the calls of `modules.DownloadModule` made so far (url and destination),
in the order they were made. -/
structure Cache where
  latestVersion : String
  config : Except String (List (String × String))
  present : List String
  downloads : List (String × String)
  deriving DecidableEq, Repr

/-- Collaborators of `ModulesUpdate`: the result of `Home()` (selefra home and
path of `config.json`), `global.SERVER`, `global.Token()`, the field
`LatestVersion` that `getModulesMetadata` gives for a package, the field
`Source` that `getModulesModulesSupplement` gives for a package and a version,
the error of `os.RemoveAll` and `os.Remove` for a path (`none` is success), and
`modules.DownloadModule`, which on success gives the paths it has created. -/
structure Registry where
  home : Except String (String × String)
  server : String
  token : String
  metadata : String → Except String String
  supplement : String → String → Except String String
  remove : String → Option String
  download : String → String → Except String (List String)

/-- Go map index `configMap[k]` for a map of strings: the empty string when `k`
is absent. -/
def getVersion (configMap : List (String × String)) (k : String) : String :=
  match configMap.lookup k with
  | some v => v
  | none => ""

/-- Function `ModulesUpdate`: the returned `error` (`none` is nil) and the state
it leaves.  The file `config.json` is taken to be written back without error. -/
def ModulesUpdate (reg : Registry) (st : Cache) (modulesName modulesPath org : String) :
    Option String × Cache :=
  match reg.home with
  | .error e => (some e, st)
  | .ok (_, config) =>
    match st.config with
    | .error e => (some e, st)
    | .ok configMap =>
      let dir := filepathJoin modulesPath modulesName
      if org ≠ "" then
        let url := "https://" ++ reg.server ++ "/cli/download/" ++ org ++ "/" ++ reg.token ++
          "/" ++ modulesName ++ ".zip"
        let removed : Option String × Cache :=
          if dir ∈ st.present then
            match reg.remove dir with
            | some e => (some e, st)
            | none => (none, { st with present := st.present.filter fun p => p ≠ dir })
          else (none, st)
        match removed with
        | (some e, st1) => (some e, st1)
        | (none, st1) =>
          let st2 : Cache := { st1 with downloads := st1.downloads ++ [(url, dir)] }
          match reg.download url dir with
          | .error e => (some e, st2)
          | .ok created => (none, { st2 with present := st2.present ++ created })
      else
        let looked : Except String Cache :=
          if st.latestVersion = "" then
            match reg.metadata modulesName with
            | .error e => .error e
            | .ok latest => .ok { st with latestVersion := latest }
          else .ok st
        match looked with
        | .error e => (some e, st)
        | .ok st1 =>
          if getVersion configMap ("modules" ++ "/" ++ modulesName) = st1.latestVersion ∧
              dir ∈ st1.present then (none, st1)
          else
            match reg.supplement modulesName st1.latestVersion with
            | .error e => (some e, st1)
            | .ok source =>
              let url := source ++ "/releases/download/" ++ st1.latestVersion ++ "/" ++
                modulesName ++ ".zip"
              match reg.remove dir with
              | some e => (some e, st1)
              | none =>
                let st2 : Cache := { st1 with
                  present := st1.present.filter fun p => p ≠ dir
                  downloads := st1.downloads ++ [(url, modulesPath)] }
                match reg.download url modulesPath with
                | .error e => (some e, st2)
                | .ok created =>
                  let st3 : Cache := { st2 with present := st2.present ++ created }
                  match reg.remove config with
                  | some e => (some e, st3)
                  | none =>
                    (none, { st3 with config := .ok (setKey configMap
                      ("modules" ++ "/" ++ modulesName) st3.latestVersion) })

/-- Function `GetHomeModulesPath`: the returned string and `error`, and the
state it leaves. -/
def GetHomeModulesPath (reg : Registry) (st : Cache) (modules org : String) :
    Except String String × Cache :=
  match reg.home with
  | .error e => (.error e, st)
  | .ok (path, _) =>
    let modulesPath := filepathJoin path "download/modules"
    match ModulesUpdate reg st modules modulesPath org with
    | (some e, st1) => (.error e, st1)
    | (none, st1) =>
      if modulesPath ∈ st1.present then (.ok modulesPath, st1)
      else (.error ("stat " ++ modulesPath ++ ": no such file or directory"), st1)

/-- A registry in which the latest version of the package `aws` is `v2` and
the latest version of every other package is `v1`; no token is set, and a
download from the organisation server is refused. -/
def twoVersionRegistry : Registry where
  home := .ok ("/home/u/.selefra", "/home/u/.selefra/.path/config.json")
  server := "main-api.selefra.io"
  token := ""
  metadata := fun name => .ok (if name = "aws" then "v2" else "v1")
  supplement := fun name _ => .ok ("https://github.com/selefra/" ++ name)
  remove := fun _ => none
  download := fun url dest =>
    if hasPrefix url "https://main-api.selefra.io" then .error "401 Unauthorized"
    else .ok [dest]

/-- A cache that holds `aws` at version `v2` and `gcp` at version `v1`, each
the latest version of its package in `twoVersionRegistry`. -/
def upToDateCache : Cache where
  latestVersion := ""
  config := .ok [("modules/aws", "v2"), ("modules/gcp", "v1")]
  present := ["/home/u/.selefra/download/modules", "/home/u/.selefra/download/modules/aws",
    "/home/u/.selefra/download/modules/gcp"]
  downloads := []

/-! ### yaml nodes and directory expansion: `deepPathModules` -/

/-- Field `Kind` of a `yaml.Node`; `unset` is the zero value. -/
inductive YamlKind where
  | unset
  | document
  | sequence
  | mapping
  | scalar
  | alias
  deriving DecidableEq, Repr

/-- Go struct `yaml.Node`, with the fields the resolver reads: `Kind`, `Value`
and `Content`. -/
inductive YamlNode where
  | mk (kind : YamlKind) (value : String) (content : List YamlNode) : YamlNode
  deriving Repr

/-- Field `Kind`. -/
def YamlNode.kind : YamlNode → YamlKind
  | .mk k _ _ => k

/-- Field `Value`. -/
def YamlNode.value : YamlNode → String
  | .mk _ v _ => v

/-- Field `Content`. -/
def YamlNode.content : YamlNode → List YamlNode
  | .mk _ _ c => c

/-- Assignment `node.Value = v`. -/
def YamlNode.setValue (node : YamlNode) (v : String) : YamlNode :=
  .mk node.kind v node.content

/-- Assignment `node.Content = c`. -/
def YamlNode.setContent (node : YamlNode) (c : List YamlNode) : YamlNode :=
  .mk node.kind node.value c

/-- A scalar node. -/
def yamlScalar (v : String) : YamlNode := .mk .scalar v []

/-- A sequence node of scalars. -/
def yamlSequence (items : List String) : YamlNode := .mk .sequence "" (items.map yamlScalar)

/-- A mapping node: `Content` alternates keys and values. -/
def yamlMapping (fields : List (String × YamlNode)) : YamlNode :=
  .mk .mapping "" (fields.flatMap fun f => [yamlScalar f.1, f.2])

/-- The document node of a text with the one top-level key `modules`, whose
value is the sequence of the declarations `decls`. -/
def yamlModulesDocument (decls : List YamlNode) : YamlNode :=
  .mk .document "" [yamlMapping [("modules", .mk .sequence "" decls)]]

mutual
/-- The node read back from the text that `yaml.Marshal` writes for a node:
kind and content are kept, and so is the value of a scalar; the field `Value`
of a sequence or a mapping is not written. -/
def yamlRoundTrip : YamlNode → YamlNode
  | .mk kind value content =>
    .mk kind (if kind = .scalar then value else "") (yamlRoundTripList content)
/-- The round trip of every node of a list. -/
def yamlRoundTripList : List YamlNode → List YamlNode
  | [] => []
  | node :: rest => yamlRoundTrip node :: yamlRoundTripList rest
end

/-- Function `deepCopyYamlContent`: `yaml.Marshal` of the node followed by
`yaml.Unmarshal`; the copy is `tempNode.Content[0]`. -/
def deepCopyYamlContent (node : YamlNode) : YamlNode :=
  yamlRoundTrip node

/-- The map `moduleMap map[string]*yaml.Node`: document path to document node. -/
abbrev YamlMap := List (String × YamlNode)

/-- The loop of lines 566-570 over the `Content` of a declaration: `uses` is
the variable of that name, and the node after a node whose value is `uses` is
read by index. -/
def findUses : String → List YamlNode → Except Failure String
  | uses, [] => .ok uses
  | uses, node :: rest =>
    if node.value = "uses" then
      match rest with
      | [] => .error .indexOutOfRange
      | next :: _ => findUses next.value rest
    else findUses uses rest

/-- A loop `for i := range content` that, whenever `content[i].Value == key`,
updates the node `content[i+1]` in place by `f`.  `pending` tells that the node
before the list had the value `key`, so that the head of the list is the node
to update; the test of a node sees the update made to it. -/
def updateAfter (key : String) (f : YamlNode → YamlNode) :
    Bool → List YamlNode → Except Failure (List YamlNode)
  | pending, [] => if pending then .error .indexOutOfRange else .ok []
  | pending, node :: rest =>
    let node1 := if pending then f node else node
    match updateAfter key f (node1.value = key) rest with
    | .error e => .error e
    | .ok rest1 => .ok (node1 :: rest1)

/-- Lines 592-600: the copy of `tempNode` appended for the path `mPath`. -/
def cloneFor (tempNode : YamlNode) (mPath : String) : Except Failure YamlNode :=
  let waitAppendNode := deepCopyYamlContent tempNode
  match updateAfter "uses" (fun node => node.setValue mPath) false waitAppendNode.content with
  | .error e => .error e
  | .ok content => .ok (waitAppendNode.setContent content)

/-- A map over a list whose function may panic. -/
def mapExcept {α β : Type} (f : α → Except Failure β) : List α → Except Failure (List β)
  | [] => .ok []
  | a :: rest =>
    match f a with
    | .error e => .error e
    | .ok b =>
      match mapExcept f rest with
      | .error e => .error e
      | .ok bs => .ok (b :: bs)

/-- Lines 583-588: the paths of the entries of the directory `uses` that end in
`.yaml` and are not `excludePath`, in listing order. -/
def eligiblePaths (uses excludePath : String) (files : List FileInfo) : List String :=
  (files.map fun file => filepathJoin uses file.name).filter fun fileName =>
    hasSuffix fileName ".yaml" && decide (fileName ≠ excludePath)

/-- Body of the loop `for i := range node.Content[0].Content[1].Content` (lines
565-609) on the current list `modules` of declarations of the document
`excludePath`: the `error` that makes `deepPathModules` return (`none` when the
loop goes on) and the list of declarations after the iteration.  The message
`open dir failed:` is given without the text of the error of `os.ReadDir`. -/
def expandAt (world : World) (excludePath : String) (modules : List YamlNode) (i : Nat) :
    Except Failure (Option String × List YamlNode) :=
  match index modules i with
  | .error e => .error e
  | .ok decl =>
    match findUses "" decl.content with
    | .error e => .error e
    | .ok uses =>
      if uses = "" then .ok (some "Module configuration error, missing uses", modules)
      else
        match world.fs.stat uses with
        | none =>
          if world.fs.statDenied uses then .error .nilDereference
          else .ok (some ("Module file does not exist:" ++ uses), modules)
        | some file =>
          if file.isDir then
            match world.fs.readDir uses with
            | none => .ok (some "open dir failed:", modules)
            | some files =>
              let paths := eligiblePaths uses excludePath files
              if paths.length > 0 then
                let tempNode := deepCopyYamlContent decl
                match mapExcept (cloneFor tempNode) paths with
                | .error e => .error e
                | .ok clones => .ok (none, modules.eraseIdx i ++ clones)
              else .ok (none, modules)
          else
            if !hasSuffix file.name ".yaml" then
              .ok (some ("Module file does not yaml:" ++ uses), modules)
            else .ok (none, modules)

/-- The loop of lines 564-610 over the indices still to visit; `range` fixes
them when the loop starts. -/
def expandLoop (world : World) (excludePath : String) :
    List Nat → List YamlNode → Except Failure (Option String × List YamlNode)
  | [], modules => .ok (none, modules)
  | i :: rest, modules =>
    match expandAt world excludePath modules i with
    | .error e => .error e
    | .ok (some err, modules1) => .ok (some err, modules1)
    | .ok (none, modules1) => expandLoop world excludePath rest modules1

/-- The slice `node.Content[0].Content[1].Content`: the declarations of a
document node. -/
def modulesOf (node : YamlNode) : Except Failure (List YamlNode) :=
  match index node.content 0 with
  | .error e => .error e
  | .ok root =>
    match index root.content 1 with
    | .error e => .error e
    | .ok modulesNode => .ok modulesNode.content

/-- Assignment `node.Content[0].Content[1].Content = modules`. -/
def withModules (node : YamlNode) (modules : List YamlNode) : YamlNode :=
  node.setContent (modifyAt
    (fun root => root.setContent (modifyAt (fun modulesNode => modulesNode.setContent modules)
      root.content 1))
    node.content 0)

/-- Function `deepPathModules`; `order` is the order in which `range` visits the
keys of `moduleMap`.  The nodes are changed in place, so the caller sees the
changes made before an `error` is returned: the result is the returned `error`
(`none` is nil) and the state of the map. -/
def deepPathModules (world : World) :
    YamlMap → List String → Except Failure (Option String × YamlMap)
  | moduleMap, [] => .ok (none, moduleMap)
  | moduleMap, excludePath :: rest =>
    match moduleMap.lookup excludePath with
    | none => deepPathModules world moduleMap rest
    | some node =>
      match modulesOf node with
      | .error e => .error e
      | .ok modules =>
        match expandLoop world excludePath (List.range modules.length) modules with
        | .error e => .error e
        | .ok (err, modules1) =>
          let moduleMap1 := setKey moduleMap excludePath (withModules node modules1)
          match err with
          | some msg => .ok (some msg, moduleMap1)
          | none => deepPathModules world moduleMap1 rest

/-! ### Assembly of the document nodes: `assembleNode`, `fmtNodePath`, and the
calls of `GetModulesStr` that follow -/

/-- The yaml library on nodes: `yaml.Unmarshal(text, &node)` gives the node it
leaves and its `error`; `yaml.Marshal(node)` gives the text or an `error`. -/
structure YamlCodec where
  unmarshalNode : String → YamlNode × Option String
  marshal : YamlNode → Except String String

/-- The inner loop of `fmtNodePath` (lines 380-384) on the node after the key:
for every item of its content that starts with a dot, its own `Value` is
joined to the directory of `path`. -/
def fmtUses (path : String) (node : YamlNode) : YamlNode :=
  node.content.foldl
    (fun acc item =>
      if hasPrefix item.value "." then acc.setValue (filepathJoin (filepathDir path) acc.value)
      else acc)
    node

/-- Function `fmtNodePath`: the nodes after the in-place updates. -/
def fmtNodePath (nodes : List YamlNode) (path key : String) : Except Failure (List YamlNode) :=
  if key = "" then .ok nodes
  else
    mapExcept
      (fun node =>
        match updateAfter key (fmtUses path) false node.content with
        | .error e => .error e
        | .ok content => .ok (node.setContent content))
      nodes

/-- State of the loop of `assembleNode`: `baseNode` (nil at the start) and
`nodeMap`. -/
structure Assembly where
  baseNode : Option YamlNode
  nodeMap : YamlMap

/-- Body of the loop of `assembleNode` for the entry `strPath`, `value`: the
`error` that makes the function return (`none` when the loop goes on) and the
state. -/
def assembleOne (codec : YamlCodec) (st : Assembly) (strPath value : String) :
    Except Failure (Option String × Assembly) :=
  let decoded := codec.unmarshalNode value
  match modulesOf decoded.1 with
  | .error e => .error e
  | .ok nodes =>
    match fmtNodePath nodes strPath "uses" with
    | .error e => .error e
    | .ok nodes1 =>
      let node1 := withModules decoded.1 nodes1
      match st.baseNode with
      | none =>
        .ok (decoded.2, ⟨some node1, setKey st.nodeMap strPath (yamlRoundTrip node1)⟩)
      | some baseNode =>
        match modulesOf baseNode with
        | .error e => .error e
        | .ok baseModules =>
          .ok (decoded.2, ⟨some (withModules baseNode (baseModules ++ nodes1)),
            setKey st.nodeMap strPath node1⟩)

/-- The loop of `assembleNode` over the keys still to visit. -/
def assembleLoop (codec : YamlCodec) (configMap : List (String × String)) :
    Assembly → List String → Except Failure (Option String × Assembly)
  | st, [] => .ok (none, st)
  | st, strPath :: rest =>
    match configMap.lookup strPath with
    | none => assembleLoop codec configMap st rest
    | some value =>
      match assembleOne codec st strPath value with
      | .error e => .error e
      | .ok (some err, st1) => .ok (some err, st1)
      | .ok (none, st1) => assembleLoop codec configMap st1 rest

/-- Function `assembleNode`; `order` is the order in which `range` visits the
keys of `configMap`.  The result is `baseNode`, `nodeMap` and the `error`; both
are nil along with an error. -/
def assembleNode (codec : YamlCodec) (configMap : List (String × String)) (order : List String) :
    Except Failure (Option YamlNode × YamlMap × Option String) :=
  match assembleLoop codec configMap ⟨none, []⟩ order with
  | .error e => .error e
  | .ok (some err, _) => .ok (none, [], some err)
  | .ok (none, st) => .ok (st.baseNode, st.nodeMap, none)

/-- The value node of the first field `key` of a mapping, whose `Content`
alternates keys and values. -/
def mappingField (key : String) : List YamlNode → Option YamlNode
  | k :: v :: rest => if k.value = key then some v else mappingField key rest
  | _ => none

/-- The strings of a node decoded into a `[]string`: the items of a sequence;
an empty scalar is null and gives nil; any other node does not decode. -/
def decodeStrings (node : YamlNode) : Except String (List String) :=
  if node.kind = .sequence then
    if node.content.all (fun item => item.kind = .scalar) then
      .ok (node.content.map fun item => item.value)
    else .error "yaml: unmarshal errors: cannot unmarshal into string"
  else if node.kind = .scalar ∧ node.value = "" then .ok []
  else .error "yaml: unmarshal errors: cannot unmarshal into []string"

/-- A declaration node decoded into a `Module`: the fields `name` and `uses`. -/
def decodeModule (decl : YamlNode) : Except String ModuleNode :=
  let name := match mappingField "name" decl.content with
    | some node => node.value
    | none => ""
  match mappingField "uses" decl.content with
  | none => .ok { name := name, uses := [] }
  | some node =>
    match decodeStrings node with
    | .error e => .error e
    | .ok uses => .ok { name := name, uses := uses }

/-- A fallible map over a list. -/
def mapError {α β : Type} (f : α → Except String β) : List α → Except String (List β)
  | [] => .ok []
  | a :: rest =>
    match f a with
    | .error e => .error e
    | .ok b =>
      match mapError f rest with
      | .error e => .error e
      | .ok bs => .ok (b :: bs)

/-- `yaml.Marshal` of a document node followed by `yaml.Unmarshal` into a
`ModuleConfig`, for a document whose keys are not repeated: the declarations
under the key `modules`.  A scalar is read as the string of its `Value`; the
tags of yaml (a `null` that decodes to the empty string) are not interpreted. -/
def decodeModuleConfig (node : YamlNode) : Except String (List ModuleNode) :=
  match node.content with
  | [] => .ok []
  | root :: _ =>
    match mappingField "modules" root.content with
    | none => .ok []
    | some modulesNode => mapError decodeModule modulesNode.content

/-- Every document node of the map decoded, as `makeCyclePathMap` and
`makeUsesModule` do it; the first error is returned. -/
def decodeAll (moduleMap : YamlMap) : Except String NodesMap :=
  mapError
    (fun entry =>
      match decodeModuleConfig entry.2 with
      | .error e => .error e
      | .ok modules => .ok (entry.1, modules))
    moduleMap

/-- Lines 449-462 of `GetModulesStr`, from the call of `assembleNode` on.
`configMap` is `configMap[MODULES]` as graph discovery leaves it; the orders
are those in which the `range` loops of `assembleNode`, `deepPathModules`,
`GetModulesStr` and `makeUsesModule` visit the map keys.  The variable `err`
is assigned by `assembleNode`, by `deepPathModules` and by `makeCyclePathMap`
in turn, and tested after the third assignment only. -/
def GetModulesStrTail (c : Collab) (codec : YamlCodec) (world : World) (fuel : Nat)
    (configMap : List (String × String)) (orderA orderD order0 order1 order2 : List String) :
    Option (Except Failure (List ModuleNode)) :=
  match assembleNode codec configMap orderA with
  | .error e => some (.error e)
  | .ok (_, moduleMap, _) =>
    match deepPathModules world moduleMap orderD with
    | .error e => some (.error e)
    | .ok (_, moduleMap1) =>
      match decodeAll moduleMap1 with
      | .error e => some (.error (.error e))
      | .ok nodesMap => GetModulesStr c world fuel nodesMap order0 order1 order2

/-! ### The workspace scan: `readAllConfig` and `readConfigFile` -/

/-- Go type `ConfigMap`: section name to the map from file path to the text of
the section in that file. -/
abbrev ConfigMap := List (String × List (String × String))

/-- The variable `typeMap`: the recognised top-level sections. -/
def typeMap (key : String) : Bool :=
  key = "selefra" || key = "modules" || key = "providers" || key = "rules" || key = "variables"

/-- The scan of Go `path.Ext` from the end of the name: `rev` is the part not
yet read, reversed, and `acc` the part read. -/
def extAux : List Char → List Char → List Char
  | [], _ => []
  | c :: rev, acc =>
    if c = '/' then [] else if c = '.' then c :: acc else extAux rev (c :: acc)

/-- Go `path.Ext`: the suffix that starts at the last dot of the last element
of the path, empty when there is no dot. -/
def pathExt (p : String) : String :=
  String.mk (extAux p.data.reverse [])

/-- Assignment `configMap[key][path] = text`, the inner map being made when
`configMap[key]` is nil. -/
def setSection (configMap : ConfigMap) (key path text : String) : ConfigMap :=
  match configMap.lookup key with
  | none => setKey configMap key [(path, text)]
  | some files => setKey configMap key (setKey files path text)

/-- The loop of lines 313-338 of `readConfigFile` over `node.Content[0].Content`,
two nodes at a time (an odd index is skipped): the `error` flag tells that
`yaml.Marshal` failed and the function returns at once. -/
def recordSections (codec : YamlCodec) (filePath : String) :
    ConfigMap → List YamlNode → Except Failure (Bool × ConfigMap)
  | configMap, [] => .ok (false, configMap)
  | configMap, [key] =>
    if typeMap key.value then .error .indexOutOfRange else .ok (false, configMap)
  | configMap, key :: value :: rest =>
    if typeMap key.value then
      match codec.marshal (.mk .mapping "" [key, value]) with
      | .error _ => .ok (true, configMap)
      | .ok b => recordSections codec filePath (setSection configMap key.value filePath b) rest
    else recordSections codec filePath configMap rest

/-- Function `readConfigFile`; `file` is nil when `Info()` of the directory
entry failed.  The result is the returned `error` (`none` is nil) and the state
of `configMap`, which is changed in place. -/
def readConfigFile (codec : YamlCodec) (world : World) (dirname : String)
    (configMap : ConfigMap) (file : Option FileInfo) :
    Except Failure (Option String × ConfigMap) :=
  match file with
  | none => .error .nilDereference
  | some file =>
    match world.fs.readFile (filepathJoin dirname file.name) with
    | none => .ok (some "read failed", configMap)
    | some b =>
      let node := (codec.unmarshalNode b).1
      let err := (codec.unmarshalNode b).2
      match node.content with
      | [] => .ok (none, configMap)
      | root :: _ =>
        match recordSections codec (filepathJoin dirname file.name) configMap root.content with
        | .error e => .error e
        | .ok (true, configMap1) => .ok (err, configMap1)
        | .ok (false, configMap1) => .ok (none, configMap1)

/-- The closure `fn` of `readAllConfig`; every call takes one unit of fuel.  Its
variable `err` is its own (declared by `files, err := os.ReadDir(dirname)`), so
the errors it meets are not seen outside. -/
def readAllConfigFn (codec : YamlCodec) (world : World) :
    Nat → String → ConfigMap → Option (Except Failure ConfigMap)
  | 0, _, _ => none
  | fuel + 1, dirname, cm =>
    match world.fs.readDir dirname with
    | none => some (.ok cm)
    | some files =>
      forEach
        (fun cm1 file =>
          if file.isDir then
            readAllConfigFn codec world fuel (filepathJoin dirname file.name) cm1
          else if pathExt file.name = ".yaml" then
            match readConfigFile codec world dirname cm1
                (if file.infoOk then some file else none) with
            | .error e => some (.error e)
            | .ok (_, cm2) => some (.ok cm2)
          else some (.ok cm1))
        cm files

/-- Function `readAllConfig`: the map and the returned `error`, which is the
variable `err` declared in the first line and assigned nowhere. -/
def readAllConfig (codec : YamlCodec) (world : World) (fuel : Nat) (dirname : String) :
    Option (Except Failure (ConfigMap × Option String)) :=
  let err : Option String := none
  match readAllConfigFn codec world fuel dirname [] with
  | none => none
  | some (.error e) => some (.error e)
  | some (.ok cm) => some (.ok (cm, err))

/-- Text of a file whose top level is a sequence with the one item `modules`. -/
def textList : String := "- modules\n"

/-- Text of a file with the section `modules`: one declaration `r`. -/
def textRoot : String := "modules:\n  - name: r\n    uses:\n      - rules/r.yaml\n"

/-- The declaration `r` with the one reference `rules/r.yaml`. -/
def declR : YamlNode :=
  yamlMapping [("name", yamlScalar "r"), ("uses", yamlSequence ["rules/r.yaml"])]

/-- The yaml library on the texts `textList` and `textRoot`; any other text is
not yaml.  `marshal` gives the text of the file for the document of `textRoot`,
where `yaml.Marshal` writes the same document with its own indentation. -/
def listCodec : YamlCodec where
  unmarshalNode := fun text =>
    if text = textList then (.mk .document "" [.mk .sequence "" [yamlScalar "modules"]], none)
    else if text = textRoot then (yamlModulesDocument [declR], none)
    else (.mk .unset "" [], some "yaml: did not find expected node content")
  marshal := fun node =>
    if (decodeModuleConfig (.mk .document "" [node])).toOption = some [⟨"r", ["rules/r.yaml"]⟩] then
      .ok textRoot
    else .error "yaml: cannot marshal"

/-- A workspace `/ws` that holds the files `list.yaml` (a yaml sequence) and
`root.yaml` (a `modules` section). -/
def listWorld : World where
  fs := {
    stat := fun _ => none
    readDir := fun p =>
      if p = "/ws" then
        some [{ name := "list.yaml", isDir := false }, { name := "root.yaml", isDir := false }]
      else none
    readFile := fun p =>
      if p = "/ws/list.yaml" then some textList
      else if p = "/ws/root.yaml" then some textRoot
      else none }
  latestVersion := ""

/-- The workspace `/ws` without the file `list.yaml`. -/
def rootOnlyWorld : World where
  fs := {
    stat := fun _ => none
    readDir := fun p =>
      if p = "/ws" then some [{ name := "root.yaml", isDir := false }] else none
    readFile := fun p => if p = "/ws/root.yaml" then some textRoot else none }
  latestVersion := ""

/-- A workspace `/ws` whose directory `mods` lists `a.yaml`, `notes.txt` and
`b.yaml`, in this order. -/
def modsWorld : World where
  fs := {
    stat := fun p => if p = "/ws/mods" then some { name := "mods", isDir := true } else none
    readDir := fun p =>
      if p = "/ws/mods" then
        some [{ name := "a.yaml", isDir := false }, { name := "notes.txt", isDir := false },
          { name := "b.yaml", isDir := false }]
      else none
    readFile := fun _ => none }
  latestVersion := ""

/-- The declaration `name: <name>`, `uses: /ws/mods`, both values scalars. -/
def declModsDir (name : String) : YamlNode :=
  yamlMapping [("name", yamlScalar name), ("uses", yamlScalar "/ws/mods")]

/-- Assignment `module.Name = name`. -/
def ModuleTree.setName (t : ModuleTree) (name : String) : ModuleTree :=
  .mk name t.uses t.children

mutual
/-- Number of declarations of the inlining tree of a module: the module and the
declarations of the trees of all declarations of its child documents. -/
def declCount : ModuleTree → Nat
  | .mk _ _ children => declCountChildren children + 1
/-- Number of declarations of the trees of a list of child documents. -/
def declCountChildren : List (List ModuleTree) → Nat
  | [] => 0
  | cfg :: rest => declCountConfig cfg + declCountChildren rest
/-- Number of declarations of the trees of the declarations of one document. -/
def declCountConfig : List ModuleTree → Nat
  | [] => 0
  | child :: rest => declCount child + declCountConfig rest
end

/-! ### The file scan: `GetAllConfig` -/

/-- Go type `FileMap`: file path to file content. -/
abbrev FileMap := List (String × String)

/-- A loop over directory entries whose body may end the function with an
`error`: the result is that error (`none` when the loop ran to its end) and the
state; `none` is a run that does not finish. -/
def scanEntries {σ : Type} (body : σ → FileInfo → Option (Option String × σ)) :
    σ → List FileInfo → Option (Option String × σ)
  | st, [] => some (none, st)
  | st, file :: rest =>
    match body st file with
    | none => none
    | some (some err, st1) => some (some err, st1)
    | some (none, st1) => scanEntries body st1 rest

/-- Function `GetAllConfig`; every call takes one unit of fuel.  A Go map is a
reference: `passed` is the content of the map the caller hands over, and the
result holds the returned pair (map or `error`) and the content of the
caller's map after the call.  When the map handed over is nil or empty, line
211 makes a new map for this call, and the caller's map is not written. -/
def GetAllConfig (world : World) :
    Nat → String → FileMap → Option (Except String FileMap × FileMap)
  | 0, _, _ => none
  | fuel + 1, dirname, passed =>
    match world.fs.readDir dirname with
    | none => some (.error ("open " ++ dirname), passed)
    | some files =>
      match scanEntries
          (fun fileMap file =>
            if file.isDir then
              match GetAllConfig world fuel (filepathJoin dirname file.name) fileMap with
              | none => none
              | some (.error err, fileMap1) => some (some err, fileMap1)
              | some (.ok _, fileMap1) => some (none, fileMap1)
            else if pathExt file.name = ".yaml" then
              match world.fs.readFile (filepathJoin dirname file.name) with
              | none => some (some ("open " ++ filepathJoin dirname file.name), fileMap)
              | some b => some (none, setKey fileMap (filepathJoin dirname file.name) b)
            else some (none, fileMap))
          passed files with
      | none => none
      | some (some err, fileMap) => some (.error err, if passed.isEmpty then passed else fileMap)
      | some (none, fileMap) => some (.ok fileMap, if passed.isEmpty then passed else fileMap)

/-- A directory `/ws` that lists the directory `a`, the file `b.yaml` and the
directory `z`, in this order; `a` holds `x.yaml` and `z` holds `y.yaml`. -/
def nestedWorld : World where
  fs := {
    stat := fun _ => none
    readDir := fun p =>
      if p = "/ws" then
        some [{ name := "a", isDir := true }, { name := "b.yaml", isDir := false },
          { name := "z", isDir := true }]
      else if p = "/ws/a" then some [{ name := "x.yaml", isDir := false }]
      else if p = "/ws/z" then some [{ name := "y.yaml", isDir := false }]
      else none
    readFile := fun p =>
      if p = "/ws/a/x.yaml" then some "rules: []\n"
      else if p = "/ws/b.yaml" then some "selefra: {}\n"
      else if p = "/ws/z/y.yaml" then some "modules: []\n"
      else none }
  latestVersion := ""

/-- The workspace of `modsWorld` in which `os.Stat` also finds the two yaml
files of the directory `/ws/mods`. -/
def modsFilesWorld : World where
  fs := {
    stat := fun p =>
      if p = "/ws/mods" then some { name := "mods", isDir := true }
      else if p = "/ws/mods/a.yaml" then some { name := "a.yaml", isDir := false }
      else if p = "/ws/mods/b.yaml" then some { name := "b.yaml", isDir := false }
      else none
    readDir := fun p =>
      if p = "/ws/mods" then
        some [{ name := "a.yaml", isDir := false }, { name := "notes.txt", isDir := false },
          { name := "b.yaml", isDir := false }]
      else none
    readFile := fun _ => none }
  latestVersion := ""

/-- The declaration `name: r`, `uses: []`: no reference. -/
def declNoUses : YamlNode :=
  yamlMapping [("name", yamlScalar "r"), ("uses", yamlSequence [])]

/-! ### Table names of a query: `match` and `getSqlTables` (`cmd/apply/apply.go`) -/

/-- The test of line 183 on a rune: a letter, a digit or an underscore. -/
def isWordChar (c : Char) : Bool :=
  (decide ('a' ≤ c) && decide (c ≤ 'z')) || (decide ('A' ≤ c) && decide (c ≤ 'Z')) ||
    c == '_' || (decide ('0' ≤ c) && decide (c ≤ '9'))

/-- The variables of the loop of `match`: `inWord`, `lastIndex` and
`matchResultSet`. -/
structure MatchState where
  inWord : Bool
  lastIndex : Nat
  matchResultSet : List String
  deriving DecidableEq, Repr

/-- Body of the loop of `match` (lines 182-197) for the rune `c` at position
`index` of `s`; positions count runes, and `s[lastIndex:index]` is the part of
`s` between two positions. -/
def matchStep (s : List Char) (whitelistWordSet : List (String × Bool)) (st : MatchState)
    (index : Nat) (c : Char) : MatchState :=
  if isWordChar c then
    if !st.inWord then { st with inWord := true, lastIndex := index } else st
  else
    if st.inWord then
      let word := String.mk ((s.drop st.lastIndex).take (index - st.lastIndex))
      if hasKey whitelistWordSet word then
        { st with matchResultSet := st.matchResultSet ++ [word], inWord := false }
      else { st with inWord := false }
    else st

/-- The loop `for index, c := range s` of `match` over the runes still to
read. -/
def matchLoop (s : List Char) (whitelistWordSet : List (String × Bool)) :
    Nat → List Char → MatchState → MatchState
  | _, [], st => st
  | index, c :: rest, st =>
    matchLoop s whitelistWordSet (index + 1) rest (matchStep s whitelistWordSet st index c)

/-- Function `match` of `apply.go`: what is returned is `matchResultSet` as the
loop leaves it. -/
def matchWords (s : String) (whitelistWordSet : List (String × Bool)) : List String :=
  (matchLoop s.data whitelistWordSet 0 s.data ⟨false, 0, []⟩).matchResultSet

/-- Function `getSqlTables`. -/
def getSqlTables (sql : String) (tableMap : List (String × Bool)) : List String :=
  let nonStr := replaceAllChar sql '\n' ""
  matchWords nonStr tableMap

/-! ### Provider update: `update` (`cmd/provider/update.go`) -/

/-- What `update` does to the outside: a call of `CheckUpdate` for a provider,
or a call of `fetch.Fetch` for a provider (with the version it then has) and
one of its provider configs. -/
inductive UpdateEvent where
  | checked (name : String)
  | fetched (name version conf : String)
  deriving DecidableEq, Repr

/-- Collaborators of `update`: the error of `config.IsSelefra()` (`none` is
nil), the list `cof.Selefra.Providers` of `config.GetConfig()`, the error of
`utils.Home()`, `CheckUpdate` (from name, version and path of a provider to
the `Filepath` and `Version` of its result), `tools.GetProviders` (the provider
configs of a name) and the error of `fetch.Fetch`. -/
structure UpdateEnv where
  isSelefra : Option String
  getConfig : Except String (List ProviderRequired)
  home : Option String
  checkUpdate : String → String → String → Except String (String × String)
  getProviders : String → Except String (List ProviderConfig)
  fetch : ProviderRequired → ProviderConfig → Option String

/-- The loop `for _, c := range confs` of lines 73-78: the error that ends
`update` (`none` when the loop ran to its end) and the events so far. -/
def fetchAll (env : UpdateEnv) (p : ProviderRequired) :
    List ProviderConfig → List UpdateEvent → Option String × List UpdateEvent
  | [], log => (none, log)
  | c :: rest, log =>
    match env.fetch p c with
    | some err => (some err, log ++ [.fetched p.name p.version c.name])
    | none => fetchAll env p rest (log ++ [.fetched p.name p.version c.name])

/-- The loop `for _, p := range cof.Selefra.Providers` of lines 49-79 over the
providers still to visit: the error `update` returns (`none` is nil) and the
events so far.  The `break` of line 60 leaves the loop. -/
def updateLoop (env : UpdateEnv) (args : List String) :
    List ProviderRequired → List UpdateEvent → Option String × List UpdateEvent
  | [], log => (none, log)
  | p :: rest, log =>
    if args.length ≠ 0 ∧ ¬ p.name ∈ args then (none, log)
    else
      match env.checkUpdate p.name p.version p.path with
      | .error err => (some err, log ++ [.checked p.name])
      | .ok (filepath, version) =>
        let p1 : ProviderRequired := { p with path := filepath, version := version }
        match env.getProviders p1.name with
        | .error err => (some err, log ++ [.checked p.name])
        | .ok confs =>
          match fetchAll env p1 confs (log ++ [.checked p.name]) with
          | (some err, log1) => (some err, log1)
          | (none, log1) => updateLoop env args rest log1

/-- Function `update`: the returned `error` and the events, in order. -/
def update (env : UpdateEnv) (args : List String) : Option String × List UpdateEvent :=
  match env.isSelefra with
  | some err => (some err, [])
  | none =>
    match env.getConfig with
    | .error err => (some err, [])
    | .ok providers =>
      match env.home with
      | some err => (some err, [])
      | none => updateLoop env args providers []

/-- A workspace whose configured providers are `first` and `second`, in this
order, each with one provider config of the same name; every provider has the
newer version `v2`. -/
def twoProviders (first second : String) : UpdateEnv where
  isSelefra := none
  getConfig := .ok [⟨first, none, "v1", ""⟩, ⟨second, none, "v1", ""⟩]
  home := none
  checkUpdate := fun name _ _ => .ok ("/home/u/.selefra/" ++ name, "v2")
  getProviders := fun name => .ok [⟨name, "", name, 0, [], ""⟩]
  fetch := fun _ _ => none

/-! ### Declarations without references, and package references against the cache -/

/-- A declaration with zero references: no node of its content has the value
`uses`, or the only such node is the key of a field whose value node has an
empty value and no item (`uses: []`, or `uses:` without a value). -/
def ZeroReferences (decl : YamlNode) : Prop :=
  (∀ n ∈ decl.content, n.value ≠ "uses") ∨
    ∃ before keyNode valueNode after,
      decl.content = before ++ keyNode :: valueNode :: after ∧ keyNode.value = "uses" ∧
        valueNode.value = "" ∧ valueNode.content = [] ∧
        (∀ n ∈ before, n.value ≠ "uses") ∧ ∀ n ∈ after, n.value ≠ "uses"

/-- Lines 498-522 of `getAllModules` for any function in the place of
`utils.GetHomeModulesPath` and any state `σ` that it reads and writes; the
body is the one of `resolveReference`. -/
def resolveReferenceWith {σ : Type}
    (getHomeModulesPath : σ → String → String → Except String String × σ) (workSpace : String)
    (st : σ) (workspace path : String) : Except Failure ((String × String) × σ) :=
  if hasPrefix path "selefra/" then
    match index (splitSlash path) 1 with
    | .error e => .error e
    | .ok modulesName =>
      let res := getHomeModulesPath st modulesName ""
      let modulePath := match res.1 with
        | .ok p => p
        | .error _ => ""
      .ok ((replaceFirst path "selefra" modulePath, modulePath ++ "/" ++ modulesName), res.2)
  else if hasPrefix path "app.selefra.io" then
    match index (splitSlash path) 1 with
    | .error e => .error e
    | .ok modulesOrg =>
      match index (splitSlash path) 2 with
      | .error e => .error e
      | .ok modulesName =>
        let res := getHomeModulesPath st modulesName modulesOrg
        let modulePath := match res.1 with
          | .ok p => p
          | .error _ => ""
        .ok ((replaceFirst path (joinSlash ((splitSlash path).take 2)) modulePath,
          modulePath ++ "/" ++ modulesName), res.2)
  else
    .ok ((filepathJoin workspace path, if workspace = "" then workSpace else workspace), st)

theorem checkCycle_ring_step (m : CyclePathMap) (d : List String) (d0 : String)
    (hd : d.Nodup) (h0 : d[0]? = some d0)
    (hring : ∀ i a b, d[i]? = some a → d[(i + 1) % d.length]? = some b → getPaths m a = [b])
    (k : Nat) : ∀ j p, j + k + 1 = d.length → d[(j + 1) % d.length]? = some p →
      ∀ fuel, k + 1 ≤ fuel →
      checkCycle fuel m d0 [p] (d.take (j + 1)) = some (true, d ++ [d0]) := by
  induction k with
  | zero =>
    intro j p hj hp fuel hfuel
    obtain ⟨f, rfl⟩ : ∃ f, fuel = f + 1 := ⟨fuel - 1, by omega⟩
    have hmod : (j + 1) % d.length = 0 := by
      have : j + 1 = d.length := by omega
      rw [this]; exact Nat.mod_self _
    rw [hmod, h0] at hp
    cases hp
    have htake : d.take (j + 1) = d := List.take_of_length_le (by omega)
    simp [checkCycle, htake]
  | succ k ih =>
    intro j p hj hp fuel hfuel
    obtain ⟨f, rfl⟩ : ∃ f, fuel = f + 1 := ⟨fuel - 1, by omega⟩
    have hlt : j + 1 < d.length := by omega
    have hmod : (j + 1) % d.length = j + 1 := Nat.mod_eq_of_lt hlt
    rw [hmod] at hp
    have hne : p ≠ d0 := by
      intro h
      subst h
      have h1 : d[j + 1] = p := by
        rw [List.getElem?_eq_getElem hlt] at hp; exact Option.some.inj hp
      have h2 : d[0] = p := by
        rw [List.getElem?_eq_getElem (by omega)] at h0; exact Option.some.inj h0
      have := (@List.Nodup.getElem_inj_iff _ d hd (j + 1) hlt 0 (by omega)).1 (h1.trans h2.symm)
      omega
    have hlt2 : (j + 1 + 1) % d.length < d.length := Nat.mod_lt _ (by omega)
    have hq : d[(j + 1 + 1) % d.length]? = some d[(j + 1 + 1) % d.length] :=
      List.getElem?_eq_getElem hlt2
    have hnext := hring (j + 1) p _ hp hq
    have htake : d.take (j + 1) ++ [p] = d.take (j + 1 + 1) := by
      rw [@List.take_succ _ d (j + 1), hp]; rfl
    have hrec := ih (j + 1) _ (by omega) hq f (by omega)
    simp [checkCycle, hne, hnext, htake, hrec]

theorem checkCycle_ring (m : CyclePathMap) (d0 : String) (ds : List String)
    (hd : (d0 :: ds).Nodup)
    (hring : ∀ i a b, (d0 :: ds)[i]? = some a →
      (d0 :: ds)[(i + 1) % (ds.length + 1)]? = some b → getPaths m a = [b])
    (fuel : Nat) (hfuel : ds.length + 1 ≤ fuel) :
    checkCycle fuel m d0 (getPaths m d0) [d0] = some (true, d0 :: ds ++ [d0]) := by
  have hlen : (d0 :: ds).length = ds.length + 1 := rfl
  have hlt : (0 + 1) % (d0 :: ds).length < (d0 :: ds).length := Nat.mod_lt _ (by simp)
  have hq : (d0 :: ds)[(0 + 1) % (d0 :: ds).length]? = some (d0 :: ds)[(0 + 1) % (d0 :: ds).length] :=
    List.getElem?_eq_getElem hlt
  have hfirst : getPaths m d0 = [(d0 :: ds)[(0 + 1) % (d0 :: ds).length]] :=
    hring 0 d0 _ (by simp) hq
  rw [hfirst]
  exact checkCycle_ring_step m (d0 :: ds) d0 hd (by simp) hring ds.length 0 _ (by simp) hq fuel hfuel

/-- C1. For distinct documents `d0, ds` whose adjacency map is the ring (each
document maps to the list holding only its successor, the last one to `d0`),
`checkCycle` started at `d0` returns true with the chain `d0, ds, d0`, and
`GetModulesStr`, visiting `d0` first, fails with the message
"Modules have circular references:" followed by the chain joined by " -> ". -/
theorem ring_is_reported (c : Collab) (world : World) (moduleMap : NodesMap)
    (d0 : String) (ds : List String) (hd : (d0 :: ds).Nodup)
    (hring : ∀ i a b, (d0 :: ds)[i]? = some a →
      (d0 :: ds)[(i + 1) % (ds.length + 1)]? = some b →
      getPaths (makeCyclePathMap moduleMap) a = [b])
    (fuel : Nat) (hfuel : ds.length + 1 ≤ fuel) :
    checkCycle fuel (makeCyclePathMap moduleMap) d0 (getPaths (makeCyclePathMap moduleMap) d0) [d0]
        = some (true, d0 :: ds ++ [d0]) ∧
      ∀ rest order1 order2,
        GetModulesStr c world fuel moduleMap (d0 :: rest) order1 order2 =
          some (.error (.error ("Modules have circular references:" ++
            String.intercalate " -> " (d0 :: ds ++ [d0])))) := by
  have h := checkCycle_ring (makeCyclePathMap moduleMap) d0 ds hd hring fuel hfuel
  refine ⟨h, ?_⟩
  intro rest order1 order2
  simp [GetModulesStr, cycleLoop, h, circularMessage]

theorem ring_is_reported_witness :
    ("A" :: ["B", "C"]).Nodup ∧
    ∀ (c : Collab) (world : World),
      GetModulesStr c world 3 ringDocs ["A", "B", "C"] ["A", "B", "C"] ["A", "B", "C"] =
        some (.error (.error "Modules have circular references:A -> B -> C -> A")) := by
  have hd : ("A" :: ["B", "C"]).Nodup := by decide
  refine ⟨hd, fun c world => ?_⟩
  have hring : ∀ i a b, ("A" :: ["B", "C"])[i]? = some a →
      ("A" :: ["B", "C"])[(i + 1) % (["B", "C"].length + 1)]? = some b →
      getPaths (makeCyclePathMap ringDocs) a = [b] := by
    intro i a b ha hb
    match i with
    | 0 => cases ha; cases hb; decide
    | 1 => cases ha; cases hb; decide
    | 2 => cases ha; cases hb; decide
    | n + 3 => simp at ha
  exact (ring_is_reported c world ringDocs "A" ["B", "C"] hd hring 3 (by decide)).2 _ _ _

theorem checkCycle_stray_aux (fuel : Nat) : ∀ l,
    checkCycle fuel (makeCyclePathMap strayDocs) "ws/s.yaml" ["ws/b.yaml"] l = none ∧
    checkCycle fuel (makeCyclePathMap strayDocs) "ws/s.yaml" ["ws/c.yaml"] l = none := by
  induction fuel with
  | zero => intro l; exact ⟨rfl, rfl⟩
  | succ f ih =>
    intro l
    have hb : getPaths (makeCyclePathMap strayDocs) "ws/b.yaml" = ["ws/c.yaml"] := by decide
    have hc : getPaths (makeCyclePathMap strayDocs) "ws/c.yaml" = ["ws/b.yaml"] := by decide
    constructor
    · have h : ("ws/b.yaml" : String) ≠ "ws/s.yaml" := by decide
      simp only [checkCycle, h, if_false, hb, (ih _).2]
    · have h : ("ws/c.yaml" : String) ≠ "ws/s.yaml" := by decide
      simp only [checkCycle, h, if_false, hc, (ih _).1]

/-- C2 (the code at the failing input). With `s` uses `b`, `b` uses `c`, `c` uses
`b`, the call `checkCycle(map, s, map[s], &[s])` returns for no amount of fuel,
and neither does `GetModulesStr` when its loop visits `s` first. -/
theorem checkCycle_stray_cycle_diverges (fuel : Nat) :
    checkCycle fuel (makeCyclePathMap strayDocs) "ws/s.yaml"
        (getPaths (makeCyclePathMap strayDocs) "ws/s.yaml") ["ws/s.yaml"] = none ∧
      ∀ (c : Collab) (world : World) (rest order1 order2 : List String),
        GetModulesStr c world fuel strayDocs ("ws/s.yaml" :: rest) order1 order2 = none := by
  have hs : getPaths (makeCyclePathMap strayDocs) "ws/s.yaml" = ["ws/b.yaml"] := by decide
  have h := (checkCycle_stray_aux fuel ["ws/s.yaml"]).1
  rw [← hs] at h
  refine ⟨h, ?_⟩
  intro c world rest order1 order2
  simp [GetModulesStr, cycleLoop, h]

theorem checkCycle_false_sound (fuel : Nat) (m : CyclePathMap) (path : String) :
    ∀ (pathList l l2 : List String), checkCycle fuel m path pathList l = some (false, l2) →
      ∀ p ∈ pathList, ∀ x, Relation.ReflTransGen (Edge m) p x → x ≠ path := by
  induction fuel with
  | zero =>
    intro pathList l l2 h p hp
    cases pathList with
    | nil => cases hp
    | cons q rest => simp [checkCycle] at h
  | succ f ih =>
    intro pathList l l2 h p hp
    cases pathList with
    | nil => cases hp
    | cons q rest =>
      rw [checkCycle] at h
      by_cases hq : q = path
      · simp [hq] at h
      · rw [if_neg hq] at h
        cases hin : checkCycle f m path (getPaths m q) (l ++ [q]) with
        | none => simp [hin] at h
        | some r =>
          obtain ⟨b, l3⟩ := r
          cases b with
          | true => simp [hin] at h
          | false =>
            simp only [hin] at h
            intro x hx
            rcases List.mem_cons.1 hp with rfl | hrest
            · rcases Relation.ReflTransGen.cases_head hx with rfl | ⟨y, hy, hyx⟩
              · exact hq
              · exact ih _ _ _ hin y hy x hyx
            · exact ih _ _ _ h p hrest x hx

theorem cycleLoop_done (fuel : Nat) (m : CyclePathMap) :
    ∀ order, cycleLoop fuel m order = some none →
      ∀ start ∈ order, ∃ l, checkCycle fuel m start (getPaths m start) [start] = some (false, l) := by
  intro order
  induction order with
  | nil => intro _ start hs; cases hs
  | cons k rest ih =>
    intro h start hs
    rw [cycleLoop] at h
    cases hk : checkCycle fuel m k (getPaths m k) [k] with
    | none => simp [hk] at h
    | some r =>
      obtain ⟨b, l⟩ := r
      cases b with
      | true => simp [hk] at h
      | false =>
        simp only [hk] at h
        rcases List.mem_cons.1 hs with rfl | hrest
        · exact ⟨l, hk⟩
        · exact ih h start hrest

theorem lookup_mem_keys {α : Type} (m : List (String × α)) (k : String) (v : α)
    (h : m.lookup k = some v) : k ∈ m.map Prod.fst := by
  induction m with
  | nil => simp at h
  | cons e rest ih =>
    obtain ⟨k1, v1⟩ := e
    by_cases hk : k = k1
    · simp [hk]
    · have hb : (k == k1) = false := by simpa using hk
      rw [List.lookup_cons, hb] at h
      simp [ih h]

/-- When the loop of `GetModulesStr` over a list of start documents runs to its
end, the adjacency relation has no cycle through any of them. -/
theorem no_cycle_when_loop_completes (fuel : Nat) (m : CyclePathMap) (order : List String)
    (h : cycleLoop fuel m order = some none) :
    ∀ a ∈ order, ¬ Relation.TransGen (Edge m) a a := by
  intro a ha hcyc
  obtain ⟨b, hab, hba⟩ := Relation.TransGen.head'_iff.1 hcyc
  obtain ⟨l, hrun⟩ := cycleLoop_done fuel m order h a ha
  exact checkCycle_false_sound fuel m a _ _ _ hrun b hab a hba rfl

/-- C3. If `checkCycle` returns false for every document taken as the start
node, the adjacency relation of `makeCyclePathMap` has no cycle: no document is
reached from itself through one or more edges. -/
theorem no_cycle_after_detection (moduleMap : NodesMap)
    (h : ∀ start ∈ moduleMap.map Prod.fst, ∃ fuel l,
      checkCycle fuel (makeCyclePathMap moduleMap) start
        (getPaths (makeCyclePathMap moduleMap) start) [start] = some (false, l)) :
    ∀ a, ¬ Relation.TransGen (Edge (makeCyclePathMap moduleMap)) a a := by
  intro a hcyc
  obtain ⟨b, hab, hba⟩ := Relation.TransGen.head'_iff.1 hcyc
  have hkey : a ∈ moduleMap.map Prod.fst := by
    have hne : getPaths (makeCyclePathMap moduleMap) a ≠ [] := by
      intro h0
      unfold Edge at hab
      rw [h0] at hab
      cases hab
    unfold getPaths at hne
    cases hl : List.lookup a (makeCyclePathMap moduleMap) with
    | none => simp [hl] at hne
    | some v =>
      have := lookup_mem_keys _ _ _ hl
      simpa [makeCyclePathMap, List.map_map] using this
  obtain ⟨fuel, l, hrun⟩ := h a hkey
  exact checkCycle_false_sound fuel _ a _ _ _ hrun b hab a hba rfl

theorem no_cycle_after_detection_witness :
    (∀ start ∈ acyclicDocs.map Prod.fst, ∃ fuel l,
      checkCycle fuel (makeCyclePathMap acyclicDocs) start
        (getPaths (makeCyclePathMap acyclicDocs) start) [start] = some (false, l)) ∧
    ∀ a, ¬ Relation.TransGen (Edge (makeCyclePathMap acyclicDocs)) a a := by
  have h : ∀ start ∈ acyclicDocs.map Prod.fst, ∃ fuel l,
      checkCycle fuel (makeCyclePathMap acyclicDocs) start
        (getPaths (makeCyclePathMap acyclicDocs) start) [start] = some (false, l) := by
    intro start hs
    simp only [acyclicDocs, List.map, List.mem_cons, List.mem_singleton, List.not_mem_nil,
      or_false] at hs
    rcases hs with rfl | rfl
    · exact ⟨2, ["a.yaml"], by decide⟩
    · exact ⟨1, ["b.yaml"], by decide⟩
  exact ⟨h, no_cycle_after_detection acyclicDocs h⟩

/-! ### Graph discovery -/

theorem getAllModules_file_step (fuel : Nat) (cm : List (String × String))
    (workspace path full text next : String)
    (hres : resolveReference loopCollab loopWorld workspace path =
      .ok ((full, "/ws"), loopWorld))
    (hstat : ∃ n, loopWorld.fs.stat full = some { name := n, isDir := false })
    (hsuf : hasSuffix full ".yaml" = true)
    (hread : loopWorld.fs.readFile full = some text)
    (hsub : containsSub text "modules:" = true)
    (hdec : ∃ n, loopCollab.unmarshal text = .ok [⟨n, [next]⟩])
    (hnext : ∀ cm1, getAllModules loopCollab fuel ⟨cm1, loopWorld⟩ "/ws" next = none) :
    getAllModules loopCollab (fuel + 1) ⟨cm, loopWorld⟩ workspace path = none := by
  obtain ⟨n, hstat⟩ := hstat
  obtain ⟨n2, hdec⟩ := hdec
  simp [getAllModules, hres, hstat, checkModuleFile, hsuf, hread, hsub, hdec, forEach, hnext]

theorem getAllModules_loop_aux (fuel : Nat) : ∀ cm,
    getAllModules loopCollab fuel ⟨cm, loopWorld⟩ "/ws" "a.yaml" = none ∧
    getAllModules loopCollab fuel ⟨cm, loopWorld⟩ "/ws" "b.yaml" = none ∧
    getAllModules loopCollab fuel ⟨cm, loopWorld⟩ "/ws" "self.yaml" = none := by
  induction fuel with
  | zero => intro cm; exact ⟨rfl, rfl, rfl⟩
  | succ f ih =>
    intro cm
    have hpre : ∀ p : String, hasPrefix p "selefra/" = false → hasPrefix p "app.selefra.io" = false →
        resolveReference loopCollab loopWorld "/ws" p = .ok ((filepathJoin "/ws" p, "/ws"), loopWorld) := by
      intro p h1 h2
      simp [resolveReference, h1, h2]
    refine ⟨?_, ?_, ?_⟩
    · refine getAllModules_file_step f cm "/ws" "a.yaml" "/ws/a.yaml" textA "b.yaml" ?_ ⟨_, rfl⟩
        (by decide) rfl (by decide) ⟨_, rfl⟩ (fun cm1 => (ih cm1).2.1)
      rw [hpre _ (by decide) (by decide)]
      have : filepathJoin "/ws" "a.yaml" = "/ws/a.yaml" := by decide
      rw [this]
    · refine getAllModules_file_step f cm "/ws" "b.yaml" "/ws/b.yaml" textB "a.yaml" ?_ ⟨_, rfl⟩
        (by decide) rfl (by decide) ⟨_, rfl⟩ (fun cm1 => (ih cm1).1)
      rw [hpre _ (by decide) (by decide)]
      have : filepathJoin "/ws" "b.yaml" = "/ws/b.yaml" := by decide
      rw [this]
    · refine getAllModules_file_step f cm "/ws" "self.yaml" "/ws/self.yaml" textSelf "self.yaml" ?_
        ⟨_, rfl⟩ (by decide) rfl (by decide) ⟨_, rfl⟩ (fun cm1 => (ih cm1).2.2)
      rw [hpre _ (by decide) (by decide)]
      have : filepathJoin "/ws" "self.yaml" = "/ws/self.yaml" := by decide
      rw [this]

/-- C4 (the code at the failing input). In the workspace `/ws` where `a.yaml`
uses `b.yaml` and `b.yaml` uses `a.yaml`, the call
`getAllModules(configMap, "", "/ws/a.yaml")` made by `GetModulesStr` returns for
no amount of fuel, whatever `configMap` already records; the same holds for
`self.yaml`, which uses itself. -/
theorem getAllModules_cycle_diverges (fuel : Nat) (configMap : List (String × String)) :
    getAllModules loopCollab fuel ⟨configMap, loopWorld⟩ "" "/ws/a.yaml" = none ∧
    getAllModules loopCollab fuel ⟨configMap, loopWorld⟩ "" "/ws/self.yaml" = none := by
  cases fuel with
  | zero => exact ⟨rfl, rfl⟩
  | succ f =>
    have hpre : ∀ p : String, hasPrefix p "selefra/" = false → hasPrefix p "app.selefra.io" = false →
        resolveReference loopCollab loopWorld "" p = .ok ((filepathJoin "" p, "/ws"), loopWorld) := by
      intro p h1 h2
      simp [resolveReference, h1, h2]
      rfl
    constructor
    · refine getAllModules_file_step f configMap "" "/ws/a.yaml" "/ws/a.yaml" textA "b.yaml" ?_
        ⟨_, rfl⟩ (by decide) rfl (by decide) ⟨_, rfl⟩ (fun cm1 => (getAllModules_loop_aux f cm1).2.1)
      rw [hpre _ (by decide) (by decide)]
      have : filepathJoin "" "/ws/a.yaml" = "/ws/a.yaml" := by decide
      rw [this]
    · refine getAllModules_file_step f configMap "" "/ws/self.yaml" "/ws/self.yaml" textSelf
        "self.yaml" ?_ ⟨_, rfl⟩ (by decide) rfl (by decide) ⟨_, rfl⟩
        (fun cm1 => (getAllModules_loop_aux f cm1).2.2)
      rw [hpre _ (by decide) (by decide)]
      have : filepathJoin "" "/ws/self.yaml" = "/ws/self.yaml" := by decide
      rw [this]

/-! ### Flattening at concrete document sets -/

/-- C5 (the code at the failing input). With absolute document paths and the
marking pass visiting `root.yaml` first, `leaf.yaml` is referenced by the
declaration `m` of `mid.yaml` and still contributes the top-level entry `l`. -/
theorem referenced_leaf_is_top_level :
    makeUsesModule offlineCollab offlineWorld 3 nestedAbsDocs
        ["/ws/root.yaml", "/ws/mid.yaml", "/ws/leaf.yaml"]
        ["/ws/root.yaml", "/ws/mid.yaml", "/ws/leaf.yaml"] =
      some (.ok [⟨"r.m", ["/ws/ws/leaf.yaml"]⟩, ⟨"r", []⟩, ⟨"l", ["rules/x.yaml"]⟩]) := by
  decide

/-- C6 (the code at the failing input). With absolute document paths the entry
`r.m.l` depends on the order of the marking pass: it is missing when `root.yaml`
is visited before `mid.yaml`, and present when `mid.yaml` is visited first. -/
theorem qualified_leaf_depends_on_order :
    (∃ out, makeUsesModule offlineCollab offlineWorld 3 nestedAbsDocs
        ["/ws/root.yaml", "/ws/mid.yaml", "/ws/leaf.yaml"]
        ["/ws/root.yaml", "/ws/mid.yaml", "/ws/leaf.yaml"] = some (.ok out) ∧
      ∀ entry ∈ out, entry.name ≠ "r.m.l") ∧
    (∃ out, makeUsesModule offlineCollab offlineWorld 3 nestedAbsDocs
        ["/ws/mid.yaml", "/ws/root.yaml", "/ws/leaf.yaml"]
        ["/ws/root.yaml", "/ws/mid.yaml", "/ws/leaf.yaml"] = some (.ok out) ∧
      ∃ entry ∈ out, entry.name = "r.m.l") := by
  refine ⟨⟨[⟨"r.m", ["/ws/ws/leaf.yaml"]⟩, ⟨"r", []⟩, ⟨"l", ["rules/x.yaml"]⟩], by decide,
    by decide⟩, ⟨[⟨"r.m.l", ["/ws/rules/x.yaml"]⟩, ⟨"r.m", ["/ws/ws/leaf.yaml"]⟩, ⟨"r", []⟩],
    by decide, by decide⟩⟩

/-! ### Algebra of the map updates -/

theorem lookup_modifyConfig_same (f : ModuleConfig → ModuleConfig) (m : ModulesMap) (k : String) :
    (modifyConfig f m k).lookup k = (m.lookup k).map f := by
  induction m with
  | nil => rfl
  | cons e rest ih =>
    obtain ⟨k1, cfg⟩ := e
    by_cases hk : k1 = k
    · subst hk
      simp [modifyConfig, List.lookup_cons]
    · have hb : (k == k1) = false := by simpa using fun h => hk h.symm
      simp [modifyConfig, hk, List.lookup_cons, hb, ih]

theorem lookup_modifyConfig_other (f : ModuleConfig → ModuleConfig) (m : ModulesMap)
    (k k2 : String) (h : k2 ≠ k) :
    (modifyConfig f m k).lookup k2 = m.lookup k2 := by
  induction m with
  | nil => rfl
  | cons e rest ih =>
    obtain ⟨k1, cfg⟩ := e
    by_cases hk : k1 = k
    · subst hk
      have hb : (k2 == k1) = false := by simpa using h
      simp [modifyConfig, List.lookup_cons, hb]
    · by_cases hk2 : k2 = k1
      · subst hk2
        simp [modifyConfig, hk, List.lookup_cons]
      · have hb : (k2 == k1) = false := by simpa using hk2
        simp [modifyConfig, hk, List.lookup_cons, hb, ih]

theorem hasKey_modifyConfig (f : ModuleConfig → ModuleConfig) (m : ModulesMap) (k k2 : String) :
    hasKey (modifyConfig f m k) k2 = hasKey m k2 := by
  unfold hasKey
  by_cases h : k2 = k
  · subst h
    rw [lookup_modifyConfig_same]
    cases m.lookup k2 <;> rfl
  · rw [lookup_modifyConfig_other f m k k2 h]

theorem getConfig_modifyConfig_same (f : ModuleConfig → ModuleConfig) (m : ModulesMap)
    (k : String) (hf : f [] = []) :
    getConfig (modifyConfig f m k) k = f (getConfig m k) := by
  unfold getConfig
  rw [lookup_modifyConfig_same]
  cases m.lookup k <;> simp [hf]

theorem getConfig_modifyConfig_other (f : ModuleConfig → ModuleConfig) (m : ModulesMap)
    (k k2 : String) (h : k2 ≠ k) :
    getConfig (modifyConfig f m k) k2 = getConfig m k2 := by
  unfold getConfig
  rw [lookup_modifyConfig_other f m k k2 h]

theorem modifyConfig_comp (f g : ModuleConfig → ModuleConfig) (m : ModulesMap) (k : String) :
    modifyConfig f (modifyConfig g m k) k = modifyConfig (fun cfg => f (g cfg)) m k := by
  induction m with
  | nil => rfl
  | cons e rest ih =>
    obtain ⟨k1, cfg⟩ := e
    by_cases hk : k1 = k
    · simp [modifyConfig, hk]
    · simp [modifyConfig, hk, ih]

theorem modifyConfig_congr (f g : ModuleConfig → ModuleConfig) (m : ModulesMap) (k : String)
    (h : f (getConfig m k) = g (getConfig m k)) :
    modifyConfig f m k = modifyConfig g m k := by
  induction m with
  | nil => rfl
  | cons e rest ih =>
    obtain ⟨k1, cfg⟩ := e
    by_cases hk : k1 = k
    · subst hk
      simp [getConfig, List.lookup_cons] at h
      simp [modifyConfig, h]
    · have hb : (k == k1) = false := by simpa using fun h => hk h.symm
      simp only [getConfig, List.lookup_cons, hb] at h
      simp [modifyConfig, hk, ih h]

theorem modifyConfig_id (f : ModuleConfig → ModuleConfig) (m : ModulesMap) (k : String)
    (h : f (getConfig m k) = getConfig m k) : modifyConfig f m k = m := by
  have h1 := modifyConfig_congr f (fun cfg => cfg) m k h
  rw [h1]
  clear h h1
  induction m with
  | nil => rfl
  | cons e rest ih =>
    obtain ⟨k1, cfg⟩ := e
    by_cases hk : k1 = k
    · simp [modifyConfig, hk]
    · simp [modifyConfig, hk, ih]

theorem getElem?_modifyAt {α : Type} (f : α → α) (l : List α) (i : Nat) :
    (modifyAt f l i)[i]? = (l[i]?).map f := by
  induction l generalizing i with
  | nil => rfl
  | cons b rest ih =>
    cases i with
    | zero => simp [modifyAt]
    | succ i => simp [modifyAt, ih i]

theorem modifyAt_comp {α : Type} (f g : α → α) (l : List α) (i : Nat) :
    modifyAt f (modifyAt g l i) i = modifyAt (fun a => f (g a)) l i := by
  induction l generalizing i with
  | nil => rfl
  | cons b rest ih =>
    cases i with
    | zero => simp [modifyAt]
    | succ i => simp [modifyAt, ih i]

theorem foldExcept_append {α σ : Type} (body : σ → α → Except Failure σ) (st : σ)
    (l1 l2 : List α) :
    foldExcept body st (l1 ++ l2) =
      match foldExcept body st l1 with
      | .error e => .error e
      | .ok st1 => foldExcept body st1 l2 := by
  induction l1 generalizing st with
  | nil => rfl
  | cons a rest ih =>
    simp only [List.cons_append, foldExcept]
    cases body st a with
    | error e => rfl
    | ok st1 => exact ih st1

/-! ### The usage-marking pass on plain references -/

theorem modifyAt_fix {α : Type} (f : α → α) (l : List α) (i : Nat)
    (h : ∀ a, l[i]? = some a → f a = a) : modifyAt f l i = l := by
  induction l generalizing i with
  | nil => rfl
  | cons b rest ih =>
    cases i with
    | zero => simp [modifyAt, h b (by simp)]
    | succ i => simp [modifyAt, ih i (fun a ha => h a (by simpa using ha))]

theorem rewriteUse_plain (c : Collab) (w : World) (use : String)
    (h1 : hasPrefix use "selefra" = false) (h2 : hasPrefix use "app.selefra.io" = false) :
    rewriteUse c w use = .ok (use, w) := by
  simp [rewriteUse, h1, h2]

theorem rewriteUses_plain (c : Collab) (w : World) (uses : List String)
    (h : ∀ u ∈ uses, hasPrefix u "selefra" = false ∧ hasPrefix u "app.selefra.io" = false) :
    rewriteUses c w uses = .ok (uses, w) := by
  induction uses with
  | nil => rfl
  | cons u rest ih =>
    have hu := h u (List.mem_cons_self _ _)
    simp [rewriteUses, rewriteUse_plain c w u hu.1 hu.2,
      ih (fun v hv => h v (List.mem_cons_of_mem _ hv))]

theorem markUse_plain (m : ModulesMap) (used : List String) (w : World) (key : String)
    (i j : Nat) (md : Module) (use : String)
    (hmd : (getConfig m key)[i]? = some md) (huse : md.uses[j]? = some use)
    (habs : hasKey m use = true → isAbs use = false) :
    markUse key i j ⟨m, used, w⟩ =
      if hasKey m use then
        ⟨modifyConfig (fun cfg =>
            modifyAt (fun md => { md with children := md.children ++ [use] }) cfg i) m key,
          use :: used, w⟩
      else ⟨m, used, w⟩ := by
  unfold markUse
  simp only [hmd, huse]
  by_cases hk : hasKey m use = true
  · simp [hk, habs hk]
  · simp [hk]

theorem markUse_fold_plain (m : ModulesMap) (used : List String) (w : World) (key : String)
    (i : Nat) (md : Module) (hmd : (getConfig m key)[i]? = some md)
    (hplain : PlainUses m md.uses) (n : Nat) :
    (List.range n).foldl (fun s j => markUse key i j s) ⟨m, used, w⟩ =
      ⟨modifyConfig (fun cfg => modifyAt (fun md0 =>
          { md0 with children := md0.children ++ (md.uses.take n).filter (hasKey m) }) cfg i) m key,
        ((md.uses.take n).filter (hasKey m)).reverse ++ used, w⟩ := by
  induction n with
  | zero =>
    simp only [List.range_zero, List.foldl_nil, List.take_zero, List.filter_nil, List.append_nil,
      List.reverse_nil, List.nil_append]
    rw [modifyConfig_id]
    exact modifyAt_fix _ _ _ (fun a _ => rfl)
  | succ n ih =>
    rw [List.range_succ, List.foldl_append, ih]
    simp only [List.foldl_cons, List.foldl_nil]
    cases hu : md.uses[n]? with
    | none =>
      have hlen : md.uses.length ≤ n := by
        rcases Nat.lt_or_ge n md.uses.length with h | h
        · rw [List.getElem?_eq_getElem h] at hu; cases hu
        · exact h
      have ht1 : md.uses.take (n + 1) = md.uses.take n := by
        rw [List.take_of_length_le hlen, List.take_of_length_le (by omega)]
      rw [ht1]
      unfold markUse
      have hcfg : (getConfig (modifyConfig (fun cfg => modifyAt (fun md0 =>
          { md0 with children := md0.children ++ (md.uses.take n).filter (hasKey m) }) cfg i) m key)
            key)[i]? = some { md with children := md.children ++ (md.uses.take n).filter (hasKey m) } := by
        rw [getConfig_modifyConfig_same _ _ _ rfl, getElem?_modifyAt, hmd]
        rfl
      simp only [hcfg, hu]
    | some use =>
      have ht1 : md.uses.take (n + 1) = md.uses.take n ++ [use] := by
        rw [List.take_succ, hu]; rfl
      have hcfg : (getConfig (modifyConfig (fun cfg => modifyAt (fun md0 =>
          { md0 with children := md0.children ++ (md.uses.take n).filter (hasKey m) }) cfg i) m key)
            key)[i]? = some { md with children := md.children ++ (md.uses.take n).filter (hasKey m) } := by
        rw [getConfig_modifyConfig_same _ _ _ rfl, getElem?_modifyAt, hmd]
        rfl
      have hmem : use ∈ md.uses := List.getElem?_mem hu
      have hk : ∀ u, hasKey (modifyConfig (fun cfg => modifyAt (fun md0 =>
          { md0 with children := md0.children ++ (md.uses.take n).filter (hasKey m) }) cfg i) m key) u
            = hasKey m u := fun u => hasKey_modifyConfig _ _ _ _
      rw [markUse_plain _ _ _ _ _ _ _ use hcfg hu (by rw [hk]; exact (hplain use hmem).2.2), hk,
        ht1, List.filter_append]
      by_cases hkey : hasKey m use = true
      · simp only [hkey, if_true, modifyConfig_comp, modifyAt_comp, List.filter_cons, List.filter_nil,
          List.append_assoc, List.reverse_append, List.reverse_cons, List.reverse_nil,
          List.nil_append, List.singleton_append, List.cons_append]
      · simp only [hkey, List.filter_cons, List.filter_nil, List.append_nil, if_false,
          Bool.false_eq_true]

theorem modifyAt_congr {α : Type} (f g : α → α) (l : List α) (i : Nat)
    (h : ∀ a, l[i]? = some a → f a = g a) : modifyAt f l i = modifyAt g l i := by
  induction l generalizing i with
  | nil => rfl
  | cons b rest ih =>
    cases i with
    | zero => simp [modifyAt, h b (by simp)]
    | succ i => simp [modifyAt, ih i (fun a ha => h a (by simpa using ha))]

theorem modifyAt_append_right {α : Type} (f : α → α) (l1 l2 : List α) (i : Nat) :
    modifyAt f (l1 ++ l2) (l1.length + i) = l1 ++ modifyAt f l2 i := by
  induction l1 with
  | nil => simp
  | cons a rest ih =>
    have : (a :: rest).length + i = (rest.length + i) + 1 := by simp; omega
    rw [this]
    simp [modifyAt, ih]

theorem modifyAt_range {α : Type} (g : α → α) (cfg : List α) (n : Nat) (hn : n ≤ cfg.length) :
    (List.range n).foldl (fun l i => modifyAt g l i) cfg = (cfg.take n).map g ++ cfg.drop n := by
  induction n with
  | zero => simp
  | succ n ih =>
    rw [List.range_succ, List.foldl_append, ih (by omega)]
    simp only [List.foldl_cons, List.foldl_nil]
    have hlt : n < cfg.length := by omega
    have hlen : ((cfg.take n).map g).length = n := by simp; omega
    have hdrop : cfg.drop n = cfg[n] :: cfg.drop (n + 1) := List.drop_eq_getElem_cons hlt
    have h := modifyAt_append_right g ((cfg.take n).map g) (cfg.drop n) 0
    rw [hlen] at h
    simp only [Nat.add_zero] at h
    have ht : cfg.take (n + 1) = cfg.take n ++ [cfg[n]] := by
      rw [List.take_succ, List.getElem?_eq_getElem hlt]; rfl
    rw [h, hdrop, ht]
    simp only [modifyAt, List.map_append, List.map_cons, List.map_nil, List.append_assoc,
      List.cons_append, List.nil_append]

theorem foldl_modifyAt_nil {α : Type} (g : α → α) (l : List Nat) :
    l.foldl (fun l i => modifyAt g l i) [] = [] := by
  induction l with
  | nil => rfl
  | cons i rest ih => simpa [modifyAt] using ih

theorem attachUses_congr (m1 m2 : ModulesMap) (h : ∀ u, hasKey m1 u = hasKey m2 u) :
    attachUses m1 = attachUses m2 := by
  funext md
  have : hasKey m1 = hasKey m2 := funext h
  simp [attachUses, this]

theorem PlainUses_congr (m1 m2 : ModulesMap) (h : ∀ u, hasKey m1 u = hasKey m2 u)
    (uses : List String) (hp : PlainUses m1 uses) : PlainUses m2 uses := by
  intro u hu
  obtain ⟨h1, h2, h3⟩ := hp u hu
  exact ⟨h1, h2, fun hk => h3 (by rw [h u]; exact hk)⟩

theorem markModule_plain (c : Collab) (m : ModulesMap) (used : List String) (w : World)
    (key : String) (i : Nat) (md : Module) (hmd : (getConfig m key)[i]? = some md)
    (hplain : PlainUses m md.uses) :
    markModule c key ⟨m, used, w⟩ i =
      .ok ⟨modifyConfig (fun cfg => modifyAt (attachUses m) cfg i) m key,
        (md.uses.filter (hasKey m)).reverse ++ used, w⟩ := by
  unfold markModule
  simp only [hmd]
  rw [rewriteUses_plain c w md.uses (fun u hu => ⟨(hplain u hu).1, (hplain u hu).2.1⟩)]
  simp only
  have hid : modifyConfig (fun cfg => modifyAt (fun md0 => { md0 with uses := md.uses }) cfg i) m key
      = m := by
    apply modifyConfig_id
    apply modifyAt_fix
    intro a ha
    rw [hmd] at ha
    cases ha
    rfl
  rw [hid, markUse_fold_plain m used w key i md hmd hplain, List.take_length]
  congr 2
  apply modifyConfig_congr
  apply modifyAt_congr
  intro a ha
  rw [hmd] at ha
  cases ha
  rfl

theorem markConfig_fold_plain (c : Collab) (m : ModulesMap) (used : List String) (w : World)
    (key : String) (hplain : PlainMap m) (n : Nat) (hn : n ≤ (getConfig m key).length) :
    foldExcept (markModule c key) ⟨m, used, w⟩ (List.range n) =
      .ok ⟨modifyConfig (fun cfg => (List.range n).foldl (fun l i => modifyAt (attachUses m) l i) cfg)
          m key,
        (((getConfig m key).take n).flatMap fun md => md.uses.filter (hasKey m)).reverse ++ used,
        w⟩ := by
  induction n with
  | zero =>
    simp only [List.range_zero, foldExcept, List.foldl_nil, List.take_zero, List.flatMap_nil,
      List.reverse_nil, List.nil_append]
    rw [modifyConfig_id _ _ _ rfl]
  | succ n ih =>
    rw [List.range_succ, foldExcept_append, ih (by omega)]
    simp only [foldExcept]
    have hlt : n < (getConfig m key).length := by omega
    have hk : ∀ u, hasKey (modifyConfig (fun cfg =>
        (List.range n).foldl (fun l i => modifyAt (attachUses m) l i) cfg) m key) u = hasKey m u :=
      fun u => hasKey_modifyConfig _ _ _ _
    have hcfg : (getConfig (modifyConfig (fun cfg =>
        (List.range n).foldl (fun l i => modifyAt (attachUses m) l i) cfg) m key) key)[n]? =
          some (getConfig m key)[n] := by
      rw [getConfig_modifyConfig_same _ _ _ (foldl_modifyAt_nil _ _),
        modifyAt_range _ _ _ (by omega)]
      have hlen : (((getConfig m key).take n).map (attachUses m)).length = n := by simp; omega
      rw [List.getElem?_append_right (by omega), hlen, Nat.sub_self,
        List.drop_eq_getElem_cons hlt]
      simp
    have hmem : (getConfig m key)[n] ∈ getConfig m key := List.getElem_mem _
    rw [markModule_plain c _ _ w key n _ hcfg
      (PlainUses_congr m _ (fun u => (hk u).symm) _ (hplain key _ hmem))]
    simp only [modifyConfig_comp, List.foldl_append, List.foldl_cons, List.foldl_nil]
    have ht : (getConfig m key).take (n + 1) = (getConfig m key).take n ++ [(getConfig m key)[n]] := by
      rw [List.take_succ, List.getElem?_eq_getElem hlt]; rfl
    have hf : hasKey (modifyConfig (fun cfg =>
        (List.range n).foldl (fun l i => modifyAt (attachUses m) l i) cfg) m key) = hasKey m :=
      funext hk
    rw [attachUses_congr _ m hk, ht, hf]
    simp only [List.flatMap_append, List.flatMap_cons, List.flatMap_nil, List.append_nil,
      List.reverse_append, List.append_assoc]

theorem markConfig_plain (c : Collab) (m : ModulesMap) (used : List String) (w : World)
    (key : String) (hplain : PlainMap m) :
    markConfig c ⟨m, used, w⟩ key =
      .ok ⟨modifyConfig (List.map (attachUses m)) m key,
        ((getConfig m key).flatMap fun md => md.uses.filter (hasKey m)).reverse ++ used, w⟩ := by
  unfold markConfig
  rw [markConfig_fold_plain c m used w key hplain _ (Nat.le_refl _), List.take_length]
  congr 2
  apply modifyConfig_congr
  rw [modifyAt_range _ _ _ (Nat.le_refl _)]
  simp

theorem getConfig_attach (m0 m : ModulesMap) (key k : String) :
    getConfig (modifyConfig (List.map (attachUses m0)) m key) k =
      if k = key then (getConfig m key).map (attachUses m0) else getConfig m k := by
  by_cases h : k = key
  · subst h
    simp [getConfig_modifyConfig_same]
  · simp [h, getConfig_modifyConfig_other _ _ _ _ h]

theorem keyUses_attach (m0 m : ModulesMap) (key k : String) :
    keyUses m0 (modifyConfig (List.map (attachUses m0)) m key) k = keyUses m0 m k := by
  unfold keyUses
  rw [getConfig_attach]
  by_cases h : k = key
  · subst h
    simp [List.flatMap_map, attachUses]
  · simp [h]

theorem PlainMap_attach (m0 m : ModulesMap) (key : String) (hp : PlainMap m) :
    PlainMap (modifyConfig (List.map (attachUses m0)) m key) := by
  intro k md hmd
  have hk2 : ∀ u, hasKey m u = hasKey (modifyConfig (List.map (attachUses m0)) m key) u :=
    fun u => (hasKey_modifyConfig _ _ _ _).symm
  apply PlainUses_congr m _ hk2
  rw [getConfig_attach] at hmd
  by_cases h : k = key
  · subst h
    simp only [if_true, List.mem_map] at hmd
    obtain ⟨md0, hmd0, rfl⟩ := hmd
    exact hp k md0 hmd0
  · simp only [h, if_false] at hmd
    exact hp k md hmd

theorem markAll_plain (c : Collab) (m0 : ModulesMap) (w : World) (order : List String) :
    ∀ (m : ModulesMap) (used : List String), (∀ u, hasKey m u = hasKey m0 u) → PlainMap m →
      markAll c ⟨m, used, w⟩ order =
        .ok ⟨order.foldl (fun mm k => modifyConfig (List.map (attachUses m0)) mm k) m,
          (order.flatMap (keyUses m0 m)).reverse ++ used, w⟩ := by
  induction order with
  | nil => intro m used _ _; rfl
  | cons k rest ih =>
    intro m used hK hp
    unfold markAll at ih ⊢
    simp only [foldExcept]
    rw [markConfig_plain c m used w k hp]
    simp only
    rw [attachUses_congr m m0 hK]
    have hK2 : ∀ u, hasKey (modifyConfig (List.map (attachUses m0)) m k) u = hasKey m0 u :=
      fun u => (hasKey_modifyConfig _ _ _ _).trans (hK u)
    rw [ih _ _ hK2 (PlainMap_attach m0 m k hp)]
    have hf : hasKey m = hasKey m0 := funext hK
    have hview : keyUses m0 (modifyConfig (List.map (attachUses m0)) m k) = keyUses m0 m :=
      funext fun k2 => keyUses_attach m0 m k k2
    simp only [List.foldl_cons, List.flatMap_cons, List.reverse_append, List.append_assoc]
    rw [hview, hf]
    rfl

theorem keys_modifyConfig (f : ModuleConfig → ModuleConfig) (m : ModulesMap) (k : String) :
    (modifyConfig f m k).map Prod.fst = m.map Prod.fst := by
  induction m with
  | nil => rfl
  | cons e rest ih =>
    obtain ⟨k1, cfg⟩ := e
    by_cases hk : k1 = k
    · simp [modifyConfig, hk]
    · simp [modifyConfig, hk, ih]

theorem modifyConfig_eq_map (f : ModuleConfig → ModuleConfig) (m : ModulesMap) (k : String)
    (hnodup : (m.map Prod.fst).Nodup) :
    modifyConfig f m k = m.map fun e => if e.1 = k then (e.1, f e.2) else e := by
  induction m with
  | nil => rfl
  | cons e rest ih =>
    obtain ⟨k1, cfg⟩ := e
    simp only [List.map_cons, List.nodup_cons] at hnodup
    by_cases hk : k1 = k
    · subst hk
      have hrest : rest.map (fun e => if e.1 = k1 then (e.1, f e.2) else e) = rest := by
        conv_rhs => rw [← List.map_id rest]
        apply List.map_congr_left
        intro e he
        have : e.1 ≠ k1 := fun hh => hnodup.1 (hh ▸ List.mem_map_of_mem Prod.fst he)
        simp [this]
      simp [modifyConfig, hrest]
    · simp [modifyConfig, hk, ih hnodup.2]

theorem attach_fold_closed (g : ModuleConfig → ModuleConfig) (order : List String)
    (horder : order.Nodup) :
    ∀ m : ModulesMap, (m.map Prod.fst).Nodup →
      order.foldl (fun mm k => modifyConfig g mm k) m =
        m.map fun e => if e.1 ∈ order then (e.1, g e.2) else e := by
  induction order with
  | nil => intro m _; simp
  | cons k rest ih =>
    intro m hm
    simp only [List.nodup_cons] at horder
    simp only [List.foldl_cons]
    rw [ih horder.2 _ (by rw [keys_modifyConfig]; exact hm), modifyConfig_eq_map g m k hm,
      List.map_map]
    apply List.map_congr_left
    intro e _
    simp only [Function.comp]
    by_cases hk : e.1 = k
    · simp [hk, horder.1]
    · simp [hk]

theorem lookup_map_values {α β : Type} (f : α → β) (m : List (String × α)) (k : String) :
    (m.map fun e => (e.1, f e.2)).lookup k = (m.lookup k).map f := by
  induction m with
  | nil => rfl
  | cons e rest ih =>
    obtain ⟨k1, v⟩ := e
    by_cases hk : k = k1
    · subst hk
      simp [List.lookup_cons]
    · have hb : (k == k1) = false := by simpa using hk
      simp [List.lookup_cons, hb, ih]

theorem hasKey_map_values {α β : Type} (f : α → β) (m : List (String × α)) (k : String) :
    hasKey (m.map fun e => (e.1, f e.2)) k = hasKey m k := by
  unfold hasKey
  rw [lookup_map_values]
  cases m.lookup k <;> rfl

theorem hasKey_decodeNodes (nodesMap : NodesMap) (u : String) :
    hasKey (decodeNodes nodesMap) u = hasKey nodesMap u :=
  hasKey_map_values (fun l : List ModuleNode => l.map fun (node : ModuleNode) =>
    Module.mk node.name node.uses []) nodesMap u

theorem getConfig_decodeNodes (nodesMap : NodesMap) (k : String) :
    getConfig (decodeNodes nodesMap) k =
      (getNodes nodesMap k).map fun node =>
        { name := node.name, uses := node.uses, children := [] } := by
  have h := lookup_map_values (fun l : List ModuleNode => l.map fun node =>
    ({ name := node.name, uses := node.uses, children := [] } : Module)) nodesMap k
  unfold getConfig getNodes decodeNodes
  rw [h]
  cases nodesMap.lookup k <;> rfl

theorem getConfig_attachedMap (nodesMap : NodesMap) (k : String) :
    getConfig (attachedMap nodesMap) k =
      (getNodes nodesMap k).map fun n =>
        { name := n.name, uses := n.uses, children := n.uses.filter (hasKey nodesMap) } := by
  have h := lookup_map_values (fun l : List ModuleNode => l.map fun n =>
    ({ name := n.name, uses := n.uses, children := n.uses.filter (hasKey nodesMap) } : Module))
    nodesMap k
  unfold getConfig getNodes attachedMap
  rw [h]
  cases nodesMap.lookup k <;> rfl

theorem lookup_mem {α : Type} (m : List (String × α)) (k : String) (v : α)
    (h : m.lookup k = some v) : (k, v) ∈ m := by
  induction m with
  | nil => simp at h
  | cons e rest ih =>
    obtain ⟨k1, v1⟩ := e
    by_cases hk : k = k1
    · subst hk
      simp [List.lookup_cons] at h
      simp [h]
    · have hb : (k == k1) = false := by simpa using hk
      rw [List.lookup_cons, hb] at h
      exact List.mem_cons_of_mem _ (ih h)

theorem getNodes_mem (nodesMap : NodesMap) (k : String) (n : ModuleNode)
    (h : n ∈ getNodes nodesMap k) : ∃ e ∈ nodesMap, e.1 = k ∧ n ∈ e.2 := by
  unfold getNodes at h
  cases hl : nodesMap.lookup k with
  | none => simp [hl] at h
  | some l =>
    simp only [hl] at h
    exact ⟨(k, l), lookup_mem _ _ _ hl, rfl, h⟩

theorem PlainMap_decodeNodes (nodesMap : NodesMap) (hp : PlainNodes nodesMap) :
    PlainMap (decodeNodes nodesMap) := by
  intro k md hmd u hu
  rw [getConfig_decodeNodes] at hmd
  obtain ⟨n, hn, rfl⟩ := List.mem_map.1 hmd
  obtain ⟨e, he, _, hne⟩ := getNodes_mem _ _ _ hn
  rw [hasKey_decodeNodes]
  exact hp e he n hne u hu

theorem keyUses_decodeNodes (nodesMap : NodesMap) (k : String) :
    keyUses (decodeNodes nodesMap) (decodeNodes nodesMap) k = referencesOf nodesMap k := by
  unfold keyUses referencesOf
  rw [getConfig_decodeNodes, List.flatMap_map]
  have hf : hasKey (decodeNodes nodesMap) = hasKey nodesMap := funext (hasKey_decodeNodes _)
  rw [hf]

/-- The marking pass on plain references, in closed form: when the pass visits
every key exactly once it leaves `attachedMap` and marks exactly the references
to known documents. -/
theorem markAll_plain_closed (c : Collab) (w : World) (nodesMap : NodesMap) (order : List String)
    (hkeys : (nodesMap.map Prod.fst).Nodup) (horder : order.Perm (nodesMap.map Prod.fst))
    (hp : PlainNodes nodesMap) :
    markAll c ⟨decodeNodes nodesMap, [], w⟩ order =
      .ok ⟨attachedMap nodesMap, (order.flatMap (referencesOf nodesMap)).reverse, w⟩ := by
  rw [markAll_plain c (decodeNodes nodesMap) w order _ _ (fun _ => rfl)
    (PlainMap_decodeNodes nodesMap hp)]
  have hnodup : order.Nodup := horder.nodup_iff.2 hkeys
  have hdk : (decodeNodes nodesMap).map Prod.fst = nodesMap.map Prod.fst := by
    simp [decodeNodes, List.map_map, Function.comp_def]
  rw [attach_fold_closed _ order hnodup _ (by rw [hdk]; exact hkeys)]
  have hview : keyUses (decodeNodes nodesMap) (decodeNodes nodesMap) = referencesOf nodesMap :=
    funext (keyUses_decodeNodes nodesMap)
  rw [hview, List.append_nil]
  have hf : hasKey (decodeNodes nodesMap) = hasKey nodesMap := funext (hasKey_decodeNodes nodesMap)
  have hatt : attachUses (decodeNodes nodesMap) = fun md =>
      { md with children := md.children ++ md.uses.filter (hasKey nodesMap) } := by
    funext md
    simp [attachUses, hf]
  rw [hatt]
  congr 2
  unfold attachedMap decodeNodes
  rw [List.map_map]
  apply List.map_congr_left
  intro e he
  have hmem : e.1 ∈ order := horder.mem_iff.2 (List.mem_map_of_mem Prod.fst he)
  simp [Function.comp, hmem]

/-! ### The merge pass -/

theorem pruneUses_eq_filter (used : List String) (l : List String) :
    pruneUses used l = l.filter fun u => decide (u ∉ used) := by
  induction l with
  | nil => rfl
  | cons u rest ih =>
    by_cases h : u ∈ used
    · simp [pruneUses, h, ih]
    · simp [pruneUses, h, ih]

theorem fmtConfig_eq (used : List String) (name : String) (cfg : List ModuleTree) :
    fmtConfig used name cfg =
      cfg.flatMap fun child => fmtModule used (name ++ "." ++ child.name) child := by
  induction cfg with
  | nil => simp [fmtConfig]
  | cons child rest ih => simp [fmtConfig, ih]

theorem fmtChildren_eq (used : List String) (name : String) (cs : List (List ModuleTree)) :
    fmtChildren used name cs = cs.flatMap (fmtConfig used name) := by
  induction cs with
  | nil => simp [fmtChildren]
  | cons cfg rest ih => simp [fmtChildren, ih]

theorem fmtModule_eq (used : List String) (name : String) (t : ModuleTree) :
    fmtModule used name t =
      t.children.flatMap (fmtConfig used name) ++
        [{ name := name, uses := pruneUses used t.uses }] := by
  cases t with
  | mk n u cs => simp [fmtModule, fmtChildren_eq, ModuleTree.children, ModuleTree.uses]

theorem mergeAll_covers (fuel : Nat) (m : ModulesMap) (used : List String) :
    ∀ (order : List String) (out : List ModuleNode), mergeAll fuel m used order = some out →
      ∀ s ∈ order, s ∉ used → ∃ ts, copyConfig m fuel (getConfig m s) = some ts ∧
        ∀ entry ∈ ts.flatMap (fun t => deepFmtModules t used), entry ∈ out := by
  intro order
  induction order with
  | nil => intro out _ s hs; cases hs
  | cons s0 rest ih =>
    intro out h s hs hsu
    rw [mergeAll] at h
    by_cases hs0 : s0 ∈ used
    · simp only [hs0, if_true] at h
      rcases List.mem_cons.1 hs with rfl | hs2
      · exact absurd hs0 hsu
      · exact ih out h s hs2 hsu
    · simp only [hs0, if_false] at h
      cases hc : copyConfig m fuel (getConfig m s0) with
      | none => simp [hc] at h
      | some ts =>
        cases hr : mergeAll fuel m used rest with
        | none => simp [hc, hr] at h
        | some out2 =>
          simp only [hc, hr, Option.some.injEq] at h
          subst h
          rcases List.mem_cons.1 hs with rfl | hs2
          · exact ⟨ts, hc, fun entry he => List.mem_append_left _ he⟩
          · obtain ⟨ts2, hc2, hall⟩ := ih out2 hr s hs2 hsu
            exact ⟨ts2, hc2, fun entry he => List.mem_append_right _ (hall entry he)⟩

theorem mergeAll_total (fuel : Nat) (m : ModulesMap) (used : List String) (order : List String)
    (h : ∀ s ∈ order, s ∉ used → (copyConfig m fuel (getConfig m s)).isSome = true) :
    (mergeAll fuel m used order).isSome = true := by
  induction order with
  | nil => rfl
  | cons s rest ih =>
    rw [mergeAll]
    have hr := ih (fun x hx => h x (List.mem_cons_of_mem _ hx))
    by_cases hs : s ∈ used
    · simpa [hs] using hr
    · have hc := h s (List.mem_cons_self _ _) hs
      cases hcc : copyConfig m fuel (getConfig m s) with
      | none => simp [hcc] at hc
      | some ts =>
        cases hrr : mergeAll fuel m used rest with
        | none => simp [hrr] at hr
        | some out => simp [hs]

theorem empty_append (s : String) : "" ++ s = s := by
  apply String.ext
  simp [String.data_append]

theorem deepFmtModules_eq (t : ModuleTree) (used : List String) :
    deepFmtModules t used = fmtModule used ("" ++ t.name) t := by
  rw [empty_append]
  rfl

theorem mem_referencesOf (nodesMap : NodesMap) (order : List String) (u : String) :
    u ∈ (order.flatMap (referencesOf nodesMap)).reverse ↔
      ∃ k ∈ order, ∃ n ∈ getNodes nodesMap k, u ∈ n.uses ∧ hasKey nodesMap u = true := by
  simp [referencesOf, List.mem_flatMap, List.mem_filter]

theorem Extends.refl (nm : String) : Extends nm nm :=
  ⟨[], by simp, Or.inl rfl⟩

theorem Extends.below (nm cn s : String) (h : Extends (nm ++ "." ++ cn) s) :
    Extends nm s ∧ s ≠ nm := by
  obtain ⟨x, hx, _⟩ := h
  have hd : s.data = nm.data ++ ('.' :: (cn.data ++ x)) := by
    rw [hx]
    simp [String.data_append]
  refine ⟨⟨_, hd, Or.inr ⟨_, rfl⟩⟩, ?_⟩
  intro heq
  rw [heq] at hd
  have := congrArg List.length hd
  simp at this

theorem dotfree_split (l1 : List Char) : ∀ (l2 x y : List Char), '.' ∉ l1 → '.' ∉ l2 →
    (x = [] ∨ ∃ z, x = '.' :: z) → (y = [] ∨ ∃ z, y = '.' :: z) →
    l1 ++ x = l2 ++ y → l1 = l2 := by
  induction l1 with
  | nil =>
    intro l2 x y _ h2 hx hy h
    cases l2 with
    | nil => rfl
    | cons d l2 =>
      exfalso
      simp only [List.nil_append, List.cons_append] at h
      rcases hx with rfl | ⟨z, rfl⟩
      · cases h
      · simp only [List.cons.injEq] at h
        exact h2 (h.1 ▸ List.mem_cons_self _ _)
  | cons c l1 ih =>
    intro l2 x y h1 h2 hx hy h
    cases l2 with
    | nil =>
      exfalso
      simp only [List.nil_append, List.cons_append] at h
      rcases hy with rfl | ⟨z, rfl⟩
      · cases h
      · simp only [List.cons.injEq] at h
        exact h1 (h.1 ▸ List.mem_cons_self _ _)
    | cons d l2 =>
      simp only [List.cons_append, List.cons.injEq] at h
      have := ih l2 x y (fun hm => h1 (List.mem_cons_of_mem _ hm))
        (fun hm => h2 (List.mem_cons_of_mem _ hm)) hx hy h.2
      rw [h.1, this]

theorem Extends.separate (pre a b s : String) (ha : '.' ∉ a.data) (hb : '.' ∉ b.data)
    (h1 : Extends (pre ++ a) s) (h2 : Extends (pre ++ b) s) : a = b := by
  obtain ⟨x, hx, hxs⟩ := h1
  obtain ⟨y, hy, hys⟩ := h2
  rw [hx] at hy
  simp only [String.data_append, List.append_assoc] at hy
  have h := dotfree_split a.data b.data x y ha hb hxs hys (List.append_cancel_left hy)
  exact String.ext h

theorem mapOption_append {α β : Type} (f : α → Option β) (l1 l2 : List α) (r1 r2 : List β)
    (h1 : mapOption f l1 = some r1) (h2 : mapOption f l2 = some r2) :
    mapOption f (l1 ++ l2) = some (r1 ++ r2) := by
  induction l1 generalizing r1 with
  | nil =>
    simp [mapOption] at h1
    subst h1
    simpa using h2
  | cons a rest ih =>
    rw [mapOption] at h1
    cases ha : f a with
    | none => simp [ha] at h1
    | some b =>
      cases hr : mapOption f rest with
      | none => simp [ha, hr] at h1
      | some bs =>
        simp only [ha, hr, Option.some.injEq] at h1
        subst h1
        simp [mapOption, ha, ih bs hr]

theorem mapOption_flatMap {α β γ : Type} (g : β → Option γ) (h : α → List β) :
    ∀ (l : List α) (cs : List (List γ)), mapOption (fun k => mapOption g (h k)) l = some cs →
      mapOption g (l.flatMap h) = some cs.flatten := by
  intro l
  induction l with
  | nil =>
    intro cs hcs
    simp [mapOption] at hcs
    subst hcs
    rfl
  | cons a rest ih =>
    intro cs hcs
    rw [mapOption] at hcs
    cases ha : mapOption g (h a) with
    | none => simp [ha] at hcs
    | some b =>
      cases hr : mapOption (fun k => mapOption g (h k)) rest with
      | none => simp [ha, hr] at hcs
      | some bs =>
        simp only [ha, hr, Option.some.injEq] at hcs
        subst hcs
        simp only [List.flatMap_cons, List.flatten_cons]
        exact mapOption_append g _ _ _ _ ha (ih bs hr)

theorem copyModule_name (m : ModulesMap) (fuel : Nat) (md : Module) (t : ModuleTree)
    (h : copyModule m fuel md = some t) : t.name = md.name ∧ t.uses = md.uses := by
  unfold copyModule at h
  cases hcs : mapOption (fun k => copyConfig m fuel (getConfig m k)) md.children with
  | none => simp [hcs] at h
  | some cs =>
    simp only [hcs, Option.some.injEq] at h
    subst h
    exact ⟨rfl, rfl⟩

theorem fmt_config_names (m : ModulesMap) (used : List String) (f : Nat)
    (hT : ∀ (md : Module) (t : ModuleTree) (nm : String), copyModule m f md = some t →
      (childNames m md).Nodup →
      ((fmtModule used nm t).map fun e => e.name).Nodup ∧
        ∀ entry ∈ fmtModule used nm t, Extends nm entry.name) :
    ∀ (cfg : ModuleConfig) (ts : List ModuleTree) (pre0 : String),
      mapOption (copyModule m f) cfg = some ts →
      (∀ md ∈ cfg, '.' ∉ md.name.data ∧ (childNames m md).Nodup) →
      (cfg.map fun md => md.name).Nodup →
      ((ts.flatMap fun t => fmtModule used (pre0 ++ t.name) t).map fun e => e.name).Nodup ∧
        ∀ entry ∈ ts.flatMap (fun t => fmtModule used (pre0 ++ t.name) t),
          ∃ md ∈ cfg, Extends (pre0 ++ md.name) entry.name := by
  intro cfg
  induction cfg with
  | nil =>
    intro ts pre0 h _ _
    simp [mapOption] at h
    subst h
    simp
  | cons md rest ih =>
    intro ts pre0 h hall hnodup
    rw [mapOption] at h
    cases hmd : copyModule m f md with
    | none => simp [hmd] at h
    | some t =>
      cases hr : mapOption (copyModule m f) rest with
      | none => simp [hmd, hr] at h
      | some ts2 =>
        simp only [hmd, hr, Option.some.injEq] at h
        subst h
        simp only [List.map_cons, List.nodup_cons] at hnodup
        obtain ⟨ihN, ihE⟩ := ih ts2 pre0 hr (fun x hx => hall x (List.mem_cons_of_mem _ hx)) hnodup.2
        obtain ⟨hN, hE⟩ := hT md t (pre0 ++ t.name) hmd (hall md (List.mem_cons_self _ _)).2
        have hname : t.name = md.name := (copyModule_name m f md t hmd).1
        constructor
        · simp only [List.flatMap_cons, List.map_append]
          rw [List.nodup_append]
          refine ⟨hN, ihN, ?_⟩
          intro s hs1 hs2
          obtain ⟨e1, he1, rfl⟩ := List.mem_map.1 hs1
          obtain ⟨e2, he2, heq⟩ := List.mem_map.1 hs2
          have hx1 := hE e1 he1
          obtain ⟨md2, hmd2, hx2⟩ := ihE e2 he2
          rw [heq] at hx2
          rw [hname] at hx1
          have := Extends.separate pre0 md.name md2.name e1.name
            (hall md (List.mem_cons_self _ _)).1 (hall md2 (List.mem_cons_of_mem _ hmd2)).1 hx1 hx2
          exact hnodup.1 (this ▸ List.mem_map_of_mem (fun md => md.name) hmd2)
        · intro entry he
          simp only [List.flatMap_cons] at he
          rcases List.mem_append.1 he with h1 | h2
          · exact ⟨md, List.mem_cons_self _ _, hname ▸ hE entry h1⟩
          · obtain ⟨md2, hmd2, hx⟩ := ihE entry h2
            exact ⟨md2, List.mem_cons_of_mem _ hmd2, hx⟩

theorem fmt_module_names (m : ModulesMap) (used : List String)
    (hdot : ∀ k, ∀ md ∈ getConfig m k, '.' ∉ md.name.data)
    (hsib : ∀ k, ∀ md ∈ getConfig m k, (childNames m md).Nodup) (f : Nat) :
    ∀ (md : Module) (t : ModuleTree) (nm : String), copyModule m f md = some t →
      (childNames m md).Nodup →
      ((fmtModule used nm t).map fun e => e.name).Nodup ∧
        ∀ entry ∈ fmtModule used nm t, Extends nm entry.name := by
  induction f with
  | zero =>
    intro md t nm hcopy _
    unfold copyModule at hcopy
    cases hch : md.children with
    | nil =>
      simp only [hch, mapOption, Option.some.injEq] at hcopy
      subst hcopy
      simp [fmtModule, fmtChildren, Extends.refl]
    | cons k rest => simp [hch, mapOption, copyConfig] at hcopy
  | succ f ih =>
    intro md t nm hcopy hsibs
    unfold copyModule at hcopy
    cases hcs : mapOption (fun k => copyConfig m (f + 1) (getConfig m k)) md.children with
    | none => simp [hcs] at hcopy
    | some cs =>
      simp only [hcs, Option.some.injEq] at hcopy
      subst hcopy
      have hflat := mapOption_flatMap (copyModule m f) (getConfig m) md.children cs hcs
      have hall : ∀ md2 ∈ md.children.flatMap (getConfig m),
          '.' ∉ md2.name.data ∧ (childNames m md2).Nodup := by
        intro md2 hmd2
        obtain ⟨k, _, hk⟩ := List.mem_flatMap.1 hmd2
        exact ⟨hdot k md2 hk, hsib k md2 hk⟩
      have hnd : ((md.children.flatMap (getConfig m)).map fun md2 => md2.name).Nodup := by
        rw [List.map_flatMap]
        exact hsibs
      obtain ⟨hN, hE⟩ := fmt_config_names m used f ih _ _ (nm ++ ".") hflat hall hnd
      have hchildren : cs.flatMap (fmtConfig used nm) =
          cs.flatten.flatMap fun t => fmtModule used (nm ++ "." ++ t.name) t := by
        rw [List.flatMap_def cs.flatten, List.map_flatten, List.flatten_flatten,
          List.flatMap_def, List.map_map]
        congr 1
        apply List.map_congr_left
        intro c _
        simp only [Function.comp, fmtConfig_eq, List.flatMap_def]
      rw [fmtModule_eq]
      simp only [ModuleTree.children, ModuleTree.uses, hchildren]
      constructor
      · rw [List.map_append, List.nodup_append]
        refine ⟨hN, by simp, ?_⟩
        intro s hs1 hs2
        simp only [List.map_cons, List.map_nil, List.mem_singleton] at hs2
        rw [hs2] at hs1
        obtain ⟨e1, he1, heq⟩ := List.mem_map.1 hs1
        obtain ⟨md2, _, hx⟩ := hE e1 he1
        exact (Extends.below nm md2.name e1.name hx).2 heq
      · intro entry he
        rcases List.mem_append.1 he with h1 | h2
        · obtain ⟨md2, _, hx⟩ := hE entry h1
          exact (Extends.below nm md2.name entry.name hx).1
        · simp only [List.mem_singleton] at h2
          subst h2
          exact Extends.refl nm

theorem getConfig_mem (m : ModulesMap) (k : String) (md : Module) (h : md ∈ getConfig m k) :
    ∃ e ∈ m, e.1 = k ∧ md ∈ e.2 := by
  unfold getConfig at h
  cases hl : m.lookup k with
  | none => simp [hl] at h
  | some l =>
    simp only [hl] at h
    exact ⟨(k, l), lookup_mem _ _ _ hl, rfl, h⟩

theorem mergeAll_zero (m : ModulesMap) (used : List String) :
    ∀ (order : List String) (out : List ModuleNode), mergeAll 0 m used order = some out →
      out = [] := by
  intro order
  induction order with
  | nil => intro out h; simpa [mergeAll] using h.symm
  | cons s rest ih =>
    intro out h
    rw [mergeAll] at h
    by_cases hs : s ∈ used
    · simp only [hs, if_true] at h
      exact ih out h
    · simp [hs, copyConfig] at h

theorem mergeAll_succ_eq (f : Nat) (m : ModulesMap) (used : List String) :
    ∀ (order : List String) (out : List ModuleNode), mergeAll (f + 1) m used order = some out →
      ∃ ts, mapOption (copyModule m f)
          ((order.filter fun s => decide (s ∉ used)).flatMap (getConfig m)) = some ts ∧
        out = ts.flatMap fun t => deepFmtModules t used := by
  intro order
  induction order with
  | nil =>
    intro out h
    simp only [mergeAll, Option.some.injEq] at h
    subst h
    exact ⟨[], rfl, rfl⟩
  | cons s rest ih =>
    intro out h
    rw [mergeAll] at h
    by_cases hs : s ∈ used
    · simp only [hs, if_true] at h
      obtain ⟨ts, hts, hout⟩ := ih out h
      refine ⟨ts, ?_, hout⟩
      simpa [List.filter_cons, hs] using hts
    · simp only [hs, if_false] at h
      cases hc : copyConfig m (f + 1) (getConfig m s) with
      | none => simp [hc] at h
      | some ts1 =>
        cases hr : mergeAll (f + 1) m used rest with
        | none => simp [hc, hr] at h
        | some out2 =>
          simp only [hc, hr, Option.some.injEq] at h
          subst h
          obtain ⟨ts2, hts2, hout2⟩ := ih out2 hr
          refine ⟨ts1 ++ ts2, ?_, ?_⟩
          · have : (List.filter (fun s => decide (s ∉ used)) (s :: rest)) =
                s :: List.filter (fun s => decide (s ∉ used)) rest := by
              simp [List.filter_cons, hs]
            rw [this, List.flatMap_cons]
            exact mapOption_append _ _ _ _ _ hc hts2
          · rw [hout2, List.flatMap_append]

/-- C8 (amended). When, after the usage-marking pass, no declaration name holds
a dot, the declarations of the documents left unmarked (the roots visited by the
merge loop) have pairwise distinct names, and for every declaration the
declarations of all child documents attached to it have pairwise distinct names,
the list that `makeUsesModule` returns has no two entries with the same
qualified name. -/
theorem distinct_qualified_names (c : Collab) (world : World) (fuel : Nat) (nodesMap : NodesMap)
    (order1 order2 : List String) (st : Marking) (out : List ModuleNode)
    (hmark : markAll c ⟨decodeNodes nodesMap, [], world⟩ order1 = .ok st)
    (hdot : ∀ e ∈ st.modulesMap, ∀ md ∈ e.2, '.' ∉ md.name.data)
    (hsib : ∀ e ∈ st.modulesMap, ∀ md ∈ e.2, (childNames st.modulesMap md).Nodup)
    (hroots : (((order2.filter fun s => decide (s ∉ st.usedModuleMap)).flatMap
      (getConfig st.modulesMap)).map fun md => md.name).Nodup)
    (hrun : makeUsesModule c world fuel nodesMap order1 order2 = some (.ok out)) :
    (out.map fun e => e.name).Nodup := by
  unfold makeUsesModule at hrun
  rw [hmark] at hrun
  simp only at hrun
  cases hm : mergeAll fuel st.modulesMap st.usedModuleMap order2 with
  | none => simp [hm] at hrun
  | some out2 =>
    simp only [hm, Option.some.injEq, Except.ok.injEq] at hrun
    subst hrun
    cases fuel with
    | zero =>
      rw [mergeAll_zero _ _ _ _ hm]
      exact List.nodup_nil
    | succ f =>
      obtain ⟨ts, hts, hout⟩ := mergeAll_succ_eq f _ _ _ _ hm
      have hdot2 : ∀ k, ∀ md ∈ getConfig st.modulesMap k, '.' ∉ md.name.data := by
        intro k md hmd
        obtain ⟨e, he, _, hin⟩ := getConfig_mem _ _ _ hmd
        exact hdot e he md hin
      have hsib2 : ∀ k, ∀ md ∈ getConfig st.modulesMap k, (childNames st.modulesMap md).Nodup := by
        intro k md hmd
        obtain ⟨e, he, _, hin⟩ := getConfig_mem _ _ _ hmd
        exact hsib e he md hin
      have hall : ∀ md ∈ (order2.filter fun s => decide (s ∉ st.usedModuleMap)).flatMap
          (getConfig st.modulesMap), '.' ∉ md.name.data ∧ (childNames st.modulesMap md).Nodup := by
        intro md hmd
        obtain ⟨k, _, hk⟩ := List.mem_flatMap.1 hmd
        exact ⟨hdot2 k md hk, hsib2 k md hk⟩
      have h := (fmt_config_names st.modulesMap st.usedModuleMap f
        (fmt_module_names st.modulesMap st.usedModuleMap hdot2 hsib2 f) _ ts "" hts hall hroots).1
      have hfun : (fun t => deepFmtModules t st.usedModuleMap) =
          fun t => fmtModule st.usedModuleMap ("" ++ t.name) t :=
        funext fun t => deepFmtModules_eq t _
      rw [hout, hfun]
      exact h

theorem plainDocs_plain : PlainNodes plainDocs := by
  unfold PlainNodes
  decide

theorem distinct_qualified_names_witness :
    makeUsesModule offlineCollab offlineWorld 2 plainDocs
        ["root.yaml", "child.yaml"] ["root.yaml", "child.yaml"] =
      some (.ok [⟨"r.c", ["rules/c.yaml"]⟩, ⟨"r.d", []⟩, ⟨"r", ["rules/r.yaml"]⟩]) ∧
    ((([⟨"r.c", ["rules/c.yaml"]⟩, ⟨"r.d", []⟩, ⟨"r", ["rules/r.yaml"]⟩] :
      List ModuleNode).map fun e => e.name).Nodup) := by
  have hrun : makeUsesModule offlineCollab offlineWorld 2 plainDocs
      ["root.yaml", "child.yaml"] ["root.yaml", "child.yaml"] =
      some (.ok [⟨"r.c", ["rules/c.yaml"]⟩, ⟨"r.d", []⟩, ⟨"r", ["rules/r.yaml"]⟩]) := by decide
  refine ⟨hrun, ?_⟩
  exact distinct_qualified_names offlineCollab offlineWorld 2 plainDocs
    ["root.yaml", "child.yaml"] ["root.yaml", "child.yaml"]
    ⟨attachedMap plainDocs,
      (["root.yaml", "child.yaml"].flatMap (referencesOf plainDocs)).reverse, offlineWorld⟩ _
    (markAll_plain_closed offlineCollab offlineWorld plainDocs _ (by decide) (List.Perm.refl _)
      plainDocs_plain)
    (by decide) (by decide) (by decide) hrun

/-- C8 (counterexample). Two acyclic document sets whose declaration names are
unique within each document and whose output repeats a qualified name: two root
documents that both declare `a`; and a document that declares `a` and `a.b`
where `a` inlines a document declaring `b`. -/
theorem duplicate_names_counterexample :
    (makeUsesModule offlineCollab offlineWorld 2
        [("r1.yaml", [⟨"a", []⟩]), ("r2.yaml", [⟨"a", []⟩])]
        ["r1.yaml", "r2.yaml"] ["r1.yaml", "r2.yaml"] =
      some (.ok [⟨"a", []⟩, ⟨"a", []⟩])) ∧
    (makeUsesModule offlineCollab offlineWorld 2
        [("root.yaml", [⟨"a", ["c.yaml"]⟩, ⟨"a.b", []⟩]), ("c.yaml", [⟨"b", []⟩])]
        ["root.yaml", "c.yaml"] ["root.yaml", "c.yaml"] =
      some (.ok [⟨"a.b", []⟩, ⟨"a", []⟩, ⟨"a.b", []⟩])) ∧
    ¬ (([⟨"a", []⟩, ⟨"a", []⟩] : List ModuleNode).map fun e => e.name).Nodup ∧
    ¬ (([⟨"a.b", []⟩, ⟨"a", []⟩, ⟨"a.b", []⟩] : List ModuleNode).map fun e => e.name).Nodup := by
  refine ⟨by decide, by decide, by decide, by decide⟩

/-! ### Errors of the marking pass -/

theorem index_error {α : Type} (arr : List α) (i : Nat) (e : Failure)
    (h : index arr i = .error e) : e = .indexOutOfRange := by
  unfold index at h
  cases hi : arr[i]? with
  | none => simp only [hi] at h; cases h; rfl
  | some a => simp [hi] at h

theorem rewriteUse_error (c : Collab) (w : World) (use : String) (e : Failure)
    (h : rewriteUse c w use = .error e) : FromHomeModulesPath c e := by
  unfold rewriteUse at h
  have hsecond : ∀ (u1 : String) (w1 : World),
      (if hasPrefix use "app.selefra.io" = true then
        match index (splitSlash use) 1 with
        | .error e => .error e
        | .ok modulesOrg =>
          match index (splitSlash use) 2 with
          | .error e => .error e
          | .ok modulesName =>
            let res := c.getHomeModulesPath w1 modulesName modulesOrg
            let modulePath := match res.1 with
              | .ok p => p
              | .error _ => ""
            .ok (replaceFirst use (joinSlash ((splitSlash use).take 2)) modulePath, res.2)
      else (.ok (u1, w1) : Except Failure (String × World))) = .error e →
      FromHomeModulesPath c e := by
    intro u1 w1 hh
    by_cases h2 : hasPrefix use "app.selefra.io" = true
    · simp only [h2, if_true] at hh
      cases hi1 : index (splitSlash use) 1 with
      | error e1 =>
        simp only [hi1] at hh
        cases hh
        exact Or.inl (index_error _ _ _ hi1)
      | ok org =>
        simp only [hi1] at hh
        cases hi2 : index (splitSlash use) 2 with
        | error e2 =>
          simp only [hi2] at hh
          cases hh
          exact Or.inl (index_error _ _ _ hi2)
        | ok name2 => simp [hi2] at hh
    · simp [h2] at hh
  by_cases h1 : hasPrefix use "selefra" = true
  · simp only [h1, if_true] at h
    cases hidx : index (splitSlash use) 1 with
    | error e1 =>
      simp only [hidx] at h
      cases h
      exact Or.inl (index_error _ _ _ hidx)
    | ok name =>
      simp only [hidx] at h
      cases hg : c.getHomeModulesPath w name "" with
      | mk res w1 =>
        cases res with
        | error msg =>
          simp only [hg] at h
          cases h
          exact Or.inr ⟨w, name, msg, by rw [hg], rfl⟩
        | ok modules =>
          simp only [hg] at h
          by_cases h2 : hasPrefix use "app.selefra.io" = true
          · simp only [h2, if_true] at h
            cases hi2 : index (splitSlash use) 2 with
            | error e2 =>
              simp only [hi2] at h
              cases h
              exact Or.inl (index_error _ _ _ hi2)
            | ok name2 => simp [hi2] at h
          · simp [h2] at h
  · simp only [h1] at h
    exact hsecond _ _ h

theorem rewriteUses_error (c : Collab) (e : Failure) :
    ∀ (uses : List String) (w : World), rewriteUses c w uses = .error e →
      FromHomeModulesPath c e := by
  intro uses
  induction uses with
  | nil => intro w h; simp [rewriteUses] at h
  | cons u rest ih =>
    intro w h
    rw [rewriteUses] at h
    cases hu : rewriteUse c w u with
    | error e1 =>
      simp only [hu] at h
      cases h
      exact rewriteUse_error c w u _ hu
    | ok r =>
      obtain ⟨u1, w1⟩ := r
      simp only [hu] at h
      cases hr : rewriteUses c w1 rest with
      | error e2 =>
        simp only [hr] at h
        cases h
        exact ih w1 hr
      | ok r2 => simp [hr] at h

theorem foldExcept_error {α σ : Type} (P : Failure → Prop) (body : σ → α → Except Failure σ)
    (hbody : ∀ st a e, body st a = .error e → P e) :
    ∀ (l : List α) (st : σ) (e : Failure), foldExcept body st l = .error e → P e := by
  intro l
  induction l with
  | nil => intro st e h; simp [foldExcept] at h
  | cons a rest ih =>
    intro st e h
    rw [foldExcept] at h
    cases hb : body st a with
    | error e1 =>
      simp only [hb] at h
      cases h
      exact hbody st a _ hb
    | ok st1 =>
      simp only [hb] at h
      exact ih st1 e h

theorem markModule_error (c : Collab) (key : String) (st : Marking) (i : Nat) (e : Failure)
    (h : markModule c key st i = .error e) : FromHomeModulesPath c e := by
  unfold markModule at h
  cases hmd : (getConfig st.modulesMap key)[i]? with
  | none => simp [hmd] at h
  | some md =>
    simp only [hmd] at h
    cases hr : rewriteUses c st.world md.uses with
    | error e1 =>
      simp only [hr] at h
      cases h
      exact rewriteUses_error c _ _ _ hr
    | ok r => simp [hr] at h

theorem markAll_error (c : Collab) (st : Marking) (order : List String) (e : Failure)
    (h : markAll c st order = .error e) : FromHomeModulesPath c e := by
  unfold markAll at h
  refine foldExcept_error (FromHomeModulesPath c) (markConfig c) ?_ order st e h
  intro st1 key e1 h1
  unfold markConfig at h1
  exact foldExcept_error (FromHomeModulesPath c) (markModule c key)
    (fun st2 i e2 h2 => markModule_error c key st2 i e2 h2) _ st1 e1 h1

/-- The merge loop on a shared child: when the marking pass has attached the
same child document `pc` (declaration `cn`) to the declaration `a` of the root
document `p1` and to the declaration `b` of the root document `p2`, the output
holds both an entry `a.cn` and an entry `b.cn`, each with the pruned `uses` of
the child as `ModulesMap` stores it. -/
theorem shared_child_merge (c : Collab) (world : World) (nodesMap : NodesMap)
    (order1 order2 : List String) (st : Marking) (f : Nat)
    (p1 p2 pc a b cn : String) (ua ub cu : List String)
    (hmark : markAll c ⟨decodeNodes nodesMap, [], world⟩ order1 = .ok st)
    (h1 : getConfig st.modulesMap p1 = [⟨a, ua, [pc]⟩])
    (h2 : getConfig st.modulesMap p2 = [⟨b, ub, [pc]⟩])
    (hc : getConfig st.modulesMap pc = [⟨cn, cu, []⟩])
    (hu1 : p1 ∉ st.usedModuleMap) (hu2 : p2 ∉ st.usedModuleMap) (huc : pc ∈ st.usedModuleMap)
    (ho2 : order2.Perm [p1, p2, pc]) :
    ∃ out, makeUsesModule c world (f + 2) nodesMap order1 order2 = some (.ok out) ∧
      ⟨a ++ "." ++ cn, pruneUses st.usedModuleMap cu⟩ ∈ out ∧
      ⟨b ++ "." ++ cn, pruneUses st.usedModuleMap cu⟩ ∈ out ∧
      ⟨a, pruneUses st.usedModuleMap ua⟩ ∈ out ∧ ⟨b, pruneUses st.usedModuleMap ub⟩ ∈ out := by
  have hcopy1 : copyConfig st.modulesMap (f + 2) (getConfig st.modulesMap p1) =
      some [ModuleTree.mk a ua [[ModuleTree.mk cn cu []]]] := by
    simp [copyConfig, mapOption, h1, hc]
  have hcopy2 : copyConfig st.modulesMap (f + 2) (getConfig st.modulesMap p2) =
      some [ModuleTree.mk b ub [[ModuleTree.mk cn cu []]]] := by
    simp [copyConfig, mapOption, h2, hc]
  have htotal : (mergeAll (f + 2) st.modulesMap st.usedModuleMap order2).isSome = true := by
    apply mergeAll_total
    intro s hs hsu
    have hs3 : s ∈ [p1, p2, pc] := ho2.mem_iff.1 hs
    simp only [List.mem_cons, List.mem_singleton, List.not_mem_nil, or_false] at hs3
    rcases hs3 with rfl | rfl | rfl
    · rw [hcopy1]; rfl
    · rw [hcopy2]; rfl
    · exact absurd huc hsu
  cases hm : mergeAll (f + 2) st.modulesMap st.usedModuleMap order2 with
  | none => simp [hm] at htotal
  | some out =>
    refine ⟨out, ?_, ?_⟩
    · unfold makeUsesModule
      rw [hmark]
      simp only [hm]
    · have hp1 : p1 ∈ order2 := ho2.mem_iff.2 (by simp)
      have hp2 : p2 ∈ order2 := ho2.mem_iff.2 (by simp)
      obtain ⟨ts1, hts1, hall1⟩ := mergeAll_covers _ _ _ _ _ hm p1 hp1 hu1
      obtain ⟨ts2, hts2, hall2⟩ := mergeAll_covers _ _ _ _ _ hm p2 hp2 hu2
      rw [hcopy1] at hts1
      rw [hcopy2] at hts2
      cases hts1
      cases hts2
      refine ⟨hall1 _ ?_, hall2 _ ?_, hall1 _ ?_, hall2 _ ?_⟩ <;>
        simp [deepFmtModules, fmtModule, fmtChildren, fmtConfig, ModuleTree.name]

theorem sharedChildDocs_marked :
    markAll offlineCollab ⟨decodeNodes sharedChildDocs, [], offlineWorld⟩
        ["/ws/r1.yaml", "/ws/r2.yaml", "/ws/sub/c.yaml"] =
      .ok ⟨[("/ws/r1.yaml", [⟨"a", ["/ws/sub/c.yaml"], ["/ws/sub/c.yaml"]⟩]),
          ("/ws/r2.yaml", [⟨"b", ["/ws/sub/c.yaml"], ["/ws/sub/c.yaml"]⟩]),
          ("/ws/sub/c.yaml", [⟨"c", ["/ws/sub/ws/sub/rules/x.yaml"], []⟩])],
        ["/ws/sub/c.yaml", "/ws/sub/c.yaml"], offlineWorld⟩ := by
  rfl

theorem hasKey_mem_keys {α : Type} (m : List (String × α)) (k : String)
    (h : hasKey m k = true) : k ∈ m.map Prod.fst := by
  unfold hasKey at h
  cases hl : m.lookup k with
  | none => simp [hl] at h
  | some v => exact lookup_mem_keys m k v hl

theorem pruneUses_none (used uses : List String) (h : ∀ u ∈ uses, u ∉ used) :
    pruneUses used uses = uses := by
  induction uses with
  | nil => rfl
  | cons u rest ih =>
    have hu := h u (List.mem_cons_self _ _)
    simp [pruneUses, hu, ih (fun v hv => h v (List.mem_cons_of_mem _ hv))]

theorem shared_child_plain (c : Collab) (world : World) (f : Nat)
    (p1 p2 pc a b cn : String) (cu order1 order2 : List String)
    (hd : [p1, p2, pc].Nodup)
    (hpc : hasPrefix pc "selefra" = false ∧ hasPrefix pc "app.selefra.io" = false ∧
      isAbs pc = false)
    (hcu : ∀ u ∈ cu, hasPrefix u "selefra" = false ∧ hasPrefix u "app.selefra.io" = false ∧
      u ∉ [p1, p2, pc])
    (ho1 : order1.Perm [p1, p2, pc]) (ho2 : order2.Perm [p1, p2, pc]) :
    ∃ out, makeUsesModule c world (f + 2)
        [(p1, [⟨a, [pc]⟩]), (p2, [⟨b, [pc]⟩]), (pc, [⟨cn, cu⟩])] order1 order2 = some (.ok out) ∧
      ⟨a ++ "." ++ cn, cu⟩ ∈ out ∧ ⟨b ++ "." ++ cn, cu⟩ ∈ out ∧
      ⟨a, []⟩ ∈ out ∧ ⟨b, []⟩ ∈ out := by
  have h12 : p1 ≠ p2 := by
    intro h; subst h; simp at hd
  have h1c : p1 ≠ pc := by
    intro h; subst h; simp at hd
  have h2c : p2 ≠ pc := by
    intro h; subst h; simp at hd
  have hb21 : (p2 == p1) = false := by simpa using fun h => h12 h.symm
  have hbc1 : (pc == p1) = false := by simpa using fun h => h1c h.symm
  have hbc2 : (pc == p2) = false := by simpa using fun h => h2c h.symm
  let nodesMap : NodesMap := [(p1, [⟨a, [pc]⟩]), (p2, [⟨b, [pc]⟩]), (pc, [⟨cn, cu⟩])]
  have hkpc : hasKey nodesMap pc = true := by
    simp [nodesMap, hasKey, List.lookup, hbc1, hbc2]
  have hnokey : ∀ u ∈ cu, hasKey nodesMap u = false := by
    intro u hu
    cases hk : hasKey nodesMap u with
    | false => rfl
    | true =>
      exfalso
      have := hasKey_mem_keys nodesMap u hk
      exact (hcu u hu).2.2 (by simpa [nodesMap] using this)
  have hplain : PlainNodes nodesMap := by
    intro e he n hn u hu
    simp only [nodesMap, List.mem_cons, List.mem_singleton, List.not_mem_nil, or_false] at he
    rcases he with rfl | rfl | rfl
    · simp only [List.mem_singleton] at hn
      subst hn
      simp only [List.mem_singleton] at hu
      subst hu
      exact ⟨hpc.1, hpc.2.1, fun _ => hpc.2.2⟩
    · simp only [List.mem_singleton] at hn
      subst hn
      simp only [List.mem_singleton] at hu
      subst hu
      exact ⟨hpc.1, hpc.2.1, fun _ => hpc.2.2⟩
    · simp only [List.mem_singleton] at hn
      subst hn
      refine ⟨(hcu u hu).1, (hcu u hu).2.1, fun hk => ?_⟩
      rw [hnokey u hu] at hk
      cases hk
  have hkeys : (nodesMap.map Prod.fst).Nodup := by simpa [nodesMap] using hd
  have hmark := markAll_plain_closed c world nodesMap order1 hkeys
    (by simpa [nodesMap] using ho1) hplain
  have hg1 : getNodes nodesMap p1 = [⟨a, [pc]⟩] := by simp [nodesMap, getNodes, List.lookup]
  have hg2 : getNodes nodesMap p2 = [⟨b, [pc]⟩] := by
    simp [nodesMap, getNodes, List.lookup, hb21]
  have hgc : getNodes nodesMap pc = [⟨cn, cu⟩] := by
    simp [nodesMap, getNodes, List.lookup, hbc1, hbc2]
  have hcufilter : cu.filter (hasKey nodesMap) = [] := by
    rw [List.filter_eq_nil_iff]
    intro u hu
    simp [hnokey u hu]
  have hused : ∀ u, u ∈ (order1.flatMap (referencesOf nodesMap)).reverse → u = pc := by
    intro u hu
    obtain ⟨k, hk, n, hn, hun, hkey⟩ := (mem_referencesOf nodesMap order1 u).1 hu
    have hk3 : k ∈ [p1, p2, pc] := ho1.mem_iff.1 hk
    simp only [List.mem_cons, List.mem_singleton, List.not_mem_nil, or_false] at hk3
    rcases hk3 with rfl | rfl | rfl
    · rw [hg1] at hn
      simp only [List.mem_singleton] at hn
      subst hn
      simpa using hun
    · rw [hg2] at hn
      simp only [List.mem_singleton] at hn
      subst hn
      simpa using hun
    · rw [hgc] at hn
      simp only [List.mem_singleton] at hn
      subst hn
      rw [hnokey u hun] at hkey
      cases hkey
  have hpcused : pc ∈ (order1.flatMap (referencesOf nodesMap)).reverse :=
    (mem_referencesOf nodesMap order1 pc).2
      ⟨p1, ho1.mem_iff.2 (by simp), ⟨a, [pc]⟩, by rw [hg1]; simp, by simp, hkpc⟩
  have hres := shared_child_merge c world nodesMap order1 order2 _ f p1 p2 pc a b cn [pc] [pc] cu
    hmark
    (by rw [getConfig_attachedMap, hg1]; simp [hkpc])
    (by rw [getConfig_attachedMap, hg2]; simp [hkpc])
    (by rw [getConfig_attachedMap, hgc]; simp [hcufilter])
    (fun h => h1c (hused p1 h)) (fun h => h2c (hused p2 h)) hpcused ho2
  obtain ⟨out, hrun, ha, hb, hra, hrb⟩ := hres
  have hprune_cu : pruneUses (order1.flatMap (referencesOf nodesMap)).reverse cu = cu := by
    apply pruneUses_none
    intro u hu hmem
    have hup := hused u hmem
    have hno := hnokey u hu
    rw [hup, hkpc] at hno
    cases hno
  have hprune_pc : pruneUses (order1.flatMap (referencesOf nodesMap)).reverse [pc] = [] := by
    simp [pruneUses, hpcused]
  simp only [hprune_cu, hprune_pc] at ha hb hra hrb
  exact ⟨out, hrun, ha, hb, hra, hrb⟩

/-- C10: the root documents `/ws/r1.yaml` (declaration `a`) and `/ws/r2.yaml`
(declaration `b`) both reference `/ws/sub/c.yaml`, whose declaration `c` uses
`rules/x.yaml`.  The output holds `a.c` and `b.c`, both with the uses entry
`/ws/sub/ws/sub/rules/x.yaml`: the entries of the stored child are rewritten in
place once for each root that references it.  With the root `r1.yaml` alone the
entry `a.c` carries `/ws/sub/rules/x.yaml`, so the copy made under one root
depends on the presence of the other. -/
theorem shared_child_rebased_per_root :
    makeUsesModule offlineCollab offlineWorld 2 sharedChildDocs
        ["/ws/r1.yaml", "/ws/r2.yaml", "/ws/sub/c.yaml"]
        ["/ws/r1.yaml", "/ws/r2.yaml", "/ws/sub/c.yaml"] =
      some (.ok [⟨"a.c", ["/ws/sub/ws/sub/rules/x.yaml"]⟩, ⟨"a", []⟩,
        ⟨"b.c", ["/ws/sub/ws/sub/rules/x.yaml"]⟩, ⟨"b", []⟩]) ∧
    makeUsesModule offlineCollab offlineWorld 2
        [("/ws/r1.yaml", [⟨"a", ["/ws/sub/c.yaml"]⟩]),
          ("/ws/sub/c.yaml", [⟨"c", ["rules/x.yaml"]⟩])]
        ["/ws/r1.yaml", "/ws/sub/c.yaml"] ["/ws/r1.yaml", "/ws/sub/c.yaml"] =
      some (.ok [⟨"a.c", ["/ws/sub/rules/x.yaml"]⟩, ⟨"a", []⟩]) ∧
    (markAll offlineCollab ⟨decodeNodes sharedChildDocs, [], offlineWorld⟩
        ["/ws/r1.yaml"]).map (fun st => getConfig st.modulesMap "/ws/sub/c.yaml") =
      .ok [⟨"c", ["/ws/sub/rules/x.yaml"], []⟩] ∧
    (markAll offlineCollab ⟨decodeNodes sharedChildDocs, [], offlineWorld⟩
        ["/ws/r1.yaml", "/ws/r2.yaml"]).map (fun st => getConfig st.modulesMap "/ws/sub/c.yaml") =
      .ok [⟨"c", ["/ws/sub/ws/sub/rules/x.yaml"], []⟩] := by
  refine ⟨by decide, by decide, by decide, by decide⟩

/-! ### Classification of references by `getAllModules` -/

/-- A reference without a package prefix is joined to the workspace argument,
and the world is left as it was. -/
theorem resolveReference_local (c : Collab) (world : World) (workspace path : String)
    (h1 : hasPrefix path "selefra/" = false) (h2 : hasPrefix path "app.selefra.io" = false) :
    resolveReference c world workspace path =
      .ok ((filepathJoin workspace path, if workspace = "" then c.workSpace else workspace),
        world) := by
  simp [resolveReference, h1, h2]

/-- C16: the path computed for a local reference is `filepath.Join` of the
workspace argument and the reference string for every collaborator and every
world; so it is the same after any other references have been classified in
between and for any value of `LatestVersion`. -/
theorem local_resolution_is_stable (c : Collab) (world : World)
    (between : List (String × String)) (latest workspace path : String)
    (h1 : hasPrefix path "selefra/" = false) (h2 : hasPrefix path "app.selefra.io" = false) :
    (resolveReference c world workspace path).map (fun r => r.1.1) =
        .ok (filepathJoin workspace path) ∧
      (resolveReference c { worldAfter c world between with latestVersion := latest }
          workspace path).map (fun r => r.1.1) =
        (resolveReference c world workspace path).map (fun r => r.1.1) := by
  rw [resolveReference_local c world workspace path h1 h2,
    resolveReference_local c _ workspace path h1 h2]
  exact ⟨rfl, rfl⟩

/-- Witness of C16: the reference `sub/x.yaml` in the workspace `/ws`, before
and after the package reference `selefra/aws` is classified. -/
theorem local_resolution_is_stable_witness :
    (resolveReference cachedCollab loopWorld "/ws" "sub/x.yaml").map (fun r => r.1.1) =
        .ok (filepathJoin "/ws" "sub/x.yaml") ∧
      (resolveReference cachedCollab
          { worldAfter cachedCollab loopWorld [("", "selefra/aws")] with latestVersion := "v0.0.2" }
          "/ws" "sub/x.yaml").map (fun r => r.1.1) =
        (resolveReference cachedCollab loopWorld "/ws" "sub/x.yaml").map (fun r => r.1.1) :=
  local_resolution_is_stable cachedCollab loopWorld [("", "selefra/aws")] "v0.0.2" "/ws"
    "sub/x.yaml" (by decide) (by decide)

/-- A segment without a slash followed by a slash is split off. -/
theorem splitSlashAux_segment (seg rest cur : List Char) (h : ∀ ch ∈ seg, ch ≠ '/') :
    splitSlashAux cur (seg ++ '/' :: rest) = (cur.reverse ++ seg) :: splitSlashAux [] rest := by
  induction seg generalizing cur with
  | nil => simp [splitSlashAux]
  | cons ch seg ih =>
    have hc : ch ≠ '/' := h ch (List.mem_cons_self _ _)
    have ht : ∀ x ∈ seg, x ≠ '/' := fun x hx => h x (List.mem_cons_of_mem _ hx)
    simp [splitSlashAux, hc, ih (ch :: cur) ht]

/-- A split has a first segment. -/
theorem splitSlashAux_first (cur l : List Char) :
    ∃ seg rest, splitSlashAux cur l = seg :: rest := by
  induction l generalizing cur with
  | nil => exact ⟨cur.reverse, [], rfl⟩
  | cons ch l ih =>
    by_cases hc : ch = '/'
    · exact ⟨cur.reverse, splitSlashAux [] l, by simp [splitSlashAux, hc]⟩
    · obtain ⟨seg, rest, h⟩ := ih (ch :: cur)
      exact ⟨seg, rest, by simp [splitSlashAux, hc, h]⟩

/-- The first occurrence of `old` is the front of a string that starts with it. -/
theorem replaceFirstAux_front (old new rest : List Char) (h : old ≠ []) :
    replaceFirstAux old new (old ++ rest) = new ++ rest := by
  cases old with
  | nil => exact absurd rfl h
  | cons c cs =>
    have hp : (c :: cs).isPrefixOf (c :: (cs ++ rest)) = true := by
      rw [List.isPrefixOf_iff_prefix]
      exact List.prefix_append (c :: cs) rest
    show replaceFirstAux (c :: cs) new (c :: (cs ++ rest)) = new ++ rest
    rw [replaceFirstAux, if_pos hp]
    simp

/-! ### Provider schema key -/

/-- The three replacements of `GetSchemaKey` are one pass over the characters. -/
theorem replaceAllChar_schema (s : String) :
    replaceAllChar (replaceAllChar (replaceAllChar s '/' "_") '@' "_") '.' "" = schemaText s := by
  apply String.ext
  simp only [replaceAllChar, schemaText, List.flatMap_assoc]
  congr 1
  funext ch
  by_cases h1 : ch = '/'
  · subst h1; decide
  · by_cases h2 : ch = '@'
    · subst h2; decide
    · by_cases h3 : ch = '.'
      · subst h3; decide
      · simp [h1, h2, h3]

/-- The kept text of a concatenation. -/
theorem schemaText_append (a b : String) : schemaText (a ++ b) = schemaText a ++ schemaText b := by
  apply String.ext
  simp [schemaText, String.data_append, List.flatMap_append]

/-- C20, counterexample: for the requirement `aws` of source `selefra/aws` and
version `v0.0.1` and the provider config `aws_1` the key is `aws_v001_aws_1`,
not name, version and provider name joined by underscores. -/
theorem schema_key_counterexample :
    GetSchemaKey (some ⟨"aws", some "selefra/aws", "v0.0.1", ""⟩) ⟨"aws_1", "", "", 0, [], ""⟩ =
        .ok "aws_v001_aws_1" ∧
      "aws_v001_aws_1" ≠ "aws" ++ "_" ++ "v0.0.1" ++ "_" ++ "aws_1" := by
  decide

/-- C20, amended: for a requirement whose source has the requirement name as
its second segment, `GetSchemaKey` returns the name, the version and the name
of the provider config joined by underscores, after every dot is dropped from
and every slash and at-sign is turned into an underscore in the name and the
version; the name of the provider config is kept as it is.  For the nil
requirement it returns `public`. -/
theorem schema_key_is_sanitised (required : ProviderRequired) (cp : ProviderConfig)
    (src first : String) (rest : List String) (hsrc : required.source = some src)
    (hseg : splitSlash src = first :: required.name :: rest) :
    GetSchemaKey (some required) cp =
        .ok (schemaText required.name ++ "_" ++ schemaText required.version ++ "_" ++ cp.name) ∧
      GetSchemaKey none cp = .ok "public" := by
  refine ⟨?_, rfl⟩
  simp only [GetSchemaKey, hsrc, hseg, index, List.getElem?_cons_succ, List.getElem?_cons_zero,
    replaceAllChar_schema, schemaText_append]
  have h : schemaText "@" = "_" := by decide
  rw [h]
  simp [String.append_assoc]

/-- Witness of C20: the requirement `aws` of source `selefra/aws` and version
`v0.0.1`. -/
theorem schema_key_is_sanitised_witness :
    GetSchemaKey (some ⟨"aws", some "selefra/aws", "v0.0.1", ""⟩) ⟨"aws_1", "", "", 0, [], ""⟩ =
        .ok (schemaText "aws" ++ "_" ++ schemaText "v0.0.1" ++ "_" ++ "aws_1") ∧
      GetSchemaKey none ⟨"aws_1", "", "", 0, [], ""⟩ = .ok "public" :=
  schema_key_is_sanitised ⟨"aws", some "selefra/aws", "v0.0.1", ""⟩ ⟨"aws_1", "", "", 0, [], ""⟩
    "selefra/aws" "selefra" [] rfl (by decide)

/-- A text without dot, slash and at-sign is kept as it is. -/
theorem schemaText_clean (s : String) (h : ∀ ch ∈ s.data, ch ≠ '.' ∧ ch ≠ '/' ∧ ch ≠ '@') :
    schemaText s = s := by
  apply String.ext
  simp only [schemaText]
  generalize s.data = l at h
  induction l with
  | nil => rfl
  | cons ch l ih =>
    obtain ⟨h1, h2, h3⟩ := h ch (List.mem_cons_self _ _)
    have := ih fun x hx => h x (List.mem_cons_of_mem _ hx)
    simp [List.flatMap_cons, h1, h2, h3, this]

/-! ### Dependence of the result on the iteration orders -/

theorem pruneUses_congr (used other : List String) (h : ∀ u, u ∈ used ↔ u ∈ other)
    (l : List String) : pruneUses used l = pruneUses other l := by
  rw [pruneUses_eq_filter, pruneUses_eq_filter]
  apply List.filter_congr
  intro u _
  simp [h u]

mutual
/-- Flattening reads the set of used documents only through membership. -/
theorem fmtModule_congr (used other : List String) (h : ∀ u, u ∈ used ↔ u ∈ other) :
    ∀ (name : String) (t : ModuleTree), fmtModule used name t = fmtModule other name t
  | name, .mk _ uses cs => by
    simp only [fmtModule]
    rw [fmtChildren_congr used other h name cs, pruneUses_congr used other h uses]
theorem fmtChildren_congr (used other : List String) (h : ∀ u, u ∈ used ↔ u ∈ other) :
    ∀ (name : String) (cs : List (List ModuleTree)),
      fmtChildren used name cs = fmtChildren other name cs
  | _, [] => by simp only [fmtChildren]
  | name, cfg :: rest => by
    simp only [fmtChildren]
    rw [fmtConfig_congr used other h name cfg, fmtChildren_congr used other h name rest]
theorem fmtConfig_congr (used other : List String) (h : ∀ u, u ∈ used ↔ u ∈ other) :
    ∀ (name : String) (cfg : List ModuleTree),
      fmtConfig used name cfg = fmtConfig other name cfg
  | _, [] => by simp only [fmtConfig]
  | name, child :: rest => by
    simp only [fmtConfig]
    rw [fmtModule_congr used other h (name ++ "." ++ child.name) child,
      fmtConfig_congr used other h name rest]
end

/-- The merge loop appends the blocks of `mergeOne` in the order of the loop. -/
theorem mergeAll_cons (fuel : Nat) (m : ModulesMap) (used : List String) (s : String)
    (rest : List String) :
    mergeAll fuel m used (s :: rest) =
      match mergeOne fuel m used s, mergeAll fuel m used rest with
      | some block, some out => some (block ++ out)
      | _, _ => none := by
  unfold mergeOne
  rw [mergeAll]
  by_cases hs : s ∈ used
  · simp only [hs, if_true]
    cases mergeAll fuel m used rest <;> simp
  · simp only [hs, if_false]
    cases copyConfig m fuel (getConfig m s) with
    | none => cases mergeAll fuel m used rest <;> rfl
    | some ts => cases mergeAll fuel m used rest <;> rfl

theorem mergeOne_congr (fuel : Nat) (m : ModulesMap) (used other : List String)
    (h : ∀ u, u ∈ used ↔ u ∈ other) (s : String) :
    mergeOne fuel m used s = mergeOne fuel m other s := by
  unfold mergeOne
  have hf : (fun t => deepFmtModules t used) = fun t => deepFmtModules t other := by
    funext t
    exact fmtModule_congr used other h t.name t
  by_cases hs : s ∈ used
  · simp [hs, (h s).1 hs]
  · have hs2 : s ∉ other := fun hc => hs ((h s).2 hc)
    simp only [hs, hs2, if_false, hf]

theorem mergeAll_congr (fuel : Nat) (m : ModulesMap) (used other : List String)
    (h : ∀ u, u ∈ used ↔ u ∈ other) (order : List String) :
    mergeAll fuel m used order = mergeAll fuel m other order := by
  induction order with
  | nil => rfl
  | cons s rest ih => rw [mergeAll_cons, mergeAll_cons, ih, mergeOne_congr fuel m used other h]

/-- A merge loop that visits the documents in another order emits the same
blocks in that order. -/
theorem mergeAll_perm (fuel : Nat) (m : ModulesMap) (used : List String) {l1 l2 : List String}
    (hp : l1.Perm l2) :
    ∀ out, mergeAll fuel m used l1 = some out →
      ∃ out2, mergeAll fuel m used l2 = some out2 ∧ out.Perm out2 := by
  induction hp with
  | nil => intro out h; exact ⟨out, h, List.Perm.refl _⟩
  | cons x _ ih =>
    intro out h
    rw [mergeAll_cons] at h ⊢
    cases hx : mergeOne fuel m used x with
    | none => simp [hx] at h
    | some block =>
      rename_i la lb _
      cases hr : mergeAll fuel m used la with
      | none => simp [hx, hr] at h
      | some o =>
        simp only [hx, hr, Option.some.injEq] at h
        subst h
        obtain ⟨o2, ho2, hperm⟩ := ih o hr
        exact ⟨block ++ o2, by simp [ho2], List.Perm.append_left _ hperm⟩
  | swap x y l =>
    intro out h
    rw [mergeAll_cons, mergeAll_cons] at h ⊢
    cases hx : mergeOne fuel m used x with
    | none => cases hy : mergeOne fuel m used y <;> simp [hx, hy] at h
    | some bx =>
      cases hy : mergeOne fuel m used y with
      | none => simp [hx, hy] at h
      | some by1 =>
        cases hr : mergeAll fuel m used l with
        | none => simp [hx, hy, hr] at h
        | some o =>
          simp only [hx, hy, hr, Option.some.injEq] at h
          subst h
          refine ⟨bx ++ (by1 ++ o), by simp, ?_⟩
          rw [← List.append_assoc, ← List.append_assoc]
          exact List.Perm.append_right _ List.perm_append_comm
  | trans _ _ ih1 ih2 =>
    intro out h
    obtain ⟨o1, h1, p1⟩ := ih1 out h
    obtain ⟨o2, h2, p2⟩ := ih2 o1 h1
    exact ⟨o2, h2, p1.trans p2⟩

theorem twoRootDocs_plain : PlainNodes twoRootDocs := by
  unfold PlainNodes
  decide

/-- C11, counterexample: for the two root documents `r1.yaml` and `r2.yaml`
the merge pass in the order `r1`, `r2` returns the list `a`, `b`, and in the
order `r2`, `r1` it returns the list `b`, `a`. -/
theorem merge_order_counterexample :
    makeUsesModule offlineCollab offlineWorld 2 twoRootDocs ["r1.yaml", "r2.yaml"]
        ["r1.yaml", "r2.yaml"] =
      some (.ok [⟨"a", ["rules/a.yaml"]⟩, ⟨"b", ["rules/b.yaml"]⟩]) ∧
    makeUsesModule offlineCollab offlineWorld 2 twoRootDocs ["r1.yaml", "r2.yaml"]
        ["r2.yaml", "r1.yaml"] =
      some (.ok [⟨"b", ["rules/b.yaml"]⟩, ⟨"a", ["rules/a.yaml"]⟩]) := by
  decide

/-- C11, amended: for documents with distinct paths and plain references, the
list that `makeUsesModule` returns does not depend on the order of the
usage-marking pass (nor on the world); a merge pass that visits the documents
in another order returns as well, and its list is a rearrangement of the first
one. -/
theorem output_up_to_merge_order (c c2 : Collab) (world world2 : World) (fuel : Nat)
    (nodesMap : NodesMap) (order1 order1b order2 order2b : List String) (out : List ModuleNode)
    (hkeys : (nodesMap.map Prod.fst).Nodup) (hplain : PlainNodes nodesMap)
    (h1 : order1.Perm (nodesMap.map Prod.fst)) (h1b : order1b.Perm (nodesMap.map Prod.fst))
    (h2 : order2.Perm order2b)
    (hrun : makeUsesModule c world fuel nodesMap order1 order2 = some (.ok out)) :
    makeUsesModule c2 world2 fuel nodesMap order1b order2 = some (.ok out) ∧
      ∃ out2, makeUsesModule c2 world2 fuel nodesMap order1b order2b = some (.ok out2) ∧
        out.Perm out2 := by
  unfold makeUsesModule at hrun ⊢
  rw [markAll_plain_closed c world nodesMap order1 hkeys h1 hplain] at hrun
  rw [markAll_plain_closed c2 world2 nodesMap order1b hkeys h1b hplain]
  simp only at hrun ⊢
  have hmem : ∀ u, u ∈ (order1.flatMap (referencesOf nodesMap)).reverse ↔
      u ∈ (order1b.flatMap (referencesOf nodesMap)).reverse := by
    intro u
    simp only [List.mem_reverse, List.mem_flatMap]
    constructor
    · rintro ⟨k, hk, hu⟩
      exact ⟨k, h1b.mem_iff.2 (h1.mem_iff.1 hk), hu⟩
    · rintro ⟨k, hk, hu⟩
      exact ⟨k, h1.mem_iff.2 (h1b.mem_iff.1 hk), hu⟩
  rw [← mergeAll_congr fuel _ _ _ hmem order2, ← mergeAll_congr fuel _ _ _ hmem order2b]
  cases hm : mergeAll fuel (attachedMap nodesMap)
      (order1.flatMap (referencesOf nodesMap)).reverse order2 with
  | none => simp [hm] at hrun
  | some o =>
    simp only [hm, Option.some.injEq, Except.ok.injEq] at hrun
    subst hrun
    obtain ⟨o2, ho2, hperm⟩ := mergeAll_perm fuel _ _ h2 o hm
    exact ⟨rfl, o2, by simp [ho2], hperm⟩

/-- Witness of C11: the two root documents, the marking pass and the merge pass
each in both orders. -/
theorem output_up_to_merge_order_witness :
    makeUsesModule cachedCollab loopWorld 2 twoRootDocs ["r2.yaml", "r1.yaml"]
        ["r1.yaml", "r2.yaml"] =
      some (.ok [⟨"a", ["rules/a.yaml"]⟩, ⟨"b", ["rules/b.yaml"]⟩]) ∧
      ∃ out2, makeUsesModule cachedCollab loopWorld 2 twoRootDocs ["r2.yaml", "r1.yaml"]
          ["r2.yaml", "r1.yaml"] = some (.ok out2) ∧
        List.Perm [⟨"a", ["rules/a.yaml"]⟩, ⟨"b", ["rules/b.yaml"]⟩] out2 :=
  output_up_to_merge_order offlineCollab cachedCollab offlineWorld loopWorld 2 twoRootDocs
    ["r1.yaml", "r2.yaml"] ["r2.yaml", "r1.yaml"] ["r1.yaml", "r2.yaml"] ["r2.yaml", "r1.yaml"]
    [⟨"a", ["rules/a.yaml"]⟩, ⟨"b", ["rules/b.yaml"]⟩] (by decide) twoRootDocs_plain
    (List.Perm.refl _) (List.Perm.swap _ _ _) (List.Perm.swap _ _ _) (by decide)

/-! ### The package cache -/

/-- For the first public package of a run (`LatestVersion` still empty) a
download is made only if the cached directory is missing or the recorded
version differs from the latest version of the package. -/
theorem ModulesUpdate_first_package (reg : Registry) (st : Cache)
    (modulesName modulesPath latest : String) (configMap : List (String × String))
    (hcfg : st.config = .ok configMap) (h0 : st.latestVersion = "")
    (hmeta : reg.metadata modulesName = .ok latest)
    (hdl : (ModulesUpdate reg st modulesName modulesPath "").2.downloads ≠ st.downloads) :
    filepathJoin modulesPath modulesName ∉ st.present ∨
      getVersion configMap ("modules" ++ "/" ++ modulesName) ≠ latest := by
  by_contra hcon
  simp only [not_or, not_not] at hcon
  apply hdl
  unfold ModulesUpdate
  cases hh : reg.home with
  | error e => rfl
  | ok hc =>
    obtain ⟨home, config⟩ := hc
    have hv : getVersion configMap ("modules/" ++ modulesName) = latest := hcon.2
    simp [hcfg, h0, hmeta, hcon.1, hv]

/-- C18, the code at the failing run: from a cache that holds `aws` and `gcp`,
each at the latest version of its package (`v2` and `v1`), the update of `aws`
downloads nothing and leaves `v2` in `LatestVersion`; the update of `gcp` that
follows downloads `gcp` from the release `v2`, although its cached directory
is present and its recorded version `v1` is the latest version of `gcp`.  The
update of `gcp` alone downloads nothing. -/
theorem second_package_uses_first_latest_version :
    ModulesUpdate twoVersionRegistry upToDateCache "aws" "/home/u/.selefra/download/modules" "" =
        (none, { upToDateCache with latestVersion := "v2" }) ∧
      twoVersionRegistry.metadata "gcp" = .ok "v1" ∧
      upToDateCache.config = .ok [("modules/aws", "v2"), ("modules/gcp", "v1")] ∧
      "/home/u/.selefra/download/modules/gcp" ∈ upToDateCache.present ∧
      (ModulesUpdate twoVersionRegistry
          (ModulesUpdate twoVersionRegistry upToDateCache "aws"
            "/home/u/.selefra/download/modules" "").2
          "gcp" "/home/u/.selefra/download/modules" "").2.downloads =
        [("https://github.com/selefra/gcp/releases/download/v2/gcp.zip",
          "/home/u/.selefra/download/modules")] ∧
      (ModulesUpdate twoVersionRegistry upToDateCache "gcp"
          "/home/u/.selefra/download/modules" "").2.downloads = [] := by
  refine ⟨by decide, rfl, rfl, by decide, by decide, by decide⟩

/-- C19, counterexample: with the empty token the update of the organisation
package `aws` of `acme` removes the cached copy and calls the download, with
the url `https://main-api.selefra.io/cli/download/acme//aws.zip`; the error it
returns is the one of the download. -/
theorem organisation_package_counterexample :
    twoVersionRegistry.token = "" ∧
      ModulesUpdate twoVersionRegistry upToDateCache "aws" "/home/u/.selefra/download/modules"
          "acme" =
        (some "401 Unauthorized",
          { upToDateCache with
            present := ["/home/u/.selefra/download/modules",
              "/home/u/.selefra/download/modules/gcp"]
            downloads := [("https://main-api.selefra.io/cli/download/acme//aws.zip",
              "/home/u/.selefra/download/modules/aws")] }) := by
  refine ⟨rfl, by decide⟩

/-- C19, amended: `ModulesUpdate` with a non-empty `org` makes no test of the
token.  When `config.json` can be read and the removal of the cached copy does
not fail, it removes the cached copy, calls the download once, with the url
made of server, `org`, token (empty or not) and package name, and returns the
error of the download, nil when the download succeeds. -/
theorem organisation_package_is_always_fetched (reg : Registry) (st : Cache)
    (modulesName modulesPath org : String) (home : String × String)
    (configMap : List (String × String))
    (horg : org ≠ "") (hhome : reg.home = .ok home) (hcfg : st.config = .ok configMap)
    (hrm : reg.remove (filepathJoin modulesPath modulesName) = none) :
    (ModulesUpdate reg st modulesName modulesPath org).1 =
        (match reg.download ("https://" ++ reg.server ++ "/cli/download/" ++ org ++ "/" ++
            reg.token ++ "/" ++ modulesName ++ ".zip") (filepathJoin modulesPath modulesName) with
          | .error e => some e
          | .ok _ => none) ∧
      (ModulesUpdate reg st modulesName modulesPath org).2.downloads =
        st.downloads ++ [("https://" ++ reg.server ++ "/cli/download/" ++ org ++ "/" ++
          reg.token ++ "/" ++ modulesName ++ ".zip", filepathJoin modulesPath modulesName)] ∧
      (ModulesUpdate reg st modulesName modulesPath org).2.present =
        (st.present.filter fun p => p ≠ filepathJoin modulesPath modulesName) ++
          (match reg.download ("https://" ++ reg.server ++ "/cli/download/" ++ org ++ "/" ++
            reg.token ++ "/" ++ modulesName ++ ".zip") (filepathJoin modulesPath modulesName) with
          | .error _ => []
          | .ok created => created) := by
  obtain ⟨h1, h2⟩ := home
  unfold ModulesUpdate
  simp only [hhome, hcfg, horg, ne_eq, not_false_eq_true, if_true, hrm]
  by_cases hp : filepathJoin modulesPath modulesName ∈ st.present
  · simp only [hp, if_true]
    cases reg.download ("https://" ++ reg.server ++ "/cli/download/" ++ org ++ "/" ++
      reg.token ++ "/" ++ modulesName ++ ".zip") (filepathJoin modulesPath modulesName) <;> simp
  · have hf : (st.present.filter fun p => p ≠ filepathJoin modulesPath modulesName) =
        st.present := by
      rw [List.filter_eq_self]
      intro a ha
      simp only [ne_eq, decide_eq_true_eq]
      rintro rfl
      exact hp ha
    simp only [hp, if_false, hf]
    cases reg.download ("https://" ++ reg.server ++ "/cli/download/" ++ org ++ "/" ++
      reg.token ++ "/" ++ modulesName ++ ".zip") (filepathJoin modulesPath modulesName) <;> simp

/-- Witness of C19: the organisation package `aws` of `acme`, no token set. -/
theorem organisation_package_is_always_fetched_witness :
    (ModulesUpdate twoVersionRegistry upToDateCache "aws" "/home/u/.selefra/download/modules"
          "acme").1 =
        (match twoVersionRegistry.download ("https://" ++ twoVersionRegistry.server ++
            "/cli/download/" ++ "acme" ++ "/" ++ twoVersionRegistry.token ++ "/" ++ "aws" ++ ".zip")
            (filepathJoin "/home/u/.selefra/download/modules" "aws") with
          | .error e => some e
          | .ok _ => none) ∧
      (ModulesUpdate twoVersionRegistry upToDateCache "aws" "/home/u/.selefra/download/modules"
          "acme").2.downloads =
        upToDateCache.downloads ++ [("https://" ++ twoVersionRegistry.server ++
          "/cli/download/" ++ "acme" ++ "/" ++ twoVersionRegistry.token ++ "/" ++ "aws" ++ ".zip",
          filepathJoin "/home/u/.selefra/download/modules" "aws")] ∧
      (ModulesUpdate twoVersionRegistry upToDateCache "aws" "/home/u/.selefra/download/modules"
          "acme").2.present =
        (upToDateCache.present.filter fun p =>
            p ≠ filepathJoin "/home/u/.selefra/download/modules" "aws") ++
          (match twoVersionRegistry.download ("https://" ++ twoVersionRegistry.server ++
            "/cli/download/" ++ "acme" ++ "/" ++ twoVersionRegistry.token ++ "/" ++ "aws" ++ ".zip")
            (filepathJoin "/home/u/.selefra/download/modules" "aws") with
          | .error _ => []
          | .ok created => created) :=
  organisation_package_is_always_fetched twoVersionRegistry upToDateCache "aws"
    "/home/u/.selefra/download/modules" "acme"
    ("/home/u/.selefra", "/home/u/.selefra/.path/config.json")
    [("modules/aws", "v2"), ("modules/gcp", "v1")] (by decide) rfl rfl rfl

/-! ### Directory expansion -/

theorem yamlRoundTripList_eq (l : List YamlNode) : yamlRoundTripList l = l.map yamlRoundTrip := by
  induction l with
  | nil => rfl
  | cons n rest ih => simp [yamlRoundTripList, ih]

mutual
/-- A second round trip changes nothing. -/
theorem yamlRoundTrip_idem : ∀ node : YamlNode, yamlRoundTrip (yamlRoundTrip node) = yamlRoundTrip node
  | .mk kind value content => by
    simp only [yamlRoundTrip]
    rw [yamlRoundTripList_idem content]
    by_cases hk : kind = .scalar <;> simp [hk]
theorem yamlRoundTripList_idem :
    ∀ l : List YamlNode, yamlRoundTripList (yamlRoundTripList l) = yamlRoundTripList l
  | [] => by simp only [yamlRoundTripList]
  | node :: rest => by
    simp only [yamlRoundTripList]
    rw [yamlRoundTrip_idem node, yamlRoundTripList_idem rest]
end

theorem yamlRoundTrip_value (node : YamlNode) :
    (yamlRoundTrip node).value = if node.kind = .scalar then node.value else "" := by
  cases node with
  | mk kind value content => simp [yamlRoundTrip, YamlNode.value, YamlNode.kind]

theorem yamlRoundTrip_content (node : YamlNode) :
    (yamlRoundTrip node).content = node.content.map yamlRoundTrip := by
  cases node with
  | mk kind value content => simp [yamlRoundTrip, YamlNode.content, yamlRoundTripList_eq]

theorem yamlRoundTrip_not_uses (node : YamlNode) (h : node.value ≠ "uses") :
    (yamlRoundTrip node).value ≠ "uses" := by
  rw [yamlRoundTrip_value]
  by_cases hk : node.kind = .scalar
  · simpa [hk] using h
  · simp only [hk, if_false]
    decide

theorem findUses_none (l : List YamlNode) (uses : String) (h : ∀ n ∈ l, n.value ≠ "uses") :
    findUses uses l = .ok uses := by
  induction l with
  | nil => rfl
  | cons n rest ih =>
    rw [findUses.eq_def]
    simp only [h n (List.mem_cons_self _ _), if_false]
    exact ih fun x hx => h x (List.mem_cons_of_mem _ hx)

/-- The loop of lines 566-570 finds the value after the only key `uses`. -/
theorem findUses_unique (before after : List YamlNode) (keyNode valueNode : YamlNode)
    (uses : String) (hkey : keyNode.value = "uses") (hval : valueNode.value ≠ "uses")
    (hb : ∀ n ∈ before, n.value ≠ "uses") (ha : ∀ n ∈ after, n.value ≠ "uses") :
    findUses uses (before ++ keyNode :: valueNode :: after) = .ok valueNode.value := by
  induction before generalizing uses with
  | nil =>
    rw [findUses.eq_def]
    simp only [List.nil_append, hkey, if_true]
    rw [findUses.eq_def]
    simp only [hval, if_false]
    exact findUses_none after _ ha
  | cons n rest ih =>
    rw [findUses.eq_def]
    simp only [List.cons_append, hb n (List.mem_cons_self _ _), if_false]
    exact ih uses fun x hx => hb x (List.mem_cons_of_mem _ hx)

theorem updateAfter_none (key : String) (f : YamlNode → YamlNode) (l : List YamlNode)
    (h : ∀ n ∈ l, n.value ≠ key) : updateAfter key f false l = .ok l := by
  induction l with
  | nil => rfl
  | cons n rest ih =>
    have hn : n.value ≠ key := h n (List.mem_cons_self _ _)
    simp [updateAfter, hn, ih fun x hx => h x (List.mem_cons_of_mem _ hx)]

/-- The loop of lines 594-598 updates the value after the only key. -/
theorem updateAfter_unique (key : String) (f : YamlNode → YamlNode)
    (before after : List YamlNode) (keyNode valueNode : YamlNode)
    (hkey : keyNode.value = key) (hval : (f valueNode).value ≠ key)
    (hb : ∀ n ∈ before, n.value ≠ key) (ha : ∀ n ∈ after, n.value ≠ key) :
    updateAfter key f false (before ++ keyNode :: valueNode :: after) =
      .ok (before ++ keyNode :: f valueNode :: after) := by
  induction before with
  | nil =>
    simp [updateAfter, hkey, hval, updateAfter_none key f after ha]
  | cons n rest ih =>
    have hn : n.value ≠ key := hb n (List.mem_cons_self _ _)
    simp [updateAfter, hn, ih fun x hx => hb x (List.mem_cons_of_mem _ hx)]

theorem mapExcept_ok {α β : Type} (f : α → Except Failure β) (g : α → β) (l : List α)
    (h : ∀ a ∈ l, f a = .ok (g a)) : mapExcept f l = .ok (l.map g) := by
  induction l with
  | nil => rfl
  | cons a rest ih =>
    simp [mapExcept, h a (List.mem_cons_self _ _),
      ih fun x hx => h x (List.mem_cons_of_mem _ hx)]

theorem eligiblePaths_yaml (uses excludePath : String) (files : List FileInfo) (p : String)
    (h : p ∈ eligiblePaths uses excludePath files) : hasSuffix p ".yaml" = true ∧ p ≠ excludePath := by
  simp only [eligiblePaths, List.mem_filter, Bool.and_eq_true, decide_eq_true_eq] at h
  exact h.2

theorem yaml_suffix_not_uses (p : String) (h : hasSuffix p ".yaml" = true) : p ≠ "uses" := by
  rintro rfl
  exact absurd h (by decide)

/-- Directory expansion of a document with one declaration, in which `uses`
is the value of no other node than the key of the field `uses`: when the value
of that field is a directory with at least one eligible entry, the declaration
is replaced by one copy per eligible entry, in listing order; the copy for the
path `p` is the round trip of the declaration in which the value of the field
`uses` is `p`. -/
theorem deepPathModules_single (world : World) (excludePath : String) (node decl : YamlNode)
    (before after : List YamlNode) (keyNode valueNode : YamlNode) (file : FileInfo)
    (files : List FileInfo)
    (hnode : modulesOf node = .ok [decl])
    (hdecl : decl.content = before ++ keyNode :: valueNode :: after)
    (hkind : keyNode.kind = .scalar) (hkey : keyNode.value = "uses")
    (hval : valueNode.value ≠ "uses") (hempty : valueNode.value ≠ "")
    (hb : ∀ n ∈ before, n.value ≠ "uses") (ha : ∀ n ∈ after, n.value ≠ "uses")
    (hstat : world.fs.stat valueNode.value = some file) (hdir : file.isDir = true)
    (hread : world.fs.readDir valueNode.value = some files)
    (hsome : eligiblePaths valueNode.value excludePath files ≠ []) :
    deepPathModules world [(excludePath, node)] [excludePath] =
      .ok (none, [(excludePath, withModules node
        ((eligiblePaths valueNode.value excludePath files).map fun p =>
          (yamlRoundTrip decl).setContent
            (before.map yamlRoundTrip ++ yamlRoundTrip keyNode ::
              (yamlRoundTrip valueNode).setValue p :: after.map yamlRoundTrip)))]) := by
  have hfind : findUses "" decl.content = .ok valueNode.value := by
    rw [hdecl]
    exact findUses_unique before after keyNode valueNode "" hkey hval hb ha
  have hlen : (eligiblePaths valueNode.value excludePath files).length > 0 :=
    List.length_pos.2 hsome
  have hclone : ∀ p ∈ eligiblePaths valueNode.value excludePath files,
      cloneFor (deepCopyYamlContent decl) p =
        .ok ((yamlRoundTrip decl).setContent
          (before.map yamlRoundTrip ++ yamlRoundTrip keyNode ::
            (yamlRoundTrip valueNode).setValue p :: after.map yamlRoundTrip)) := by
    intro p hp
    have hpu : p ≠ "uses" :=
      yaml_suffix_not_uses p (eligiblePaths_yaml _ _ _ p hp).1
    have hcontent : (yamlRoundTrip decl).content =
        before.map yamlRoundTrip ++ yamlRoundTrip keyNode :: yamlRoundTrip valueNode ::
          after.map yamlRoundTrip := by
      rw [yamlRoundTrip_content, hdecl]
      simp
    have hk2 : (yamlRoundTrip keyNode).value = "uses" := by
      rw [yamlRoundTrip_value, if_pos hkind, hkey]
    have hupd := updateAfter_unique "uses" (fun n => n.setValue p)
      (before.map yamlRoundTrip) (after.map yamlRoundTrip) (yamlRoundTrip keyNode)
      (yamlRoundTrip valueNode) hk2 (by simpa [YamlNode.setValue, YamlNode.value] using hpu)
      (by
        intro n hn
        obtain ⟨m, hm, rfl⟩ := List.mem_map.1 hn
        exact yamlRoundTrip_not_uses m (hb m hm))
      (by
        intro n hn
        obtain ⟨m, hm, rfl⟩ := List.mem_map.1 hn
        exact yamlRoundTrip_not_uses m (ha m hm))
    simp only [cloneFor, deepCopyYamlContent, yamlRoundTrip_idem, hcontent, hupd]
  have hr : List.range 1 = [0] := rfl
  simp only [deepPathModules, List.lookup_cons, beq_self_eq_true, hnode, List.length_singleton,
    hr, expandLoop, expandAt, index, List.getElem?_cons_zero, hfind, hempty,
    if_false, hstat, hdir, if_true, hread, hlen, mapExcept_ok _ _ _ hclone, List.eraseIdx_cons_zero,
    List.nil_append, setKey]

/-- C12, the code at the failing document: the one declaration is `name: uses`,
`uses: /ws/mods`, and the directory `/ws/mods` lists `a.yaml`, `notes.txt`,
`b.yaml`.  The declaration is replaced by two copies, but in each copy the path
is written over the key `uses` and the value of the field is still the
directory, so no copy has the field `uses` equal to its path.  The same
document with the declaration named `r` gets the two copies with `uses` equal
to `/ws/mods/a.yaml` and `/ws/mods/b.yaml`. -/
theorem expansion_of_declaration_named_uses :
    deepPathModules modsWorld [("/ws/root.yaml", yamlModulesDocument [declModsDir "uses"])]
        ["/ws/root.yaml"] =
      .ok (none, [("/ws/root.yaml", yamlModulesDocument
        [.mk .mapping "" [yamlScalar "name", yamlScalar "uses", yamlScalar "/ws/mods/a.yaml",
            yamlScalar "/ws/mods"],
          .mk .mapping "" [yamlScalar "name", yamlScalar "uses", yamlScalar "/ws/mods/b.yaml",
            yamlScalar "/ws/mods"]])]) ∧
    deepPathModules modsWorld [("/ws/root.yaml", yamlModulesDocument [declModsDir "r"])]
        ["/ws/root.yaml"] =
      .ok (none, [("/ws/root.yaml", yamlModulesDocument
        [yamlMapping [("name", yamlScalar "r"), ("uses", yamlScalar "/ws/mods/a.yaml")],
          yamlMapping [("name", yamlScalar "r"), ("uses", yamlScalar "/ws/mods/b.yaml")]])]) :=
  ⟨rfl, rfl⟩

/-! ### Errors of the stages before cycle detection -/

/-- An error returned by `assembleNode` is not returned by `GetModulesStr`:
the empty list of modules is. -/
theorem GetModulesStrTail_assemble_error (c : Collab) (codec : YamlCodec) (world : World)
    (fuel : Nat) (configMap : List (String × String)) (orderA : List String)
    (baseNode : Option YamlNode) (moduleMap : YamlMap) (err : String)
    (h : assembleNode codec configMap orderA = .ok (baseNode, moduleMap, some err)) :
    GetModulesStrTail c codec world fuel configMap orderA [] [] [] [] = some (.ok []) := by
  have hm : moduleMap = [] := by
    unfold assembleNode at h
    cases hl : assembleLoop codec configMap ⟨none, []⟩ orderA with
    | error e => simp [hl] at h
    | ok r =>
      obtain ⟨e, st⟩ := r
      cases e with
      | none => simp [hl] at h
      | some msg =>
        simp only [hl, Except.ok.injEq, Prod.mk.injEq] at h
        exact h.2.1.symm
  subst hm
  simp only [GetModulesStrTail, h]
  rfl

/-- C13, the code at the failing workspace: the one document `/ws/root.yaml`
declares `r` with the list of references `rules/r.yaml`.  `deepPathModules`
returns the error "Module configuration error, missing uses" for the nodes
that `assembleNode` hands over, and `GetModulesStr` returns the list with the
module `r` and no error. -/
theorem discarded_expansion_error :
    (assembleNode listCodec [("/ws/root.yaml", textRoot)] ["/ws/root.yaml"]).map
        (fun r => (r.2.1, r.2.2)) =
      .ok ([("/ws/root.yaml", yamlModulesDocument [declR])], none) ∧
    deepPathModules rootOnlyWorld [("/ws/root.yaml", yamlModulesDocument [declR])]
        ["/ws/root.yaml"] =
      .ok (some "Module configuration error, missing uses",
        [("/ws/root.yaml", yamlModulesDocument [declR])]) ∧
    GetModulesStrTail offlineCollab listCodec rootOnlyWorld 2 [("/ws/root.yaml", textRoot)]
        ["/ws/root.yaml"] ["/ws/root.yaml"] ["/ws/root.yaml"] ["/ws/root.yaml"]
        ["/ws/root.yaml"] =
      some (.ok [⟨"r", ["rules/r.yaml"]⟩]) :=
  ⟨rfl, rfl, by decide⟩

/-! ### The workspace scan -/

/-- The error that `readAllConfig` returns is nil. -/
theorem readAllConfig_error_nil (codec : YamlCodec) (world : World) (fuel : Nat)
    (dirname : String) (cm : ConfigMap) (err : Option String)
    (h : readAllConfig codec world fuel dirname = some (.ok (cm, err))) : err = none := by
  unfold readAllConfig at h
  cases hf : readAllConfigFn codec world fuel dirname [] with
  | none => simp [hf] at h
  | some r =>
    cases r with
    | error e => simp [hf] at h
    | ok cm1 =>
      simp only [hf, Option.some.injEq, Except.ok.injEq, Prod.mk.injEq] at h
      exact h.2.symm

/-- A file that cannot be read, and a file whose text leaves the node without
content (a text that is not yaml), change nothing in the map and raise no
panic: the scan goes on with the next entry. -/
theorem readConfigFile_skips (codec : YamlCodec) (world : World) (dirname : String)
    (cm : ConfigMap) (file : FileInfo) :
    (world.fs.readFile (filepathJoin dirname file.name) = none →
        readConfigFile codec world dirname cm (some file) = .ok (some "read failed", cm)) ∧
      (∀ b, world.fs.readFile (filepathJoin dirname file.name) = some b →
        (codec.unmarshalNode b).1.content = [] →
        readConfigFile codec world dirname cm (some file) = .ok (none, cm)) := by
  constructor
  · intro h
    simp [readConfigFile, h]
  · intro b h hc
    simp [readConfigFile, h, hc]

/-- C14, the code at the failing workspace: `/ws` holds `list.yaml`, whose text
`- modules` is a yaml sequence, and `root.yaml` with a `modules` section.  The
scan ends in the panic of an index out of range at `list.yaml`, whatever fuel
it is given, and returns no map; without `list.yaml` it records the section of
`root.yaml`. -/
theorem scan_stops_at_sequence_file :
    (∀ fuel, readAllConfig listCodec listWorld (fuel + 1) "/ws" =
        some (.error .indexOutOfRange)) ∧
      readAllConfig listCodec rootOnlyWorld 1 "/ws" =
        some (.ok ([("modules", [("/ws/root.yaml", textRoot)])], none)) :=
  ⟨fun _ => rfl, rfl⟩

/-! ### The chain reported by `checkCycle` -/

/-- What `checkCycle` leaves in `*cyclePathList`: after `false` the list it was
given; after `true` that list followed by a walk that starts in `pathList`,
follows the edges of the map and ends at `path`. -/
theorem checkCycle_chain (m : CyclePathMap) (path : String) :
    ∀ (fuel : Nat) (pathList chain : List String) (b : Bool) (l : List String),
      checkCycle fuel m path pathList chain = some (b, l) →
      if b then
        ∃ first walk, l = chain ++ first :: walk ∧ first ∈ pathList ∧
          (first :: walk).getLast? = some path ∧ List.Chain' (Edge m) (first :: walk)
      else l = chain := by
  intro fuel
  induction fuel with
  | zero =>
    intro pathList chain b l h
    cases pathList with
    | nil =>
      simp only [checkCycle, Option.some.injEq, Prod.mk.injEq] at h
      obtain ⟨rfl, rfl⟩ := h
      simp
    | cons q rest => simp [checkCycle] at h
  | succ f ih =>
    intro pathList chain b l h
    cases pathList with
    | nil =>
      simp only [checkCycle, Option.some.injEq, Prod.mk.injEq] at h
      obtain ⟨rfl, rfl⟩ := h
      simp
    | cons q rest =>
      rw [checkCycle] at h
      by_cases hq : q = path
      · simp only [hq, if_true, Option.some.injEq, Prod.mk.injEq] at h
        obtain ⟨rfl, rfl⟩ := h
        simp only [if_true]
        exact ⟨path, [], rfl, by simp [hq], rfl, List.chain'_singleton _⟩
      · rw [if_neg hq] at h
        cases hin : checkCycle f m path (getPaths m q) (chain ++ [q]) with
        | none => simp [hin] at h
        | some r =>
          obtain ⟨b1, l1⟩ := r
          have h1 := ih _ _ _ _ hin
          cases b1 with
          | true =>
            simp only [hin, Option.some.injEq, Prod.mk.injEq] at h
            obtain ⟨rfl, rfl⟩ := h
            simp only [if_true] at h1 ⊢
            obtain ⟨first, walk, hl, hfirst, hlast, hchain⟩ := h1
            refine ⟨q, first :: walk, by simp [hl], List.mem_cons_self _ _, ?_, ?_⟩
            · rw [List.getLast?_cons_cons]
              exact hlast
            · exact List.Chain'.cons hfirst hchain
          | false =>
            simp only [Bool.false_eq_true, if_false] at h1
            simp only [hin, h1, List.dropLast_concat] at h
            have h2 := ih _ _ _ _ h
            cases b with
            | true =>
              simp only [if_true] at h2 ⊢
              obtain ⟨first, walk, hl, hfirst, hlast, hchain⟩ := h2
              exact ⟨first, walk, hl, List.mem_cons_of_mem _ hfirst, hlast, hchain⟩
            | false => simpa using h2

/-- C22: when `checkCycle(map, start, map[start], &[start])` returns true, the
chain has at least two elements, starts and ends with `start`, and every
element is followed by an element of its list in the map; when it returns
false the chain is `[start]`. -/
theorem reported_chain_is_sound (fuel : Nat) (m : CyclePathMap) (start : String) (b : Bool)
    (chain : List String)
    (h : checkCycle fuel m start (getPaths m start) [start] = some (b, chain)) :
    if b then
      2 ≤ chain.length ∧ chain.head? = some start ∧ chain.getLast? = some start ∧
        List.Chain' (Edge m) chain
    else chain = [start] := by
  have h1 := checkCycle_chain m start fuel _ _ _ _ h
  cases b with
  | false => simpa using h1
  | true =>
    simp only [if_true] at h1 ⊢
    obtain ⟨first, walk, hl, hfirst, hlast, hchain⟩ := h1
    subst hl
    refine ⟨by simp, by simp, ?_, ?_⟩
    · show (start :: first :: walk).getLast? = some start
      rw [List.getLast?_cons_cons]
      exact hlast
    · exact List.Chain'.cons hfirst hchain

/-- Witness of C22: the ring A, B, C from `A`. -/
theorem reported_chain_is_sound_witness :
    if true then
      2 ≤ ["A", "B", "C", "A"].length ∧ ["A", "B", "C", "A"].head? = some "A" ∧
        ["A", "B", "C", "A"].getLast? = some "A" ∧
        List.Chain' (Edge (makeCyclePathMap ringDocs)) ["A", "B", "C", "A"]
    else ["A", "B", "C", "A"] = ["A"] :=
  reported_chain_is_sound 3 (makeCyclePathMap ringDocs) "A" true ["A", "B", "C", "A"] (by decide)

/-! ### The adjacency map -/

theorem getPaths_makeCyclePathMap_aux (all : NodesMap) :
    ∀ (nodesMap : NodesMap) (k : String),
      getPaths (nodesMap.map fun entry =>
          (entry.1, (entry.2.flatMap fun module => module.uses).filter fun use => hasKey all use)) k =
        ((getNodes nodesMap k).flatMap fun module => module.uses).filter fun use => hasKey all use := by
  intro nodesMap k
  induction nodesMap with
  | nil => rfl
  | cons e rest ih =>
    obtain ⟨k1, v1⟩ := e
    by_cases hk : k = k1
    · subst hk
      simp [getPaths, getNodes, List.lookup_cons]
    · have hb : (k == k1) = false := by simpa using hk
      simp only [getPaths, getNodes, List.map_cons, List.lookup_cons, hb] at ih ⊢
      exact ih

/-- C23: the keys of the map that `makeCyclePathMap` returns are the paths of
the known documents, in the same order; the list of a document is the list of
the references of its declarations, in declaration order and then in the
order of `uses`, repetitions kept, that are paths of known documents; so
every element of a list is the path of a known document. -/
theorem cycle_map_is_restricted_adjacency (nodesMap : NodesMap) :
    (makeCyclePathMap nodesMap).map Prod.fst = nodesMap.map Prod.fst ∧
      (∀ doc, getPaths (makeCyclePathMap nodesMap) doc =
        ((getNodes nodesMap doc).flatMap fun module => module.uses).filter
          fun use => hasKey nodesMap use) ∧
      ∀ doc, (getPaths (makeCyclePathMap nodesMap) doc).all (fun use => hasKey nodesMap use) =
        true := by
  refine ⟨by simp [makeCyclePathMap, List.map_map, Function.comp_def], ?_, ?_⟩
  · intro doc
    exact getPaths_makeCyclePathMap_aux nodesMap nodesMap doc
  · intro doc
    have hd : getPaths (makeCyclePathMap nodesMap) doc =
        ((getNodes nodesMap doc).flatMap fun module => module.uses).filter
          fun use => hasKey nodesMap use := getPaths_makeCyclePathMap_aux nodesMap nodesMap doc
    rw [hd, List.all_eq_true]
    intro use h
    exact (List.mem_filter.1 h).2

/-! ### Order of the entries of `deepFmtModules` -/

theorem fmtModule_setName (used : List String) (name other : String) (t : ModuleTree) :
    fmtModule used name (t.setName other) = fmtModule used name t := by
  cases t with
  | mk n u cs => simp [ModuleTree.setName, fmtModule, ModuleTree.uses, ModuleTree.children]

mutual
theorem fmtModule_length (used : List String) :
    ∀ (name : String) (t : ModuleTree), (fmtModule used name t).length = declCount t
  | name, .mk _ uses cs => by
    simp only [fmtModule, declCount, List.length_append, List.length_singleton]
    rw [fmtChildren_length used name cs]
theorem fmtChildren_length (used : List String) :
    ∀ (name : String) (cs : List (List ModuleTree)),
      (fmtChildren used name cs).length = declCountChildren cs
  | _, [] => by simp only [fmtChildren, declCountChildren, List.length_nil]
  | name, cfg :: rest => by
    simp only [fmtChildren, declCountChildren, List.length_append]
    rw [fmtConfig_length used name cfg, fmtChildren_length used name rest]
theorem fmtConfig_length (used : List String) :
    ∀ (name : String) (cfg : List ModuleTree),
      (fmtConfig used name cfg).length = declCountConfig cfg
  | _, [] => by simp only [fmtConfig, declCountConfig, List.length_nil]
  | name, child :: rest => by
    simp only [fmtConfig, declCountConfig, List.length_append]
    rw [fmtModule_length used (name ++ "." ++ child.name) child, fmtConfig_length used name rest]
end

/-- C24: the result of `deepFmtModules` for a module is the concatenation, over
its children in order and over the declarations of each child in declaration
order, of `deepFmtModules` of that declaration renamed to the name of the
module, a dot and its own name, followed by the module itself (with its pruned
references) as the last element; the result has one entry for every
declaration of the inlining tree. -/
theorem deepFmtModules_is_post_order (module : ModuleTree) (used : List String) :
    deepFmtModules module used =
        (module.children.flatMap fun cfg => cfg.flatMap fun child =>
          deepFmtModules (child.setName (module.name ++ "." ++ child.name)) used) ++
          [{ name := module.name, uses := pruneUses used module.uses }] ∧
      (deepFmtModules module used).getLast? =
        some { name := module.name, uses := pruneUses used module.uses } ∧
      (deepFmtModules module used).length = declCount module := by
  have heq : deepFmtModules module used =
      (module.children.flatMap fun cfg => cfg.flatMap fun child =>
        deepFmtModules (child.setName (module.name ++ "." ++ child.name)) used) ++
        [{ name := module.name, uses := pruneUses used module.uses }] := by
    unfold deepFmtModules
    rw [fmtModule_eq]
    congr 1
    apply List.flatMap_congr
    intro cfg _
    rw [fmtConfig_eq]
    apply List.flatMap_congr
    intro child _
    cases child with
    | mk n u cs =>
      simp [ModuleTree.setName, ModuleTree.name, fmtModule, ModuleTree.children, ModuleTree.uses]
  refine ⟨heq, ?_, fmtModule_length used module.name module⟩
  rw [heq, List.getLast?_append]
  simp

/-! ### The file scan -/

/-- C21, the code at the failing tree: `/ws` lists the directory `a` (with
`x.yaml`), the file `b.yaml` and the directory `z` (with `y.yaml`).  The map
returned by `GetAllConfig("/ws", nil)` holds `/ws/b.yaml` and `/ws/z/y.yaml`
but not `/ws/a/x.yaml`: the call for `a` is handed the still empty map, works
on a map of its own, and its result is dropped. -/
theorem scan_loses_leading_subdirectory :
    (∀ fuel, GetAllConfig nestedWorld (fuel + 2) "/ws" [] =
        some (.ok [("/ws/b.yaml", "selefra: {}\n"), ("/ws/z/y.yaml", "modules: []\n")], [])) ∧
      GetAllConfig nestedWorld 1 "/ws/a" [] = some (.ok [("/ws/a/x.yaml", "rules: []\n")], []) :=
  ⟨fun _ => rfl, rfl⟩

/-- C25, the code at the failing document: the declarations `r1` and `r2` both
have the directory `/ws/mods` as `uses` value.  `deepPathModules` returns
without error; `r1` is replaced by its two copies, and `r2`, which the loop
does not visit after the removal of `r1` has moved it to index 0, still has
the directory `/ws/mods`, which lists two eligible files. -/
theorem second_directory_is_not_expanded :
    deepPathModules modsFilesWorld
        [("/ws/root.yaml", yamlModulesDocument [declModsDir "r1", declModsDir "r2"])]
        ["/ws/root.yaml"] =
      .ok (none, [("/ws/root.yaml", yamlModulesDocument
        [declModsDir "r2",
          yamlMapping [("name", yamlScalar "r1"), ("uses", yamlScalar "/ws/mods/a.yaml")],
          yamlMapping [("name", yamlScalar "r1"), ("uses", yamlScalar "/ws/mods/b.yaml")]])]) ∧
    findUses "" (declModsDir "r2").content = .ok "/ws/mods" ∧
    (modsFilesWorld.fs.readDir "/ws/mods").map (eligiblePaths "/ws/mods" "/ws/root.yaml") =
      some ["/ws/mods/a.yaml", "/ws/mods/b.yaml"] :=
  ⟨rfl, rfl, by decide⟩

theorem withModules_modulesOf (node : YamlNode) (modules : List YamlNode)
    (h : modulesOf node = .ok modules) : withModules node modules = node := by
  cases node with
  | mk kind value content =>
    unfold modulesOf index at h
    simp only [YamlNode.content] at h
    cases h0 : content[0]? with
    | none => simp [h0] at h
    | some root =>
      cases root with
      | mk k1 v1 c1 =>
        simp only [h0, YamlNode.content] at h
        cases h1 : c1[1]? with
        | none => simp [h1] at h
        | some modulesNode =>
          cases modulesNode with
          | mk k2 v2 c2 =>
            simp only [h1, YamlNode.content, Except.ok.injEq] at h
            subst h
            simp only [withModules, YamlNode.setContent, YamlNode.kind, YamlNode.value,
              YamlNode.content]
            congr 1
            apply modifyAt_fix
            intro a ha
            rw [h0] at ha
            cases ha
            simp only [YamlNode.kind, YamlNode.value, YamlNode.content]
            congr 1
            apply modifyAt_fix
            intro b hb
            rw [h1] at hb
            cases hb
            rfl

/-- C26, counterexample: for the document whose one declaration is `name: r`,
`uses: []`, `deepPathModules` returns the error "Module configuration error,
missing uses". -/
theorem empty_uses_counterexample :
    deepPathModules offlineWorld [("/ws/root.yaml", yamlModulesDocument [declNoUses])]
        ["/ws/root.yaml"] =
      .ok (some "Module configuration error, missing uses",
        [("/ws/root.yaml", yamlModulesDocument [declNoUses])]) :=
  rfl

/-- The loop of lines 566-570 leaves `uses` empty for a declaration with zero
references. -/
theorem findUses_zero (decl : YamlNode) (h : ZeroReferences decl) :
    findUses "" decl.content = .ok "" := by
  rcases h with h | ⟨before, keyNode, valueNode, after, hc, hkey, hval, _, hb, ha⟩
  · exact findUses_none _ _ h
  · rw [hc, findUses_unique before after keyNode valueNode "" hkey (by rw [hval]; decide) hb ha,
      hval]

/-- C26, amended: when the loop of `deepPathModules` comes to a declaration
with zero references (no field `uses`, or a field `uses` with an empty value
and no item), the function returns the error "Module configuration error,
missing uses" and leaves the declarations as they are; for a document whose
first declaration is such a one, the document is left unchanged. -/
theorem empty_uses_is_an_error (world : World) (excludePath : String) (node decl : YamlNode)
    (rest modules : List YamlNode) (i : Nat)
    (hnode : modulesOf node = .ok (decl :: rest))
    (hzero : ZeroReferences decl)
    (hi : index modules i = .ok decl) :
    expandAt world excludePath modules i =
        .ok (some "Module configuration error, missing uses", modules) ∧
      deepPathModules world [(excludePath, node)] [excludePath] =
        .ok (some "Module configuration error, missing uses", [(excludePath, node)]) := by
  have huses := findUses_zero decl hzero
  constructor
  · simp only [expandAt, hi, huses, if_true]
  · have h0 : index (decl :: rest) 0 = .ok decl := by simp [index]
    have hr : List.range (rest.length + 1) = 0 :: (List.range rest.length).map Nat.succ := by
      rw [List.range_succ_eq_map]
    simp only [deepPathModules, List.lookup_cons, beq_self_eq_true, hnode, List.length_cons, hr,
      expandLoop, expandAt, h0, huses, if_true, withModules_modulesOf node _ hnode, setKey]

/-- Witness of C26: the declaration `name: r`, `uses: []`, as second declaration
of a list and as the one declaration of a document. -/
theorem empty_uses_is_an_error_witness :
    expandAt offlineWorld "/ws/root.yaml" [declR, declNoUses] 1 =
        .ok (some "Module configuration error, missing uses", [declR, declNoUses]) ∧
      deepPathModules offlineWorld [("/ws/root.yaml", yamlModulesDocument [declNoUses])]
          ["/ws/root.yaml"] =
        .ok (some "Module configuration error, missing uses",
          [("/ws/root.yaml", yamlModulesDocument [declNoUses])]) :=
  empty_uses_is_an_error offlineWorld "/ws/root.yaml" (yamlModulesDocument [declNoUses])
    declNoUses [] [declR, declNoUses] 1 rfl
    (Or.inr ⟨[yamlScalar "name", yamlScalar "r"], yamlScalar "uses", yamlSequence [], [],
      rfl, rfl, rfl, rfl, by decide, by simp⟩)
    rfl

/-! ### Prefix tests and segment indexing -/

/-- C27, the code at the failing references: in `getAllModules` the references
`app.selefra.io` and `app.selefra.io/org` pass the prefix test of line 507 and
the read of `modulesArr[2]` (for the first one already of `modulesArr[1]`)
panics; in `makeUsesModule` the reference `selefra.yaml` passes the prefix test
of line 633 and the read of segment 1 panics, and `app.selefra.io/org` panics
as in `getAllModules`. -/
theorem short_references_panic :
    (resolveReference offlineCollab offlineWorld "" "app.selefra.io").map (fun r => r.1) =
        .error .indexOutOfRange ∧
      (resolveReference offlineCollab offlineWorld "" "app.selefra.io/org").map (fun r => r.1) =
        .error .indexOutOfRange ∧
      (getAllModules offlineCollab 1 ⟨[], offlineWorld⟩ "" "app.selefra.io/org").map
          (fun r => r.map fun st => st.configMap) =
        some (.error .indexOutOfRange) ∧
      (rewriteUse offlineCollab offlineWorld "selefra.yaml").map (fun r => r.1) =
        .error .indexOutOfRange ∧
      (rewriteUse offlineCollab offlineWorld "app.selefra.io/org").map (fun r => r.1) =
        .error .indexOutOfRange ∧
      makeUsesModule offlineCollab offlineWorld 2 [("root.yaml", [⟨"r", ["selefra.yaml"]⟩])]
          ["root.yaml"] ["root.yaml"] =
        some (.error .indexOutOfRange) := by
  refine ⟨by decide, by decide, by decide, by decide, by decide, by decide⟩

/-- C28, the code at the failing reference: `getAllModules` treats
`selefra_rules/a.yaml` as a local path and joins it to the workspace;
`makeUsesModule` treats it as a home package named `a.yaml` and rewrites it to
the cache path followed by `_rules/a.yaml`. -/
theorem classification_differs :
    (resolveReference cachedCollab offlineWorld "/ws" "selefra_rules/a.yaml").map
        (fun r => r.1) =
      .ok ("/ws/selefra_rules/a.yaml", "/ws") ∧
    hasPrefix "selefra_rules/a.yaml" "selefra/" = false ∧
    hasPrefix "selefra_rules/a.yaml" "selefra" = true ∧
    (rewriteUse cachedCollab offlineWorld "selefra_rules/a.yaml").map (fun r => r.1) =
      .ok "/home/u/.selefra/download/modules_rules/a.yaml" ∧
    makeUsesModule cachedCollab offlineWorld 2
        [("root.yaml", [⟨"r", ["selefra_rules/a.yaml"]⟩])] ["root.yaml"] ["root.yaml"] =
      some (.ok [⟨"r", ["/home/u/.selefra/download/modules_rules/a.yaml"]⟩]) := by
  refine ⟨by decide, by decide, by decide, by decide, by decide⟩

/-! ### Table names of a query -/

/-- C29, the code at the failing texts, the table map holding `t1`: a table
name that is the last word of the text is not returned; a table name followed
by a line break and the next word is not returned either, because the line
break is deleted before the scan and the two words become one; followed by a
blank the name is returned. -/
theorem last_word_is_not_matched :
    getSqlTables "select * from t1" [("t1", true)] = [] ∧
      getSqlTables "select * from t1\nwhere id = 1" [("t1", true)] = [] ∧
      replaceAllChar "select * from t1\nwhere id = 1" '\n' "" = "select * from t1where id = 1" ∧
      getSqlTables "select * from t1 where id = 1" [("t1", true)] = ["t1"] := by
  refine ⟨by decide, by decide, by decide, by decide⟩

/-! ### Provider update -/

/-- C30, the code at the failing configuration: with the providers `gcp` and
`aws` configured in this order and the argument `aws`, `update` returns nil
and neither checks nor fetches any provider, because the loop ends at `gcp`.
With `aws` configured first it checks and fetches `aws` only, and with no
argument it checks and fetches both. -/
theorem update_stops_at_first_unnamed :
    update (twoProviders "gcp" "aws") ["aws"] = (none, []) ∧
      update (twoProviders "aws" "gcp") ["aws"] =
        (none, [.checked "aws", .fetched "aws" "v2" "aws"]) ∧
      update (twoProviders "gcp" "aws") [] =
        (none, [.checked "gcp", .fetched "gcp" "v2" "gcp", .checked "aws",
          .fetched "aws" "v2" "aws"]) := by
  refine ⟨by decide, by decide, by decide⟩

/-! ### Package references resolved against the package cache -/

/-- The classification of `getAllModules` in `resolveReference` is
`resolveReferenceWith` at the collaborator `getHomeModulesPath`. -/
theorem resolveReference_eq_with (c : Collab) (world : World) (workspace path : String) :
    resolveReference c world workspace path =
      resolveReferenceWith c.getHomeModulesPath c.workSpace world workspace path := rfl

/-- A reference `selefra/` followed by `n`: the resolved path is the string the
function in the place of `GetHomeModulesPath` returns for the first segment
`name` of `n` (empty along with an error), a slash and `n`. -/
theorem resolveReferenceWith_package {σ : Type}
    (g : σ → String → String → Except String String × σ) (workSpace : String) (st : σ)
    (workspace n name : String) (hname : index (splitSlash n) 0 = .ok name) :
    resolveReferenceWith g workSpace st workspace ("selefra/" ++ n) =
      .ok (((match (g st name "").1 with
            | .ok p => p
            | .error _ => "") ++ "/" ++ n,
          (match (g st name "").1 with
            | .ok p => p
            | .error _ => "") ++ "/" ++ name), (g st name "").2) := by
  obtain ⟨seg, rest, hseg⟩ := splitSlashAux_first [] n.data
  have hn : name = String.mk seg := by
    simp [index, splitSlash, hseg] at hname
    exact hname.symm
  subst hn
  have hp : hasPrefix ("selefra/" ++ n) "selefra/" = true := by
    simp only [hasPrefix, String.data_append, List.isPrefixOf_iff_prefix]
    exact List.prefix_append _ _
  have hs : splitSlash ("selefra/" ++ n) = "selefra" :: String.mk seg :: rest.map String.mk := by
    have := splitSlashAux_segment "selefra".data n.data [] (by decide)
    simp only [splitSlash, String.data_append]
    rw [show "selefra/".data ++ n.data = "selefra".data ++ '/' :: n.data from rfl, this, hseg]
    rfl
  have hr : ∀ mp : String, replaceFirst ("selefra/" ++ n) "selefra" mp = mp ++ "/" ++ n := by
    intro mp
    apply String.ext
    simp only [replaceFirst, String.data_append]
    rw [show "selefra/".data ++ n.data = "selefra".data ++ ('/' :: n.data) from rfl,
      replaceFirstAux_front _ _ _ (by decide)]
    simp
  simp only [resolveReferenceWith, hp, if_true, hs, index, List.getElem?_cons_succ,
    List.getElem?_cons_zero, hr]

/-- When `GetHomeModulesPath` returns an error for the first segment `name` of
`n`, `getAllModules` goes on with the empty string: the reference `selefra/`
followed by `n` is resolved to a slash and `n`. -/
theorem package_reference_after_error (reg : Registry) (st : Cache)
    (workSpace workspace n name e : String)
    (hname : index (splitSlash n) 0 = .ok name)
    (he : (GetHomeModulesPath reg st name "").1 = .error e) :
    (resolveReferenceWith (GetHomeModulesPath reg) workSpace st workspace
        ("selefra/" ++ n)).map (fun r => r.1) = .ok ("" ++ "/" ++ n, "" ++ "/" ++ name) := by
  rw [resolveReferenceWith_package (GetHomeModulesPath reg) workSpace st workspace n name hname,
    he]
  rfl

end Selefra
